import Mathlib

/-! The reflection cache of `instructions.go` (package `rcache`).

A shallow embedding of `Cache.GetTypeDataFor` and the `FieldCache` accessors.

* `reflect.Type` values are terms of `Ty`; struct types are referenced by name and their
  field lists are supplied by a declaration table (`Decls`), so that cyclic type graphs
  can be written down.
* Go pointers are addresses into an explicit heap: the `FieldCache` objects, the slice
  variables that `FieldCache.fields` points to, and the `map[string]*FieldCache` objects
  each live in a list indexed by address.  A `nil` pointer / `nil` map is `none`.
* `GetTypeDataFor` is recursive without a bound in the source; the embedding carries a
  fuel argument that is decremented on each nested call, `none` meaning that the fuel
  ran out.
-/

namespace rcache

/-! ## Type descriptors -/

/-- Type descriptors as `reflect.Type` presents them to the cache.  `basic` stands for every
kind other than pointer, struct, array, slice and map. -/
inductive Ty where
  | basic (name : String)
  | ptr (elem : Ty)
  | array (len : Nat) (elem : Ty)
  | slice (elem : Ty)
  | map (key : Ty) (elem : Ty)
  | struct (name : String)
  deriving DecidableEq, Repr

/-- A field descriptor (`reflect.StructField`): declared name, embedded flag, the tag as a
list of namespace/value pairs, and the declared type. -/
structure StructField where
  Name : String
  Anonymous : Bool
  Tag : List (String × String)
  Typ : Ty
  deriving DecidableEq, Repr

/-- The declaration table: the ordered field list of every struct type, by name. -/
abbrev Decls := String → List StructField

/-- The call `f.Tag.Get(key)`: the value stored under `key`, the empty string when absent. -/
def StructField.tagGet (f : StructField) (key : String) : String :=
  (f.Tag.lookup key).getD ""

/-- Lines 59-61 and 94-97: strip one pointer level, if there is one. -/
def Ty.deref : Ty → Ty
  | .ptr e => e
  | t => t

/-! ## The metadata policy -/

/-- The `InstructionSet` interface at metadata type `M`.  The four methods are always called
on `emptyMetadata`, the zero value of `M`, so they are plain functions here; `GetMetadata`
returns `none` for a `nil` interface value. -/
structure InstructionSet (M : Type) where
  emptyMetadata : M
  FieldName : String → String
  TagNamespace : String
  Skip : String → Bool
  GetMetadata : StructField → String → Option M

/-! ## Heap objects -/

/-- The struct `FieldCache` (the unused mutex left out): `fields` is the address of a slice
variable, `fieldMap` the address of a map object. -/
structure FieldCache (M : Type) where
  Idx : Nat
  fields : Option Nat
  fieldMap : Option Nat
  metadata : M
  deriving DecidableEq, Repr

/-- The cache `rc` together with the heap objects reachable from it: `m` is `rc.m`, a
finite map from normalised type to the address of its root node. -/
structure Cache (M : Type) where
  nodes : List (FieldCache M)
  slices : List (List Nat)
  maps : List (List (String × Nat))
  m : List (Ty × Nat)
  deriving DecidableEq, Repr

/-- Remove every binding of `k` from an association list. -/
def mapErase {α β : Type} [DecidableEq α] (k : α) : List (α × β) → List (α × β)
  | [] => []
  | (a, b) :: rest => if a = k then mapErase k rest else (a, b) :: mapErase k rest

/-- Go map assignment `mp[k] = v` on an association list: any older binding of `k` is
dropped. -/
def mapStore {α β : Type} [DecidableEq α] (k : α) (v : β) (l : List (α × β)) : List (α × β) :=
  (k, v) :: mapErase k l

/-- Go map read `mp[k]`. -/
def mapGet {α β : Type} [DecidableEq α] (l : List (α × β)) (k : α) : Option β :=
  match l with
  | [] => none
  | (a, b) :: rest => if a = k then some b else mapGet rest k

/-- The constructor `NewCache`: an empty map, nothing allocated. -/
def NewCache (M : Type) : Cache M :=
  { nodes := [], slices := [], maps := [], m := [] }

namespace Cache

variable {M : Type}

/-- Allocate a `FieldCache` object; its address is the old length of `nodes`. -/
def allocNode (c : Cache M) (n : FieldCache M) : Nat × Cache M :=
  (c.nodes.length, { c with nodes := c.nodes ++ [n] })

/-- Allocate an empty slice variable (`tmp := make([]*FieldCache, 0)`). -/
def allocSlice (c : Cache M) : Nat × Cache M :=
  (c.slices.length, { c with slices := c.slices ++ [[]] })

/-- Allocate an empty map object (`map[string]*FieldCache{}`). -/
def allocMap (c : Cache M) : Nat × Cache M :=
  (c.maps.length, { c with maps := c.maps ++ [[]] })

/-- Set `out.fields = &tmp`. -/
def setFields (c : Cache M) (out sl : Nat) : Cache M :=
  { c with nodes := c.nodes.modify (fun n => { n with fields := some sl }) out }

/-- The statement `*p = append(*p, node)` on the slice variable at address `p`. -/
def appendSlice (c : Cache M) (p node : Nat) : Cache M :=
  { c with slices := c.slices.modify (fun s => s ++ [node]) p }

/-- The statement `mp[name] = node` on the map object at address `mp`. -/
def putMap (c : Cache M) (mp : Nat) (name : String) (node : Nat) : Cache M :=
  { c with maps := c.maps.modify (fun l => mapStore name node l) mp }

/-- The statement `rc.m[t] = out`. -/
def store (c : Cache M) (t : Ty) (out : Nat) : Cache M :=
  { c with m := mapStore t out c.m }

/-- The method `Fields`: `nil` when the `fields` pointer is `nil`, the pointed-to slice
otherwise. -/
def Fields (c : Cache M) (fc : Nat) : List Nat :=
  match c.nodes[fc]? with
  | none => []
  | some n =>
    match n.fields with
    | none => []
    | some p => (c.slices[p]?).getD []

/-- The method `GetFieldByName`: a read of `fieldMap`, absent on a `nil` map. -/
def GetFieldByName (c : Cache M) (fc : Nat) (name : String) : Option Nat :=
  match c.nodes[fc]? with
  | none => none
  | some n =>
    match n.fieldMap with
    | none => none
    | some mp => mapGet ((c.maps[mp]?).getD []) name

/-- The method `InstructionData`. -/
def InstructionData (c : Cache M) (fc : Nat) : Option M :=
  (c.nodes[fc]?).map (fun n => n.metadata)

/-- The exported field `Idx` of the node at an address. -/
def IdxOf (c : Cache M) (fc : Nat) : Option Nat :=
  (c.nodes[fc]?).map (fun n => n.Idx)

end Cache

/-! ## The build -/

/-- Line 80: `len(f.Name) == 0 || (f.Name[0] >= 'a' && f.Name[0] <= 'z')`.  The first byte
of the name lies in `'a'..'z'` exactly when its first character does. -/
def lowerInitial (name : String) : Bool :=
  match name.toList with
  | [] => true
  | ch :: _ => decide ('a'.toNat ≤ ch.toNat) && decide (ch.toNat ≤ 'z'.toNat)

/-- Lines 80-89: the field passes the visibility gate and `Skip`. -/
def included {M : Type} (P : InstructionSet M) (f : StructField) : Bool :=
  !(lowerInitial f.Name && !f.Anonymous) && !P.Skip (f.tagGet P.TagNamespace)

/-- Lines 90-93: `FieldName(tag)`, or the declared name when that is empty. -/
def resolvedName {M : Type} (P : InstructionSet M) (f : StructField) : String :=
  let fieldName := P.FieldName (f.tagGet P.TagNamespace)
  if fieldName.length = 0 then f.Name else fieldName

/-- Lines 75-78: on a `nil` `out.fields`, allocate the slice variable and point `out.fields`
at it; the result is the address `out.fields` holds afterwards. -/
def ensureFields {M : Type} (c : Cache M) (out : Nat) : Nat × Cache M :=
  match (c.nodes[out]?).bind (fun n => n.fields) with
  | some sl => (sl, c)
  | none =>
    let (sl, c) := c.allocSlice
    (sl, c.setFields out sl)

/-- The dereference `*p` of a node pointer (line 108).  Every pointer the build follows is
valid; an address outside the heap reads as the zero node so that the function is total. -/
def loadNode {M : Type} (P : InstructionSet M) (c : Cache M) (p : Nat) : FieldCache M :=
  (c.nodes[p]?).getD { Idx := 0, fields := none, fieldMap := none, metadata := P.emptyMetadata }

/-- Lines 74-118: the loop over the fields of the struct type `t`, from position `i` on.
`out` is the address of the node under construction, `mp` the address of `out.fieldMap`,
and `call` is the nested `rc.GetTypeDataFor`; `none` is passed on from a nested call that
ran out of fuel. -/
def structLoop {M : Type} (P : InstructionSet M)
    (call : Cache M → Ty → Option (Nat × Cache M)) (t : Ty) (out mp : Nat) :
    List StructField → Nat → Cache M → Option (Cache M)
  | [], _, c => some c
  | f :: rest, i, c =>
    -- lines 75-78
    let (sl, c) := ensureFields c out
    -- lines 80-85
    if lowerInitial f.Name && !f.Anonymous then
      structLoop P call t out mp rest (i + 1) c
    else
      -- lines 86-89
      let tag := f.tagGet P.TagNamespace
      if P.Skip tag then
        structLoop P call t out mp rest (i + 1) c
      else
        let fieldName := resolvedName P f
        -- lines 94-106
        if f.Typ.deref = t then
          let (node, c) := c.allocNode
            { Idx := i, fields := some sl, fieldMap := none, metadata := P.emptyMetadata }
          let c := c.appendSlice sl node
          let c := c.putMap mp fieldName node
          structLoop P call t out mp rest (i + 1) c
        else
          -- lines 108-117
          match call c f.Typ with
          | none => none
          | some (r, c) =>
            let cData := loadNode P c r
            let md := (P.GetMetadata f tag).getD P.emptyMetadata
            let (child, c) := c.allocNode { cData with Idx := i, metadata := md }
            let c := c.appendSlice sl child
            let c := c.putMap mp fieldName child
            structLoop P call t out mp rest (i + 1) c

/-- The method `Cache.GetTypeDataFor`, with fuel for the nested calls. -/
def GetTypeDataFor {M : Type} (P : InstructionSet M) (decls : Decls) :
    Nat → Cache M → Ty → Option (Nat × Cache M)
  | 0, _, _ => none
  | fuel + 1, c, t0 =>
    -- lines 59-61
    let t := t0.deref
    -- lines 62-67
    match mapGet c.m t with
    | some cData => some (cData, c)
    | none =>
      -- lines 69-71
      let (mp, c) := c.allocMap
      let (out, c) := c.allocNode
        { Idx := 0, fields := none, fieldMap := some mp, metadata := P.emptyMetadata }
      match t with
      | .struct name =>
        match structLoop P (GetTypeDataFor P decls fuel) t out mp (decls name) 0 c with
        | none => none
        | some c => some (out, c.store t out)
      | .array _ e =>
        match GetTypeDataFor P decls fuel c e with
        | none => none
        | some (out, c) => some (out, c.store t out)
      | .slice e =>
        match GetTypeDataFor P decls fuel c e with
        | none => none
        | some (out, c) => some (out, c.store t out)
      | .map _ e =>
        match GetTypeDataFor P decls fuel c e with
        | none => none
        | some (out, c) => some (out, c.store t out)
      | _ =>
        -- lines 121-122
        let (out, c) := c.allocNode
          { Idx := 0, fields := none, fieldMap := none, metadata := P.emptyMetadata }
        some (out, c.store t out)

/-! ## Vocabulary of the proofs -/

section Vocabulary

variable {M : Type}

/-- Everything allocated in `c` is still there, unchanged, in the later state: the nodes
outside `N`, the slice variables outside `S`, the map objects outside `K`, and every binding
of `rc.m`. -/
structure Frame (N S K : Nat → Prop) (c d : Cache M) : Prop where
  nodes : ∀ i, i < c.nodes.length → ¬ N i → d.nodes[i]? = c.nodes[i]?
  slices : ∀ i, i < c.slices.length → ¬ S i → d.slices[i]? = c.slices[i]?
  maps : ∀ i, i < c.maps.length → ¬ K i → d.maps[i]? = c.maps[i]?
  nodesLen : c.nodes.length ≤ d.nodes.length
  slicesLen : c.slices.length ≤ d.slices.length
  mapsLen : c.maps.length ≤ d.maps.length
  keys : ∀ k v, mapGet c.m k = some v → mapGet d.m k = some v

/-- The later state extends the earlier one and changes nothing in it. -/
abbrev Grows (c d : Cache M) : Prop :=
  Frame (fun _ => False) (fun _ => False) (fun _ => False) c d

/-- Every root address held by `rc.m` is allocated. -/
def Cache.WF (c : Cache M) : Prop :=
  ∀ k v, mapGet c.m k = some v → v < c.nodes.length

/-- One appended child: the declaration position, the field, and the address of its node. -/
structure Entry where
  pos : Nat
  fld : StructField
  addr : Nat

/-- The fields of a list that pass the gate of lines 80-89, with their positions counted
from `i`. -/
def includedFrom (P : InstructionSet M) : List StructField → Nat → List (Nat × StructField)
  | [], _ => []
  | f :: rest, i =>
    if included P f then (i, f) :: includedFrom P rest (i + 1) else includedFrom P rest (i + 1)

/-- The name index after the entries have been assigned in order (line 104 / line 117). -/
def indexAfter (P : InstructionSet M) (es : List Entry) (m0 : List (String × Nat)) :
    List (String × Nat) :=
  es.foldl (fun acc e => mapStore (resolvedName P e.fld) e.addr acc) m0

/-- What the loop leaves at the address of an entry: the aliasing node of lines 99-102 for a
direct self-reference, otherwise the copy of lines 108-115 of the root found for the field's
type. -/
def NodeOK (P : InstructionSet M) (t : Ty) (fo : Option Nat) (c : Cache M) (e : Entry) :
    Prop :=
  if e.fld.Typ.deref = t then
    c.nodes[e.addr]? = some
      { Idx := e.pos, fields := fo, fieldMap := none, metadata := P.emptyMetadata }
  else
    ∃ q nd, mapGet c.m e.fld.Typ.deref = some q ∧ c.nodes[q]? = some nd ∧
      c.nodes[e.addr]? = some
        { nd with
          Idx := e.pos
          metadata := (P.GetMetadata e.fld (e.fld.tagGet P.TagNamespace)).getD P.emptyMetadata }

/-- What the loop needs from the nested call: it keeps the cache well formed, changes nothing
that exists, and returns an allocated root that `rc.m` holds for the normalised type. -/
def CallSpec (call : Cache M → Ty → Option (Nat × Cache M)) : Prop :=
  ∀ c t r d, c.WF → call c t = some (r, d) →
    d.WF ∧ Grows c d ∧ r < d.nodes.length ∧ mapGet d.m t.deref = some r

end Vocabulary

section Vocabulary2

variable {M : Type}

/-- The node allocated on line 69: no fields yet, a fresh name index at `mp`. -/
def rootNode (P : InstructionSet M) (mp : Nat) : FieldCache M :=
  { Idx := 0, fields := none, fieldMap := some mp, metadata := P.emptyMetadata }

/-- The empty node of line 122. -/
def emptyNode (P : InstructionSet M) : FieldCache M :=
  { Idx := 0, fields := none, fieldMap := none, metadata := P.emptyMetadata }

/-- The state after lines 69-71 of a call that missed the cache. -/
def afterAlloc (P : InstructionSet M) (c : Cache M) : Cache M :=
  ((c.allocMap.2).allocNode (rootNode P c.maps.length)).2

end Vocabulary2

section Vocabulary3

variable {M : Type}

/-- What the accessors report about the child node of one included field, in terms of the
root `r` of the enclosing struct type `t`: its `Idx` is the field's position; for a direct
self-reference it shares the root's child list, has no name index and default metadata;
otherwise it shares child list and name index with the root `rc.m` holds for the field's
type, and carries `GetMetadata`'s result, or the default when that is `nil`. -/
def ChildOK (P : InstructionSet M) (t : Ty) (d : Cache M) (r : Nat) (e : Entry) : Prop :=
  d.IdxOf e.addr = some e.pos ∧
  (e.fld.Typ.deref = t →
    d.Fields e.addr = d.Fields r ∧ (∀ s, d.GetFieldByName e.addr s = none) ∧
    d.InstructionData e.addr = some P.emptyMetadata) ∧
  (e.fld.Typ.deref ≠ t →
    ∃ q, mapGet d.m e.fld.Typ.deref = some q ∧ q < d.nodes.length ∧
      d.Fields e.addr = d.Fields q ∧
      (∀ s, d.GetFieldByName e.addr s = d.GetFieldByName q s) ∧
      d.InstructionData e.addr =
        some ((P.GetMetadata e.fld (e.fld.tagGet P.TagNamespace)).getD P.emptyMetadata))

/-- The outcome of building the struct type `name` on a cache miss, at the level of the
accessors: `es` lists the appended children in order. -/
structure Built (P : InstructionSet M) (decls : Decls) (name : String) (c d : Cache M)
    (r : Nat) (es : List Entry) : Prop where
  entries : es.map (fun e => (e.pos, e.fld)) = includedFrom P (decls name) 0
  fields : d.Fields r = es.map (fun e => e.addr)
  byName : ∀ s, d.GetFieldByName r s = mapGet (indexAfter P es []) s
  rootIdx : d.IdxOf r = some 0
  rootData : d.InstructionData r = some P.emptyMetadata
  child : ∀ e ∈ es, ChildOK P (.struct name) d r e
  grows : Grows c d
  wf : d.WF
  stored : mapGet d.m (.struct name) = some r
  fresh : r = c.nodes.length

end Vocabulary3

/-! ## The policy and the struct types of `instructions_test.go` -/

/-- The test's metadata type `InstructionSet` (lines 37-39). -/
structure TestInstructions where
  AllowedGroups : List String
  deriving DecidableEq, Repr

/-- The call `strings.Split(s, ",")` on the characters of `s`. -/
def splitComma : List Char → List (List Char)
  | [] => [[]]
  | ch :: rest =>
    if ch = ',' then [] :: splitComma rest
    else
      match splitComma rest with
      | [] => [[ch]]
      | p :: ps => (ch :: p) :: ps

/-- The predicate `unicode.IsSpace` that `strings.TrimSpace` applies: tab, line feed,
vertical tab, form feed, carriage return, space, U+0085, U+00A0, and the other code points
with the Unicode property White_Space. -/
def isGoSpace (ch : Char) : Bool :=
  let n := ch.toNat
  decide (n = 0x20) || (decide (0x09 ≤ n) && decide (n ≤ 0x0D)) || decide (n = 0x85) ||
    decide (n = 0xA0) || decide (n = 0x1680) || (decide (0x2000 ≤ n) && decide (n ≤ 0x200A)) ||
    decide (n = 0x2028) || decide (n = 0x2029) || decide (n = 0x202F) ||
    decide (n = 0x205F) || decide (n = 0x3000)

/-- Drop leading white space. -/
def trimLeft : List Char → List Char
  | [] => []
  | ch :: rest => if isGoSpace ch then trimLeft rest else ch :: rest

/-- The call `strings.TrimSpace`: leading and trailing white space removed. -/
def trimSpace (s : List Char) : List Char :=
  (trimLeft (trimLeft s).reverse).reverse

/-- The policy of `instructions_test.go`, lines 48-73: the namespace is `redact`, the name
override is the tag's first comma-separated part, a field is skipped when its tag is `-`,
and `GetMetadata` returns `nil` when the tag's first part is `-` and the lower-cased,
trimmed tag parts otherwise.  Lower-casing is `Char.toLower`, which maps `A`..`Z`;
`strings.ToLower` maps the upper-case letters outside ASCII as well, and the two agree on
every tag made of ASCII characters. -/
def testPolicy : InstructionSet TestInstructions where
  emptyMetadata := { AllowedGroups := [] }
  TagNamespace := "redact"
  FieldName := fun tag => String.mk ((splitComma tag.toList).headD [])
  Skip := fun tag => decide (tag = "-")
  GetMetadata := fun _ tag =>
    let tagParts := splitComma tag.toList
    if tagParts.headD [] = ['-'] then none
    else if 0 < (tagParts.headD []).length then
      some { AllowedGroups :=
        tagParts.map (fun v => String.mk ((trimSpace v).map Char.toLower)) }
    else some { AllowedGroups := [] }

/-- The Go type `string`. -/
def tyString : Ty := .basic "string"

/-- The struct types declared in `instructions_test.go`, lines 13-35. -/
def testDecls : Decls := fun n =>
  if n = "embeddedStruct" then
    [ ⟨"a", false, [], tyString⟩,
      ⟨"B", false, [("redact", "admin")], tyString⟩,
      ⟨"C", false, [("redact", "-")], tyString⟩ ]
  else if n = "simpleStruct" then
    [ ⟨"a", false, [], tyString⟩,
      ⟨"B", false, [("redact", "admin")], tyString⟩,
      ⟨"C", false, [("redact", "-")], tyString⟩,
      ⟨"embeddedStruct", true, [], .struct "embeddedStruct"⟩ ]
  else if n = "complexStruct" then
    [ ⟨"embeddedStruct", true, [], .struct "embeddedStruct"⟩,
      ⟨"EM", false, [("redact", "admin")], .struct "embeddedStruct"⟩,
      ⟨"EM2", false, [("redact", "-")], .struct "embeddedStruct"⟩ ]
  else if n = "RecursiveStruct" then
    [ ⟨"R", false, [("redact", "admin")], .ptr (.struct "RecursiveStruct")⟩,
      ⟨"A", false, [("redact", "admin")], tyString⟩ ]
  else []

/-! ## The claims' own words -/

section ClaimWords

variable {M : Type}

/-- The name starts with an ASCII letter `'a'..'z'`. -/
def startsWithAsciiLower (name : String) : Bool :=
  match name.toList with
  | [] => false
  | ch :: _ => decide ('a'.toNat ≤ ch.toNat) && decide (ch.toNat ≤ 'z'.toNat)

/-- The inclusion condition as the specification words it: the field is anonymous, or its
name is non-empty and does not start with an ASCII letter `'a'..'z'`; and `Skip` of its tag
is false. -/
def specIncluded (P : InstructionSet M) (f : StructField) : Bool :=
  (f.Anonymous || (decide (f.Name.toList ≠ []) && !startsWithAsciiLower f.Name)) &&
    !P.Skip (f.tagGet P.TagNamespace)

/-- The ascending list of the declaration positions of the fields that satisfy
`specIncluded`. -/
def specPositions (P : InstructionSet M) (fs : List StructField) : List Nat :=
  (List.range fs.length).filter
    (fun i => match fs[i]? with
      | some f => specIncluded P f
      | none => false)

end ClaimWords

/-! ## Further struct types used as concrete inputs -/

/-- Struct types beyond those of the test file:
`scenarioA { a string; C string "-" }`, `nilMeta { B string "-,x" }`,
`underscore { _x string }`, `sliceSelf { Kids []sliceSelf }`,
`mutA { B *mutB }`, `mutB { A *mutA }`, `ptrptr { F **ptrptr }`,
`item { B string "admin" }`, `holder { Items []item; Direct item }`. -/
def scenarioDecls : Decls := fun n =>
  if n = "scenarioA" then
    [ ⟨"a", false, [], tyString⟩, ⟨"C", false, [("redact", "-")], tyString⟩ ]
  else if n = "nilMeta" then
    [ ⟨"B", false, [("redact", "-,x")], tyString⟩ ]
  else if n = "underscore" then
    [ ⟨"_x", false, [], tyString⟩ ]
  else if n = "sliceSelf" then
    [ ⟨"Kids", false, [], .slice (.struct "sliceSelf")⟩ ]
  else if n = "mutA" then
    [ ⟨"B", false, [], .ptr (.struct "mutB")⟩ ]
  else if n = "mutB" then
    [ ⟨"A", false, [], .ptr (.struct "mutA")⟩ ]
  else if n = "ptrptr" then
    [ ⟨"F", false, [], .ptr (.ptr (.struct "ptrptr"))⟩ ]
  else if n = "item" then
    [ ⟨"B", false, [("redact", "admin")], tyString⟩ ]
  else if n = "holder" then
    [ ⟨"Items", false, [], .slice (.struct "item")⟩, ⟨"Direct", false, [], .struct "item"⟩ ]
  else testDecls n

section Vocabulary4

variable {M : Type}

/-- The last entry of a list whose resolved name is `s`. -/
def lastNamed (P : InstructionSet M) (s : String) : List Entry → Option Entry
  | [] => none
  | e :: rest =>
    match lastNamed P s rest with
    | some e2 => some e2
    | none => if resolvedName P e.fld = s then some e else none

end Vocabulary4

/-- The type is a pointer type. -/
def Ty.isPtr : Ty → Bool
  | .ptr _ => true
  | _ => false

/-- No pointer-to-pointer type occurs where the build would request it: in the type itself,
in a pointee, or in the element type of a container. -/
def Ty.noPtrPtr : Ty → Bool
  | .ptr e => !e.isPtr && e.noPtrPtr
  | .array _ e => e.noPtrPtr
  | .slice e => e.noPtrPtr
  | .map _ e => e.noPtrPtr
  | _ => true

section Vocabulary4

variable {M : Type}

/-- The method `t.Elem()` on the container kinds of line 119: the element type of an array or
slice, the value type of a map. -/
def Ty.Elem : Ty → Option Ty
  | .array _ e => some e
  | .slice e => some e
  | .map _ e => some e
  | _ => none

/-- The normalised types for which building the normalised type `t` on a cache miss makes a
nested call: for a struct the types of its included fields that are not direct
self-references (lines 80-98, 108), for a container its element type (line 120). -/
def requests (P : InstructionSet M) (decls : Decls) : Ty → List Ty
  | .struct name =>
    ((decls name).filter
      (fun f => included P f && !decide (f.Typ.deref = .struct name))).map
      (fun f => f.Typ.deref)
  | .array _ e => [e.deref]
  | .slice e => [e.deref]
  | .map _ e => [e.deref]
  | _ => []

/-- A chain of nested requests from `a` to `k` through types that `m` does not hold. -/
inductive ReachM (P : InstructionSet M) (decls : Decls) (m : List (Ty × Nat)) :
    Ty → Ty → Prop
  | refl (a : Ty) : mapGet m a = none → ReachM P decls m a a
  | step (a b k : Ty) : mapGet m a = none → b ∈ requests P decls a →
      ReachM P decls m b k → ReachM P decls m a k

/-- A container type held by `rc.m` is held with the root of its element type. -/
def ContainerInv (m : List (Ty × Nat)) : Prop :=
  ∀ K E r, K.Elem = some E → mapGet m K = some r → mapGet m E.deref = some r

/-- The cache states a program can reach: `NewCache()` followed by calls of
`GetTypeDataFor` that return. -/
inductive Reachable (P : InstructionSet M) (decls : Decls) : Cache M → Prop
  | fresh : Reachable P decls (NewCache M)
  | call (fuel : Nat) (c : Cache M) (t : Ty) (r : Nat) (d : Cache M) :
      Reachable P decls c → GetTypeDataFor P decls fuel c t = some (r, d) →
      Reachable P decls d

end Vocabulary4

section Vocabulary5

variable {M : Type}

/-- The kinds of the default branch of line 121, as far as the model tells them apart. -/
def Ty.isLeaf : Ty → Bool
  | .basic _ => true
  | .ptr _ => true
  | _ => false

/-- What a stored root of the struct type `name` looks like on the heap: the node of line 69
with the child list and name index the loop assembled for the included fields.  `S` and `K`
are slice variables and map objects still being written by unfinished builds; a stored root
uses none of them. -/
def StructOK (P : InstructionSet M) (decls : Decls) (S K : Nat → Prop) (c : Cache M)
    (name : String) (q : Nat) : Prop :=
  ∃ (fo : Option Nat) (mq : Nat) (es : List Entry),
    ¬ K mq ∧
    c.nodes[q]? = some { rootNode P mq with fields := fo } ∧
    c.maps[mq]? = some (indexAfter P es []) ∧
    es.map (fun e => (e.pos, e.fld)) = includedFrom P (decls name) 0 ∧
    c.Fields q = es.map (fun e => e.addr) ∧
    (∀ fq, fo = some fq → ¬ S fq ∧ fq < c.slices.length) ∧
    ∀ e ∈ es, NodeOK P (.struct name) fo c e

/-- What `rc.m[key] = q` stands for, by the kind of the key: a finished struct root, the
root of the element type for a container, the empty node of line 122 otherwise. -/
def RootOK (P : InstructionSet M) (decls : Decls) (S K : Nat → Prop) (c : Cache M)
    (key : Ty) (q : Nat) : Prop :=
  (∀ name, key = .struct name → StructOK P decls S K c name q) ∧
  (∀ e, key.Elem = some e → mapGet c.m e.deref = some q) ∧
  (key.isLeaf = true → c.nodes[q]? = some (emptyNode P))

/-- Every binding of `rc.m` is a finished root that stays clear of `S` and `K`. -/
def SoundEx (P : InstructionSet M) (decls : Decls) (S K : Nat → Prop) (c : Cache M) : Prop :=
  ∀ key q, mapGet c.m key = some q → RootOK P decls S K c key q

/-- Every binding of `rc.m` is a finished root. -/
abbrev Sound (P : InstructionSet M) (decls : Decls) (c : Cache M) : Prop :=
  SoundEx P decls (fun _ => False) (fun _ => False) c

end Vocabulary5

section Vocabulary6

variable {M : Type}

/-- The trees at `a` in `c` and at `b` in `d` are equal down to depth `k`: the same `Idx`
and metadata, child lists of equal length with equal trees position by position, and name
indexes that hold the same names with equal trees behind each name. -/
def SameTree : Nat → Cache M → Nat → Cache M → Nat → Prop
  | 0, _, _, _, _ => True
  | k + 1, c, a, d, b =>
    c.IdxOf a = d.IdxOf b ∧ c.InstructionData a = d.InstructionData b ∧
    List.Forall₂ (fun x y => SameTree k c x d y) (c.Fields a) (d.Fields b) ∧
    ∀ s, Option.Rel (fun x y => SameTree k c x d y) (c.GetFieldByName a s)
      (d.GetFieldByName b s)

/-- Two nodes that agree on `Idx` and metadata and take their child list from the roots the
two caches hold for one key, and their name index either from those roots too or from
nowhere (`nil`). -/
def Twin (c : Cache M) (a : Nat) (d : Cache M) (b : Nat) : Prop :=
  c.IdxOf a = d.IdxOf b ∧ c.InstructionData a = d.InstructionData b ∧
  ∃ key q q2, mapGet c.m key = some q ∧ mapGet d.m key = some q2 ∧
    c.Fields a = c.Fields q ∧ d.Fields b = d.Fields q2 ∧
    (((∀ s, c.GetFieldByName a s = c.GetFieldByName q s) ∧
        ∀ s, d.GetFieldByName b s = d.GetFieldByName q2 s) ∨
      ((∀ s, c.GetFieldByName a s = none) ∧ ∀ s, d.GetFieldByName b s = none))

/-- The state `d` comes from `c` by a finite sequence of returning calls. -/
inductive Later (P : InstructionSet M) (decls : Decls) (c : Cache M) : Cache M → Prop
  | refl : Later P decls c c
  | call (fuel : Nat) (d : Cache M) (t : Ty) (r : Nat) (e : Cache M) :
      Later P decls c d → GetTypeDataFor P decls fuel d t = some (r, e) → Later P decls c e

end Vocabulary6

/-- The cache state a request leaves behind; the state as it was when the fuel does not
suffice. -/
def stateAfter {M : Type} (P : InstructionSet M) (decls : Decls) (fuel : Nat) (c : Cache M)
    (t : Ty) : Cache M :=
  match GetTypeDataFor P decls fuel c t with
  | some (_, d) => d
  | none => c

/-- The type `t` normalises to the key `k`: directly or through one pointer (`t.deref`), or
through a container whose element type normalises to `k`. -/
inductive NormalisesTo : Ty → Ty → Prop
  | direct (t : Ty) : NormalisesTo t t.deref
  | elem (t e k : Ty) : t.deref.Elem = some e → NormalisesTo e k → NormalisesTo t k

/-- Struct types with pointer fields of different depth:
`leafy { B string }`, `owner { PP **leafy; P *leafy; V leafy }`, `selfpp { F **selfpp }`. -/
def pointerDecls : Decls := fun n =>
  if n = "leafy" then
    [ ⟨"B", false, [], tyString⟩ ]
  else if n = "owner" then
    [ ⟨"PP", false, [], .ptr (.ptr (.struct "leafy"))⟩,
      ⟨"P", false, [], .ptr (.struct "leafy")⟩,
      ⟨"V", false, [], .struct "leafy"⟩ ]
  else if n = "selfpp" then
    [ ⟨"F", false, [], .ptr (.ptr (.struct "selfpp"))⟩ ]
  else []

section Vocabulary7

variable {M : Type}

/-- The tree at `n` is in `d` what it was in `c`, node for node down to depth `k`: at every
node the same `Idx`, metadata, child list and name index, the same nodes behind them. -/
def Untouched : Nat → Cache M → Cache M → Nat → Prop
  | 0, _, _, _ => True
  | k + 1, c, d, n =>
    d.IdxOf n = c.IdxOf n ∧ d.InstructionData n = c.InstructionData n ∧
    d.Fields n = c.Fields n ∧ (∀ s, d.GetFieldByName n s = c.GetFieldByName n s) ∧
    (∀ x ∈ c.Fields n, Untouched k c d x) ∧
    ∀ s x, c.GetFieldByName n s = some x → Untouched k c d x

/-- The node at `n` is allocated, and so are the slice variable and the map object it
points to. -/
def NodeClosed (c : Cache M) (n : Nat) : Prop :=
  ∃ nd, c.nodes[n]? = some nd ∧ (∀ fq, nd.fields = some fq → fq < c.slices.length) ∧
    ∀ mq, nd.fieldMap = some mq → mq < c.maps.length

/-- A closed node whose child list is that of a stored root, and whose name index is that
root's or `nil`. -/
def Kin (c : Cache M) (n : Nat) : Prop :=
  NodeClosed c n ∧ ∃ key q, mapGet c.m key = some q ∧ c.Fields n = c.Fields q ∧
    ((∀ s, c.GetFieldByName n s = c.GetFieldByName q s) ∨ ∀ s, c.GetFieldByName n s = none)

end Vocabulary7

/-! ## Finite maps, heap frames, and the loop -/

section Lemmas

variable {M : Type} {α β : Type} [DecidableEq α]

theorem mapGet_mapErase_ne (l : List (α × β)) (k x : α) (h : x ≠ k) :
    mapGet (mapErase k l) x = mapGet l x := by
  induction l with
  | nil => rfl
  | cons e rest ih =>
    obtain ⟨a, b⟩ := e
    by_cases hak : a = k
    · have hax : ¬ a = x := fun hax => h (hax ▸ hak)
      simp only [mapErase, if_pos hak, mapGet, if_neg hax, ih]
    · by_cases hax : a = x
      · simp only [mapErase, if_neg hak, mapGet, if_pos hax]
      · simp only [mapErase, if_neg hak, mapGet, if_neg hax, ih]

theorem mapGet_mapErase_self (l : List (α × β)) (k : α) :
    mapGet (mapErase k l) k = none := by
  induction l with
  | nil => rfl
  | cons e rest ih =>
    obtain ⟨a, b⟩ := e
    by_cases hak : a = k
    · simp only [mapErase, if_pos hak, ih]
    · simp only [mapErase, if_neg hak, mapGet, ih]

theorem mapGet_mapStore_self (l : List (α × β)) (k : α) (v : β) :
    mapGet (mapStore k v l) k = some v := by
  simp [mapStore, mapGet]

theorem mapGet_mapStore_ne (l : List (α × β)) (k x : α) (v : β) (h : x ≠ k) :
    mapGet (mapStore k v l) x = mapGet l x := by
  have hkx : k ≠ x := fun e => h e.symm
  simp only [mapStore, mapGet, if_neg hkx]
  exact mapGet_mapErase_ne l k x h

theorem mapGet_mem (l : List (α × β)) (k : α) (v : β) (h : mapGet l k = some v) :
    (k, v) ∈ l := by
  induction l with
  | nil => simp [mapGet] at h
  | cons e rest ih =>
    obtain ⟨a, b⟩ := e
    by_cases hak : a = k
    · simp [mapGet, hak] at h
      simp [hak, h]
    · simp [mapGet, hak] at h
      exact List.mem_cons_of_mem _ (ih h)

theorem Frame.refl (N S K : Nat → Prop) (c : Cache M) : Frame N S K c c :=
  ⟨fun _ _ _ => rfl, fun _ _ _ => rfl, fun _ _ _ => rfl, le_rfl, le_rfl, le_rfl, fun _ _ h => h⟩

theorem Frame.trans {N S K : Nat → Prop} {c d e : Cache M} (h1 : Frame N S K c d)
    (h2 : Frame N S K d e) : Frame N S K c e where
  nodes i hi hN := (h2.nodes i (lt_of_lt_of_le hi h1.nodesLen) hN).trans (h1.nodes i hi hN)
  slices i hi hS := (h2.slices i (lt_of_lt_of_le hi h1.slicesLen) hS).trans (h1.slices i hi hS)
  maps i hi hK := (h2.maps i (lt_of_lt_of_le hi h1.mapsLen) hK).trans (h1.maps i hi hK)
  nodesLen := le_trans h1.nodesLen h2.nodesLen
  slicesLen := le_trans h1.slicesLen h2.slicesLen
  mapsLen := le_trans h1.mapsLen h2.mapsLen
  keys k v h := h2.keys k v (h1.keys k v h)

theorem Frame.mono {N S K N2 S2 K2 : Nat → Prop} {c d : Cache M} (h : Frame N S K c d)
    (hN : ∀ i, N i → N2 i) (hS : ∀ i, S i → S2 i) (hK : ∀ i, K i → K2 i) :
    Frame N2 S2 K2 c d where
  nodes i hi hn := h.nodes i hi (fun hs => hn (hN i hs))
  slices i hi hn := h.slices i hi (fun hs => hn (hS i hs))
  maps i hi hn := h.maps i hi (fun hk => hn (hK i hk))
  nodesLen := h.nodesLen
  slicesLen := h.slicesLen
  mapsLen := h.mapsLen
  keys := h.keys

theorem Grows.frame {N S K : Nat → Prop} {c d : Cache M} (h : Grows c d) : Frame N S K c d :=
  Frame.mono h (fun _ hf => hf.elim) (fun _ hf => hf.elim) (fun _ hf => hf.elim)

theorem Frame.node_some {N S K : Nat → Prop} {c d : Cache M} (h : Frame N S K c d) {i : Nat}
    {n : FieldCache M} (hN : ¬ N i) (hn : c.nodes[i]? = some n) : d.nodes[i]? = some n := by
  have hi : i < c.nodes.length := by
    rcases List.getElem?_eq_some.mp hn with ⟨hi, _⟩
    exact hi
  rw [h.nodes i hi hN, hn]

theorem Frame.below {N S K : Nat → Prop} {b c d : Cache M} (h0 : Grows b c)
    (h : Frame N S K c d) (hN : ∀ i, N i → b.nodes.length ≤ i)
    (hS : ∀ i, S i → b.slices.length ≤ i) (hK : ∀ i, K i → b.maps.length ≤ i) :
    Grows b d where
  nodes i hi _ := by
    rw [h.nodes i (lt_of_lt_of_le hi h0.nodesLen) (fun hn => absurd (hN i hn) (by omega))]
    exact h0.nodes i hi (fun hf => hf)
  slices i hi _ := by
    rw [h.slices i (lt_of_lt_of_le hi h0.slicesLen) (fun hn => absurd (hS i hn) (by omega))]
    exact h0.slices i hi (fun hf => hf)
  maps i hi _ := by
    rw [h.maps i (lt_of_lt_of_le hi h0.mapsLen) (fun hn => absurd (hK i hn) (by omega))]
    exact h0.maps i hi (fun hf => hf)
  nodesLen := le_trans h0.nodesLen h.nodesLen
  slicesLen := le_trans h0.slicesLen h.slicesLen
  mapsLen := le_trans h0.mapsLen h.mapsLen
  keys k v hk := h.keys k v (h0.keys k v hk)

theorem grows_allocNode (c : Cache M) (n : FieldCache M) : Grows c (c.allocNode n).2 where
  nodes i hi _ := by simp [Cache.allocNode, List.getElem?_append_left hi]
  slices _ _ _ := rfl
  maps _ _ _ := rfl
  nodesLen := by simp [Cache.allocNode]
  slicesLen := le_rfl
  mapsLen := le_rfl
  keys _ _ h := h

theorem grows_allocSlice (c : Cache M) : Grows c c.allocSlice.2 where
  nodes _ _ _ := rfl
  slices i hi _ := by simp [Cache.allocSlice, List.getElem?_append_left hi]
  maps _ _ _ := rfl
  nodesLen := le_rfl
  slicesLen := by simp [Cache.allocSlice]
  mapsLen := le_rfl
  keys _ _ h := h

theorem grows_allocMap (c : Cache M) : Grows c c.allocMap.2 where
  nodes _ _ _ := rfl
  slices _ _ _ := rfl
  maps i hi _ := by simp [Cache.allocMap, List.getElem?_append_left hi]
  nodesLen := le_rfl
  slicesLen := le_rfl
  mapsLen := by simp [Cache.allocMap]
  keys _ _ h := h

theorem frame_appendSlice (N K : Nat → Prop) (c : Cache M) (p node : Nat) :
    Frame N (fun i => i = p) K c (c.appendSlice p node) where
  nodes _ _ _ := rfl
  slices i _ hne := by
    have : p ≠ i := fun e => hne e.symm
    simp [Cache.appendSlice, List.getElem?_modify_ne _ _ this]
  maps _ _ _ := rfl
  nodesLen := le_rfl
  slicesLen := by simp [Cache.appendSlice]
  mapsLen := le_rfl
  keys _ _ h := h

theorem frame_putMap (N S : Nat → Prop) (c : Cache M) (mp node : Nat) (name : String) :
    Frame N S (fun i => i = mp) c (c.putMap mp name node) where
  nodes _ _ _ := rfl
  slices _ _ _ := rfl
  maps i _ hne := by
    have : mp ≠ i := fun e => hne e.symm
    simp [Cache.putMap, List.getElem?_modify_ne _ _ this]
  nodesLen := le_rfl
  slicesLen := le_rfl
  mapsLen := by simp [Cache.putMap]
  keys _ _ h := h

theorem frame_setFields (S K : Nat → Prop) (c : Cache M) (out sl : Nat) :
    Frame (fun i => i = out) S K c (c.setFields out sl) where
  nodes i _ hne := by
    have : out ≠ i := fun e => hne e.symm
    simp [Cache.setFields, List.getElem?_modify_ne _ _ this]
  slices _ _ _ := rfl
  maps _ _ _ := rfl
  nodesLen := by simp [Cache.setFields]
  slicesLen := le_rfl
  mapsLen := le_rfl
  keys _ _ h := h

theorem grows_store {c d : Cache M} (t : Ty) (out : Nat) (hg : Grows c d)
    (hmiss : mapGet c.m t = none) : Grows c (d.store t out) where
  nodes := hg.nodes
  slices := hg.slices
  maps := hg.maps
  nodesLen := hg.nodesLen
  slicesLen := hg.slicesLen
  mapsLen := hg.mapsLen
  keys k v h := by
    have hk : k ≠ t := by
      intro e
      rw [e, hmiss] at h
      exact Option.noConfusion h
    simpa [Cache.store, mapGet_mapStore_ne _ _ _ _ hk] using hg.keys k v h

theorem wf_newCache : (NewCache M).WF := by
  intro k v h
  simp [NewCache, mapGet] at h

theorem Cache.WF.of_same_m {c d : Cache M} (h : c.WF) (hm : d.m = c.m)
    (hlen : c.nodes.length ≤ d.nodes.length) : d.WF := by
  intro k v hkv
  rw [hm] at hkv
  exact lt_of_lt_of_le (h k v hkv) hlen

theorem Cache.WF.withStore {c : Cache M} (h : c.WF) (t : Ty) (out : Nat)
    (hout : out < c.nodes.length) : (c.store t out).WF := by
  intro k v hkv
  by_cases hk : k = t
  · subst hk
    simp [Cache.store, mapGet_mapStore_self] at hkv
    subst hkv
    exact hout
  · simp only [Cache.store, mapGet_mapStore_ne _ _ _ _ hk] at hkv
    exact h k v hkv

theorem nodeOK_frame {P : InstructionSet M} {t : Ty} {fo : Option Nat} {S K : Nat → Prop}
    {c d : Cache M} {e : Entry} (hf : Frame (fun _ => False) S K c d) (h : NodeOK P t fo c e) :
    NodeOK P t fo d e := by
  unfold NodeOK at h ⊢
  split
  · rename_i hself
    rw [if_pos hself] at h
    exact hf.node_some (fun x => x) h
  · rename_i hself
    rw [if_neg hself] at h
    obtain ⟨q, nd, hq, hnd, ha⟩ := h
    exact ⟨q, nd, hf.keys _ _ hq, hf.node_some (fun x => x) hnd, hf.node_some (fun x => x) ha⟩

theorem nodeOK_store {P : InstructionSet M} {t : Ty} {fo : Option Nat} {c : Cache M}
    {e : Entry} (out : Nat) (h : NodeOK P t fo c e) : NodeOK P t fo (c.store t out) e := by
  unfold NodeOK at h ⊢
  split
  · rename_i hself
    rw [if_pos hself] at h
    exact h
  · rename_i hself
    rw [if_neg hself] at h
    obtain ⟨q, nd, hq, hnd, ha⟩ := h
    refine ⟨q, nd, ?_, hnd, ha⟩
    simpa [Cache.store, mapGet_mapStore_ne _ _ _ _ hself] using hq

theorem ensureFields_of_some (c : Cache M) (out sl : Nat) (o : FieldCache M)
    (ho : c.nodes[out]? = some o) (hsl : o.fields = some sl) :
    ensureFields c out = (sl, c) := by
  simp [ensureFields, ho, hsl]

theorem loadNode_of_some (P : InstructionSet M) (c : Cache M) (p : Nat) (n : FieldCache M)
    (h : c.nodes[p]? = some n) : loadNode P c p = n := by
  simp [loadNode, h]

theorem getElem?_lt_of_some {α : Type} {l : List α} {i : Nat} {a : α} (h : l[i]? = some a) :
    i < l.length := by
  rcases List.getElem?_eq_some.mp h with ⟨hi, _⟩
  exact hi

/-- State after one append: node allocated, slice extended, name index updated. -/
theorem step_facts (c : Cache M) (n : FieldCache M) (sl mp : Nat) (name : String)
    (l0 : List Nat) (m0 : List (String × Nat))
    (hsl : c.slices[sl]? = some l0) (hmp : c.maps[mp]? = some m0) :
    let d := (((c.allocNode n).2).appendSlice sl c.nodes.length).putMap mp name c.nodes.length
    d.nodes[c.nodes.length]? = some n ∧
    d.slices[sl]? = some (l0 ++ [c.nodes.length]) ∧
    d.maps[mp]? = some (mapStore name c.nodes.length m0) ∧
    d.m = c.m ∧ d.nodes.length = c.nodes.length + 1 ∧
    Frame (fun _ => False) (fun i => i = sl) (fun i => i = mp) c d := by
  intro d
  refine ⟨?_, ?_, ?_, rfl, ?_, ?_⟩
  · simp [d, Cache.putMap, Cache.appendSlice, Cache.allocNode]
  · simp [d, Cache.putMap, Cache.appendSlice, Cache.allocNode, hsl]
  · simp [d, Cache.putMap, Cache.appendSlice, Cache.allocNode, hmp]
  · simp [d, Cache.putMap, Cache.appendSlice, Cache.allocNode]
  · exact ((grows_allocNode c n).frame.trans (frame_appendSlice _ _ _ sl _)).trans
      (frame_putMap _ _ _ mp _ name)

theorem structLoop_spec (P : InstructionSet M)
    (call : Cache M → Ty → Option (Nat × Cache M)) (hcall : CallSpec call)
    (t : Ty) (out mp sl : Nat) (o : FieldCache M) (hosl : o.fields = some sl) :
    ∀ (rest : List StructField) (i : Nat) (c d : Cache M) (l0 : List Nat)
      (m0 : List (String × Nat)),
      c.WF → c.nodes[out]? = some o → c.slices[sl]? = some l0 → c.maps[mp]? = some m0 →
      structLoop P call t out mp rest i c = some d →
      ∃ es : List Entry,
        es.map (fun e => (e.pos, e.fld)) = includedFrom P rest i ∧
        d.slices[sl]? = some (l0 ++ es.map (fun e => e.addr)) ∧
        d.maps[mp]? = some (indexAfter P es m0) ∧
        (∀ e ∈ es, NodeOK P t (some sl) d e) ∧
        Frame (fun _ => False) (fun j => j = sl) (fun j => j = mp) c d ∧ d.WF := by
  intro rest
  induction rest with
  | nil =>
    intro i c d l0 m0 hwf _ hsl hmp hrun
    simp only [structLoop, Option.some.injEq] at hrun
    subst hrun
    exact ⟨[], rfl, by simpa using hsl, by simpa [indexAfter] using hmp, by simp,
      Frame.refl _ _ _ _, hwf⟩
  | cons f rest ih =>
    intro i c d l0 m0 hwf hout hsl hmp hrun
    rw [structLoop, ensureFields_of_some c out sl o hout hosl] at hrun
    simp only at hrun
    by_cases hvis : (lowerInitial f.Name && !f.Anonymous) = true
    · rw [if_pos hvis] at hrun
      obtain ⟨es, h1, h2, h3, h4, h5, h6⟩ := ih (i + 1) c d l0 m0 hwf hout hsl hmp hrun
      refine ⟨es, ?_, h2, h3, h4, h5, h6⟩
      have : included P f = false := by simp [included, hvis]
      simp [includedFrom, this, h1]
    · rw [if_neg hvis] at hrun
      by_cases hskip : P.Skip (f.tagGet P.TagNamespace) = true
      · rw [if_pos hskip] at hrun
        obtain ⟨es, h1, h2, h3, h4, h5, h6⟩ := ih (i + 1) c d l0 m0 hwf hout hsl hmp hrun
        refine ⟨es, ?_, h2, h3, h4, h5, h6⟩
        have : included P f = false := by simp [included, hskip]
        simp [includedFrom, this, h1]
      · rw [if_neg hskip] at hrun
        have hinc : included P f = true := by
          simp only [Bool.not_eq_true] at hvis hskip
          simp [included, hvis, hskip]
        by_cases hself : f.Typ.deref = t
        · rw [if_pos hself] at hrun
          simp only [Cache.allocNode] at hrun
          obtain ⟨g1, g2, g3, g4, g5, g6⟩ := step_facts c
            { Idx := i, fields := some sl, fieldMap := none, metadata := P.emptyMetadata }
            sl mp (resolvedName P f) l0 m0 hsl hmp
          simp only [Cache.allocNode] at g1 g2 g3 g4 g5 g6
          have hwf1 := hwf.of_same_m g4 (by omega)
          obtain ⟨es, h1, h2, h3, h4, h5, h6⟩ :=
            ih (i + 1) _ d _ _ hwf1 (g6.node_some (fun x => x) hout) g2 g3 hrun
          refine ⟨⟨i, f, c.nodes.length⟩ :: es, ?_, ?_, ?_, ?_, g6.trans h5, h6⟩
          · simp [includedFrom, hinc, h1]
          · simpa using h2
          · simpa [indexAfter] using h3
          · intro e he
            rcases List.mem_cons.mp he with rfl | he
            · apply nodeOK_frame h5
              unfold NodeOK
              rw [if_pos hself]
              exact g1
            · exact h4 e he
        · rw [if_neg hself] at hrun
          cases hc : call c f.Typ with
          | none => rw [hc] at hrun; exact Option.noConfusion hrun
          | some rc =>
            obtain ⟨r, c2⟩ := rc
            rw [hc] at hrun
            simp only [Cache.allocNode] at hrun
            obtain ⟨hwf2, hg2, hr, hkey⟩ := hcall c f.Typ r c2 hwf hc
            obtain ⟨nd, hnd⟩ : ∃ nd, c2.nodes[r]? = some nd :=
              ⟨c2.nodes[r], List.getElem?_eq_getElem hr⟩
            rw [loadNode_of_some P c2 r nd hnd] at hrun
            have hsl2 : c2.slices[sl]? = some l0 := by
              rw [hg2.slices sl (getElem?_lt_of_some hsl) (fun hf => hf), hsl]
            have hmp2 : c2.maps[mp]? = some m0 := by
              rw [hg2.maps mp (getElem?_lt_of_some hmp) (fun hf => hf), hmp]
            obtain ⟨g1, g2, g3, g4, g5, g6⟩ := step_facts c2
              { nd with
                Idx := i
                metadata :=
                  (P.GetMetadata f (f.tagGet P.TagNamespace)).getD P.emptyMetadata }
              sl mp (resolvedName P f) l0 m0 hsl2 hmp2
            simp only [Cache.allocNode] at g1 g2 g3 g4 g5 g6
            have hwf3 := hwf2.of_same_m g4 (by omega)
            obtain ⟨es, h1, h2, h3, h4, h5, h6⟩ :=
              ih (i + 1) _ d _ _ hwf3 (g6.node_some (fun x => x) (hg2.node_some (fun x => x) hout)) g2 g3 hrun
            refine ⟨⟨i, f, c2.nodes.length⟩ :: es, ?_, ?_, ?_, ?_,
              (hg2.frame.trans g6).trans h5, h6⟩
            · simp [includedFrom, hinc, h1]
            · simpa using h2
            · simpa [indexAfter] using h3
            · intro e he
              rcases List.mem_cons.mp he with rfl | he
              · apply nodeOK_frame h5
                unfold NodeOK
                rw [if_neg hself]
                refine ⟨r, nd, ?_, g6.node_some (fun x => x) hnd, g1⟩
                rw [g4]
                exact hkey
              · exact h4 e he

theorem structLoop_ensure (P : InstructionSet M)
    (call : Cache M → Ty → Option (Nat × Cache M)) (t : Ty) (out mp : Nat)
    (f : StructField) (rest : List StructField) (i : Nat) (c : Cache M) (o : FieldCache M)
    (ho : c.nodes[out]? = some o) :
    structLoop P call t out mp (f :: rest) i c =
      structLoop P call t out mp (f :: rest) i (ensureFields c out).2 := by
  have hidem : ensureFields (ensureFields c out).2 out = ensureFields c out := by
    cases hf : o.fields with
    | some sl => simp [ensureFields, ho, hf]
    | none =>
      have h1 : ensureFields c out =
          (c.slices.length, (c.allocSlice.2).setFields out c.slices.length) := by
        simp [ensureFields, ho, hf, Cache.allocSlice]
      rw [h1]
      apply ensureFields_of_some _ out c.slices.length { o with fields := some c.slices.length }
      · simp [Cache.setFields, Cache.allocSlice, ho]
      · rfl
  conv_lhs => rw [structLoop]
  conv_rhs => rw [structLoop, hidem]

/-- The loop of lines 74-118 started on the freshly allocated `out` (line 69). -/
theorem structLoop_init (P : InstructionSet M)
    (call : Cache M → Ty → Option (Nat × Cache M)) (hcall : CallSpec call)
    (t : Ty) (out mp : Nat) (rest : List StructField) (c d : Cache M) (o : FieldCache M)
    (hwf : c.WF) (hout : c.nodes[out]? = some o) (hof : o.fields = none)
    (hmp : c.maps[mp]? = some [])
    (hrun : structLoop P call t out mp rest 0 c = some d) :
    ∃ (es : List Entry) (fo : Option Nat),
      es.map (fun e => (e.pos, e.fld)) = includedFrom P rest 0 ∧
      d.nodes[out]? = some { o with fields := fo } ∧
      d.Fields out = es.map (fun e => e.addr) ∧
      d.maps[mp]? = some (indexAfter P es []) ∧
      (∀ e ∈ es, NodeOK P t fo d e) ∧
      Frame (fun j => j = out) (fun j => c.slices.length ≤ j) (fun j => j = mp) c d ∧
      d.WF := by
  cases rest with
  | nil =>
    simp only [structLoop, Option.some.injEq] at hrun
    subst hrun
    refine ⟨[], none, rfl, ?_, ?_, by simpa [indexAfter] using hmp, by simp,
      Frame.refl _ _ _ _, hwf⟩
    · rw [hout]
      cases o
      simp only at hof
      simp [hof]
    · simp [Cache.Fields, hout, hof]
  | cons f rest =>
    rw [structLoop_ensure P call t out mp f rest 0 c o hout] at hrun
    have h1 : ensureFields c out =
        (c.slices.length, (c.allocSlice.2).setFields out c.slices.length) := by
      simp [ensureFields, hout, hof, Cache.allocSlice]
    rw [h1] at hrun
    simp only at hrun
    have hout1 : ((c.allocSlice.2).setFields out c.slices.length).nodes[out]? =
        some { o with fields := some c.slices.length } := by
      simp [Cache.setFields, Cache.allocSlice, hout]
    have hsl1 : ((c.allocSlice.2).setFields out c.slices.length).slices[c.slices.length]? =
        some [] := by
      simp [Cache.setFields, Cache.allocSlice]
    have hmp1 : ((c.allocSlice.2).setFields out c.slices.length).maps[mp]? = some [] := by
      simpa [Cache.setFields, Cache.allocSlice] using hmp
    have hwf1 : ((c.allocSlice.2).setFields out c.slices.length).WF :=
      hwf.of_same_m rfl (by simp [Cache.setFields, Cache.allocSlice])
    obtain ⟨es, e1, e2, e3, e4, e5, e6⟩ :=
      structLoop_spec P call hcall t out mp c.slices.length
        { o with fields := some c.slices.length } rfl (f :: rest) 0 _ d [] [] hwf1 hout1 hsl1
        hmp1 hrun
    have hfr : Frame (fun j => j = out) (fun j => c.slices.length ≤ j) (fun j => j = mp) c
        ((c.allocSlice.2).setFields out c.slices.length) :=
      (grows_allocSlice c).frame.trans
        ((frame_setFields (fun j => c.slices.length ≤ j) (fun j => j = mp) _ out _))
    refine ⟨es, some c.slices.length, e1, ?_, ?_, e3, e4, ?_, e6⟩
    · exact e5.node_some (fun x => x) hout1
    · simp [Cache.Fields, e5.node_some (fun x => x) hout1, e2]
    · exact hfr.trans (e5.mono (fun _ hf => hf.elim) (fun j hj => le_of_eq hj.symm)
        (fun _ hj => hj))

theorem wf_of_grows_same_m {c d : Cache M} (h : c.WF) (hm : d.m = c.m)
    (hlen : c.nodes.length ≤ d.nodes.length) : d.WF :=
  h.of_same_m hm hlen

end Lemmas

section Unfold

variable {M : Type}

theorem getTypeDataFor_hit (P : InstructionSet M) (decls : Decls) (n : Nat) (c : Cache M)
    (t : Ty) (r : Nat) (h : mapGet c.m t.deref = some r) :
    GetTypeDataFor P decls (n + 1) c t = some (r, c) := by
  simp [GetTypeDataFor, h]

theorem getTypeDataFor_struct (P : InstructionSet M) (decls : Decls) (n : Nat) (c : Cache M)
    (t : Ty) (name : String) (ht : t.deref = .struct name) (h : mapGet c.m t.deref = none) :
    GetTypeDataFor P decls (n + 1) c t =
      (structLoop P (GetTypeDataFor P decls n) (.struct name) c.nodes.length c.maps.length
        (decls name) 0 (afterAlloc P c)).map
        (fun d => (c.nodes.length, d.store (.struct name) c.nodes.length)) := by
  rw [GetTypeDataFor]
  rw [ht] at h
  simp only [ht, h]
  cases hl : structLoop P (GetTypeDataFor P decls n) (.struct name) c.nodes.length
      c.maps.length (decls name) 0 (afterAlloc P c) with
  | none =>
    simp only [afterAlloc, Cache.allocMap, Cache.allocNode, rootNode] at hl
    simp [Cache.allocMap, Cache.allocNode, hl]
  | some d =>
    simp only [afterAlloc, Cache.allocMap, Cache.allocNode, rootNode] at hl
    simp [Cache.allocMap, Cache.allocNode, hl]

/-- The element type a container delegates to (line 120). -/
theorem getTypeDataFor_container (P : InstructionSet M) (decls : Decls) (n : Nat)
    (c : Cache M) (t e : Ty)
    (ht : (∃ len, t.deref = .array len e) ∨ t.deref = .slice e ∨ (∃ k, t.deref = .map k e))
    (h : mapGet c.m t.deref = none) :
    GetTypeDataFor P decls (n + 1) c t =
      (GetTypeDataFor P decls n (afterAlloc P c) e).map
        (fun rd => (rd.1, rd.2.store t.deref rd.1)) := by
  rw [GetTypeDataFor]
  rcases ht with ⟨len, ht⟩ | ht | ⟨k, ht⟩ <;>
  · rw [ht] at h
    simp only [ht, h]
    cases hl : GetTypeDataFor P decls n (afterAlloc P c) e with
    | none =>
      simp only [afterAlloc, Cache.allocMap, Cache.allocNode, rootNode] at hl
      simp [Cache.allocMap, Cache.allocNode, hl]
    | some rd =>
      simp only [afterAlloc, Cache.allocMap, Cache.allocNode, rootNode] at hl
      simp [Cache.allocMap, Cache.allocNode, hl]

theorem getTypeDataFor_leaf (P : InstructionSet M) (decls : Decls) (n : Nat) (c : Cache M)
    (t : Ty) (ht : (∃ s, t.deref = .basic s) ∨ (∃ e, t.deref = .ptr e))
    (h : mapGet c.m t.deref = none) :
    GetTypeDataFor P decls (n + 1) c t =
      some (c.nodes.length + 1,
        (((afterAlloc P c).allocNode (emptyNode P)).2).store t.deref (c.nodes.length + 1)) := by
  rw [GetTypeDataFor]
  rcases ht with ⟨s, ht⟩ | ⟨e, ht⟩ <;>
  · rw [ht] at h
    simp [ht, h, afterAlloc, Cache.allocMap, Cache.allocNode, rootNode, emptyNode]

end Unfold

section CallSpecProof

variable {M : Type}

theorem wf_afterAlloc (P : InstructionSet M) {c : Cache M} (h : c.WF) : (afterAlloc P c).WF :=
  h.of_same_m rfl (by simp [afterAlloc, Cache.allocNode, Cache.allocMap])

theorem grows_afterAlloc (P : InstructionSet M) (c : Cache M) : Grows c (afterAlloc P c) :=
  (grows_allocMap c).trans (grows_allocNode _ _)

theorem afterAlloc_node (P : InstructionSet M) (c : Cache M) :
    (afterAlloc P c).nodes[c.nodes.length]? = some (rootNode P c.maps.length) := by
  simp [afterAlloc, Cache.allocNode, Cache.allocMap]

theorem afterAlloc_map (P : InstructionSet M) (c : Cache M) :
    (afterAlloc P c).maps[c.maps.length]? = some [] := by
  simp [afterAlloc, Cache.allocNode, Cache.allocMap]

theorem afterAlloc_lengths (P : InstructionSet M) (c : Cache M) :
    (afterAlloc P c).nodes.length = c.nodes.length + 1 ∧
    (afterAlloc P c).slices.length = c.slices.length ∧
    (afterAlloc P c).maps.length = c.maps.length + 1 ∧ (afterAlloc P c).m = c.m := by
  simp [afterAlloc, Cache.allocNode, Cache.allocMap]

/-- Every call that returns keeps the cache well formed, changes nothing that existed, and
returns an allocated root which `rc.m` then holds for the normalised type. -/
theorem getTypeDataFor_callSpec (P : InstructionSet M) (decls : Decls) :
    ∀ fuel, CallSpec (GetTypeDataFor P decls fuel) := by
  intro fuel
  induction fuel with
  | zero =>
    intro c t r d _ h
    simp [GetTypeDataFor] at h
  | succ n ih =>
    intro c t r d hwf h
    cases hm : mapGet c.m t.deref with
    | some cData =>
      rw [getTypeDataFor_hit P decls n c t cData hm] at h
      simp only [Option.some.injEq, Prod.mk.injEq] at h
      obtain ⟨rfl, rfl⟩ := h
      exact ⟨hwf, Frame.refl _ _ _ _, hwf _ _ hm, hm⟩
    | none =>
      obtain ⟨l1, l2, l3, l4⟩ := afterAlloc_lengths P c
      cases ht : t.deref with
      | struct name =>
        rw [getTypeDataFor_struct P decls n c t name ht hm] at h
        cases hl : structLoop P (GetTypeDataFor P decls n) (.struct name) c.nodes.length
            c.maps.length (decls name) 0 (afterAlloc P c) with
        | none => rw [hl] at h; simp at h
        | some d1 =>
          rw [hl] at h
          simp only [Option.map_some', Option.some.injEq, Prod.mk.injEq] at h
          obtain ⟨rfl, rfl⟩ := h
          obtain ⟨es, fo, _, e2, _, _, _, e6, e7⟩ :=
            structLoop_init P _ ih (.struct name) c.nodes.length c.maps.length (decls name)
              (afterAlloc P c) d1 (rootNode P c.maps.length) (wf_afterAlloc P hwf)
              (afterAlloc_node P c) rfl (afterAlloc_map P c) hl
          have hlt : c.nodes.length < d1.nodes.length := getElem?_lt_of_some e2
          have hg : Grows c d1 :=
            Frame.below (grows_afterAlloc P c) e6 (fun i hi => le_of_eq hi.symm)
              (fun i hi => by omega) (fun i hi => le_of_eq hi.symm)
          refine ⟨e7.withStore _ _ hlt, grows_store _ _ hg (ht ▸ hm), hlt, ?_⟩
          simp [Cache.store, mapGet_mapStore_self]
      | array len e =>
        rw [getTypeDataFor_container P decls n c t e (Or.inl ⟨len, ht⟩) hm] at h
        cases hl : GetTypeDataFor P decls n (afterAlloc P c) e with
        | none => rw [hl] at h; simp at h
        | some rd =>
          obtain ⟨r1, d1⟩ := rd
          rw [hl] at h
          simp only [Option.map_some', Option.some.injEq, Prod.mk.injEq] at h
          obtain ⟨rfl, rfl⟩ := h
          obtain ⟨h1, h2, h3, _⟩ := ih _ _ _ _ (wf_afterAlloc P hwf) hl
          refine ⟨h1.withStore _ _ h3, grows_store _ _ ((grows_afterAlloc P c).trans h2) hm, h3, ?_⟩
          simp [Cache.store, mapGet_mapStore_self, ht]
      | slice e =>
        rw [getTypeDataFor_container P decls n c t e (Or.inr (Or.inl ht)) hm] at h
        cases hl : GetTypeDataFor P decls n (afterAlloc P c) e with
        | none => rw [hl] at h; simp at h
        | some rd =>
          obtain ⟨r1, d1⟩ := rd
          rw [hl] at h
          simp only [Option.map_some', Option.some.injEq, Prod.mk.injEq] at h
          obtain ⟨rfl, rfl⟩ := h
          obtain ⟨h1, h2, h3, _⟩ := ih _ _ _ _ (wf_afterAlloc P hwf) hl
          refine ⟨h1.withStore _ _ h3, grows_store _ _ ((grows_afterAlloc P c).trans h2) hm, h3, ?_⟩
          simp [Cache.store, mapGet_mapStore_self, ht]
      | map k e =>
        rw [getTypeDataFor_container P decls n c t e (Or.inr (Or.inr ⟨k, ht⟩)) hm] at h
        cases hl : GetTypeDataFor P decls n (afterAlloc P c) e with
        | none => rw [hl] at h; simp at h
        | some rd =>
          obtain ⟨r1, d1⟩ := rd
          rw [hl] at h
          simp only [Option.map_some', Option.some.injEq, Prod.mk.injEq] at h
          obtain ⟨rfl, rfl⟩ := h
          obtain ⟨h1, h2, h3, _⟩ := ih _ _ _ _ (wf_afterAlloc P hwf) hl
          refine ⟨h1.withStore _ _ h3, grows_store _ _ ((grows_afterAlloc P c).trans h2) hm, h3, ?_⟩
          simp [Cache.store, mapGet_mapStore_self, ht]
      | basic s =>
        rw [getTypeDataFor_leaf P decls n c t (Or.inl ⟨s, ht⟩) hm] at h
        simp only [Option.some.injEq, Prod.mk.injEq] at h
        obtain ⟨rfl, rfl⟩ := h
        have hlen : ((afterAlloc P c).allocNode (emptyNode P)).2.nodes.length =
            c.nodes.length + 2 := by simp [Cache.allocNode, l1]
        have hwf2 : ((afterAlloc P c).allocNode (emptyNode P)).2.WF :=
          (wf_afterAlloc P hwf).of_same_m rfl (by simp [Cache.allocNode])
        refine ⟨hwf2.withStore _ _ (by omega),
          grows_store _ _ ((grows_afterAlloc P c).trans (grows_allocNode _ _)) hm,
          by simp only [Cache.store]; omega, ?_⟩
        simp [Cache.store, mapGet_mapStore_self, ht]
      | ptr e =>
        rw [getTypeDataFor_leaf P decls n c t (Or.inr ⟨e, ht⟩) hm] at h
        simp only [Option.some.injEq, Prod.mk.injEq] at h
        obtain ⟨rfl, rfl⟩ := h
        have hlen : ((afterAlloc P c).allocNode (emptyNode P)).2.nodes.length =
            c.nodes.length + 2 := by simp [Cache.allocNode, l1]
        have hwf2 : ((afterAlloc P c).allocNode (emptyNode P)).2.WF :=
          (wf_afterAlloc P hwf).of_same_m rfl (by simp [Cache.allocNode])
        refine ⟨hwf2.withStore _ _ (by omega),
          grows_store _ _ ((grows_afterAlloc P c).trans (grows_allocNode _ _)) hm,
          by simp only [Cache.store]; omega, ?_⟩
        simp [Cache.store, mapGet_mapStore_self, ht]

end CallSpecProof

section StructSpec

variable {M : Type}

/-- The build of a struct type on a cache miss: the root is the node of line 69, its child
list and name index are those the loop assembled, entry by entry. -/
theorem getTypeDataFor_struct_spec (P : InstructionSet M) (decls : Decls) (fuel : Nat)
    (c d : Cache M) (t : Ty) (name : String) (r : Nat) (hwf : c.WF)
    (ht : t.deref = .struct name) (hm : mapGet c.m (.struct name) = none)
    (h : GetTypeDataFor P decls fuel c t = some (r, d)) :
    r = c.nodes.length ∧ ∃ (es : List Entry) (fo : Option Nat),
      es.map (fun e => (e.pos, e.fld)) = includedFrom P (decls name) 0 ∧
      d.nodes[r]? = some { rootNode P c.maps.length with fields := fo } ∧
      d.Fields r = es.map (fun e => e.addr) ∧
      d.maps[c.maps.length]? = some (indexAfter P es []) ∧
      (∀ e ∈ es, NodeOK P (.struct name) fo d e) ∧
      Grows c d ∧ d.WF ∧ mapGet d.m (.struct name) = some r := by
  cases fuel with
  | zero => simp [GetTypeDataFor] at h
  | succ n =>
    rw [getTypeDataFor_struct P decls n c t name ht (ht ▸ hm)] at h
    cases hl : structLoop P (GetTypeDataFor P decls n) (.struct name) c.nodes.length
        c.maps.length (decls name) 0 (afterAlloc P c) with
    | none => rw [hl] at h; simp at h
    | some d1 =>
      rw [hl] at h
      simp only [Option.map_some', Option.some.injEq, Prod.mk.injEq] at h
      obtain ⟨rfl, rfl⟩ := h
      obtain ⟨es, fo, e1, e2, e3, e4, e5, e6, e7⟩ :=
        structLoop_init P _ (getTypeDataFor_callSpec P decls n) (.struct name) c.nodes.length
          c.maps.length (decls name) (afterAlloc P c) d1 (rootNode P c.maps.length)
          (wf_afterAlloc P hwf) (afterAlloc_node P c) rfl (afterAlloc_map P c) hl
      have hlt : c.nodes.length < d1.nodes.length := getElem?_lt_of_some e2
      have hg : Grows c d1 :=
        Frame.below (grows_afterAlloc P c) e6 (fun i hi => le_of_eq hi.symm)
          (fun i hi => by
            have := (afterAlloc_lengths P c).2.1
            omega)
          (fun i hi => le_of_eq hi.symm)
      refine ⟨rfl, es, fo, e1, e2, ?_, e4, fun e he => nodeOK_store _ (e5 e he), grows_store _ _ hg hm,
        e7.withStore _ _ hlt, ?_⟩
      · simpa [Cache.Fields, Cache.store] using e3
      · simp [Cache.store, mapGet_mapStore_self]

end StructSpec

section Children

variable {M : Type}

theorem childOK_of_nodeOK (P : InstructionSet M) (t : Ty) (d : Cache M) (r : Nat)
    (o : FieldCache M) (hr : d.nodes[r]? = some o) (e : Entry)
    (h : NodeOK P t o.fields d e) : ChildOK P t d r e := by
  unfold NodeOK at h
  by_cases hself : e.fld.Typ.deref = t
  · rw [if_pos hself] at h
    refine ⟨by simp [Cache.IdxOf, h], fun _ => ⟨?_, ?_, ?_⟩, fun hne => absurd hself hne⟩
    · simp [Cache.Fields, h, hr]
    · intro s
      simp [Cache.GetFieldByName, h]
    · simp [Cache.InstructionData, h]
  · rw [if_neg hself] at h
    obtain ⟨q, nd, hq, hnd, ha⟩ := h
    refine ⟨by simp [Cache.IdxOf, ha], fun he => absurd he hself, fun _ =>
      ⟨q, hq, getElem?_lt_of_some hnd, ?_, ?_, ?_⟩⟩
    · simp [Cache.Fields, ha, hnd]
    · intro s
      simp [Cache.GetFieldByName, ha, hnd]
    · simp [Cache.InstructionData, ha]

/-- The build of a struct type on a miss, seen through the accessors. -/
theorem getTypeDataFor_built (P : InstructionSet M) (decls : Decls) (fuel : Nat)
    (c d : Cache M) (t : Ty) (name : String) (r : Nat) (hwf : c.WF)
    (ht : t.deref = .struct name) (hm : mapGet c.m (.struct name) = none)
    (h : GetTypeDataFor P decls fuel c t = some (r, d)) :
    ∃ es : List Entry, Built P decls name c d r es := by
  obtain ⟨hr, es, fo, e1, e2, e3, e4, e5, e6, e7, e8⟩ :=
    getTypeDataFor_struct_spec P decls fuel c d t name r hwf ht hm h
  refine ⟨es, ⟨e1, e3, ?_, ?_, ?_, ?_, e6, e7, e8, hr⟩⟩
  · intro s
    subst hr
    simp [Cache.GetFieldByName, e2, rootNode, e4]
  · simp [Cache.IdxOf, e2, rootNode]
  · simp [Cache.InstructionData, e2, rootNode]
  · intro e he
    exact childOK_of_nodeOK P _ d r _ e2 e (e5 e he)

theorem includedFrom_mem (P : InstructionSet M) :
    ∀ (fs : List StructField) (k i : Nat) (f : StructField),
      (i, f) ∈ includedFrom P fs k ↔ ∃ j, fs[j]? = some f ∧ i = k + j ∧ included P f = true := by
  intro fs
  induction fs with
  | nil => intro k i f; simp [includedFrom]
  | cons g rest ih =>
    intro k i f
    have hrest : (i, f) ∈ includedFrom P rest (k + 1) ↔
        ∃ j, (g :: rest)[j + 1]? = some f ∧ i = k + (j + 1) ∧ included P f = true := by
      rw [ih]
      constructor
      · rintro ⟨j, h1, h2, h3⟩
        exact ⟨j, by simpa using h1, by omega, h3⟩
      · rintro ⟨j, h1, h2, h3⟩
        exact ⟨j, by simpa using h1, by omega, h3⟩
    have hsplit : (∃ j, (g :: rest)[j]? = some f ∧ i = k + j ∧ included P f = true) ↔
        (g = f ∧ i = k ∧ included P f = true) ∨
        ∃ j, (g :: rest)[j + 1]? = some f ∧ i = k + (j + 1) ∧ included P f = true := by
      constructor
      · rintro ⟨j, h1, h2, h3⟩
        cases j with
        | zero => exact Or.inl ⟨by simpa using h1, by omega, h3⟩
        | succ j => exact Or.inr ⟨j, h1, h2, h3⟩
      · rintro (⟨h1, h2, h3⟩ | ⟨j, h1, h2, h3⟩)
        · exact ⟨0, by simp [h1], by omega, h3⟩
        · exact ⟨j + 1, h1, h2, h3⟩
    rw [hsplit, ← hrest]
    by_cases hg : included P g = true
    · simp only [includedFrom, hg, if_true, List.mem_cons, Prod.mk.injEq]
      constructor
      · rintro (⟨h1, h2⟩ | h)
        · exact Or.inl ⟨h2.symm, h1, h2 ▸ hg⟩
        · exact Or.inr h
      · rintro (⟨h1, h2, _⟩ | h)
        · exact Or.inl ⟨h2, h1.symm⟩
        · exact Or.inr h
    · simp only [includedFrom, hg, if_false]
      constructor
      · exact fun h => Or.inr h
      · rintro (⟨h1, _, h3⟩ | h)
        · exact absurd (h1 ▸ h3) hg
        · exact h

theorem includedFrom_ge (P : InstructionSet M) (fs : List StructField) (k i : Nat)
    (f : StructField) (h : (i, f) ∈ includedFrom P fs k) : k ≤ i := by
  obtain ⟨j, _, h2, _⟩ := (includedFrom_mem P fs k i f).mp h
  omega

theorem includedFrom_sorted (P : InstructionSet M) :
    ∀ (fs : List StructField) (k : Nat),
      ((includedFrom P fs k).map Prod.fst).Pairwise (fun a b => a < b) := by
  intro fs
  induction fs with
  | nil => intro k; simp [includedFrom]
  | cons g rest ih =>
    intro k
    by_cases hg : included P g = true
    · simp only [includedFrom, hg, if_true, List.map_cons, List.pairwise_cons]
      refine ⟨?_, ih (k + 1)⟩
      intro a ha
      obtain ⟨⟨i, f⟩, hmem, rfl⟩ := List.mem_map.mp ha
      have := includedFrom_ge P rest (k + 1) i f hmem
      simp only
      omega
    · simp only [includedFrom, hg, if_false]
      exact ih (k + 1)

end Children

section BuiltLemmas

variable {M : Type} {P : InstructionSet M} {decls : Decls} {name : String} {c d : Cache M}
  {r : Nat} {es : List Entry}

theorem Built.entry_of_field (hb : Built P decls name c d r es) {k : Nat} {f : StructField}
    (hk : (decls name)[k]? = some f) (hinc : included P f = true) :
    ∃ e ∈ es, e.pos = k ∧ e.fld = f := by
  have hmem : (k, f) ∈ includedFrom P (decls name) 0 :=
    (includedFrom_mem P _ 0 k f).mpr ⟨k, hk, by omega, hinc⟩
  rw [← hb.entries] at hmem
  obtain ⟨e, he, heq⟩ := List.mem_map.mp hmem
  simp only [Prod.mk.injEq] at heq
  exact ⟨e, he, heq.1, heq.2⟩

theorem Built.field_of_entry (hb : Built P decls name c d r es) {e : Entry} (he : e ∈ es) :
    (decls name)[e.pos]? = some e.fld ∧ included P e.fld = true := by
  have hmem : (e.pos, e.fld) ∈ includedFrom P (decls name) 0 := by
    rw [← hb.entries]
    exact List.mem_map.mpr ⟨e, he, rfl⟩
  obtain ⟨j, h1, h2, h3⟩ := (includedFrom_mem P _ 0 _ _).mp hmem
  have : j = e.pos := by omega
  subst this
  exact ⟨h1, h3⟩

theorem Built.entry_of_child (hb : Built P decls name c d r es) {n : Nat}
    (hn : n ∈ d.Fields r) : ∃ e ∈ es, e.addr = n := by
  rw [hb.fields] at hn
  obtain ⟨e, he, heq⟩ := List.mem_map.mp hn
  exact ⟨e, he, heq⟩

theorem Built.child_mem (hb : Built P decls name c d r es) {e : Entry} (he : e ∈ es) :
    e.addr ∈ d.Fields r := by
  rw [hb.fields]
  exact List.mem_map.mpr ⟨e, he, rfl⟩

/-- A child with `Idx = k` is the node built for field `k`, and field `k` is included. -/
theorem Built.entry_of_idx (hb : Built P decls name c d r es) {n k : Nat}
    (hn : n ∈ d.Fields r) (hidx : d.IdxOf n = some k) :
    ∃ e ∈ es, e.addr = n ∧ e.pos = k ∧ (decls name)[k]? = some e.fld ∧
      included P e.fld = true := by
  obtain ⟨e, he, rfl⟩ := hb.entry_of_child hn
  have h1 := (hb.child e he).1
  rw [hidx] at h1
  simp only [Option.some.injEq] at h1
  subst h1
  exact ⟨e, he, rfl, rfl, hb.field_of_entry he⟩

/-- The included field `k` has a child node, and every child with `Idx = k` is the entry
that was built for it. -/
theorem Built.child_of_field (hb : Built P decls name c d r es) {k : Nat} {f : StructField}
    (hk : (decls name)[k]? = some f) (hinc : included P f = true) :
    (∃ n ∈ d.Fields r, d.IdxOf n = some k) ∧
    ∀ n ∈ d.Fields r, d.IdxOf n = some k → ∃ e ∈ es, e.addr = n ∧ e.pos = k ∧ e.fld = f := by
  obtain ⟨e, he, hp, hf⟩ := hb.entry_of_field hk hinc
  refine ⟨⟨e.addr, hb.child_mem he, hp ▸ (hb.child e he).1⟩, ?_⟩
  intro n hn hidx
  obtain ⟨e2, he2, ha, hp2, hk2, _⟩ := hb.entry_of_idx hn hidx
  refine ⟨e2, he2, ha, hp2, ?_⟩
  rw [hk] at hk2
  exact (Option.some.inj hk2).symm

end BuiltLemmas

section Claims

variable {M : Type}

/-- C1. On a cache miss for the struct type `name` (requested directly or through a
pointer), every included field `k` whose pointer-stripped type is the struct type itself has
a child node among the root's `Fields()`, and each child with `Idx = k` has `Fields()` equal
to the root's complete final child list. -/
theorem C1_self_reference_shares_root_children (P : InstructionSet M) (decls : Decls)
    (fuel : Nat) (c d : Cache M) (t : Ty) (name : String) (r : Nat) (hwf : c.WF)
    (ht : t.deref = .struct name) (hmiss : mapGet c.m (.struct name) = none)
    (hrun : GetTypeDataFor P decls fuel c t = some (r, d))
    (k : Nat) (f : StructField) (hk : (decls name)[k]? = some f)
    (hinc : included P f = true) (hself : f.Typ.deref = .struct name) :
    (∃ n ∈ d.Fields r, d.IdxOf n = some k) ∧
    ∀ n ∈ d.Fields r, d.IdxOf n = some k → d.Fields n = d.Fields r := by
  obtain ⟨es, hb⟩ := getTypeDataFor_built P decls fuel c d t name r hwf ht hmiss hrun
  obtain ⟨h1, h2⟩ := hb.child_of_field hk hinc
  refine ⟨h1, ?_⟩
  intro n hn hidx
  obtain ⟨e, he, rfl, _, hf⟩ := h2 n hn hidx
  exact ((hb.child e he).2.1 (hf ▸ hself)).1

/-- C1, on `RecursiveStruct` of the test file: the build on a fresh cache returns, the cache
is well formed, field 0 (`R *RecursiveStruct`) is a direct self-reference, and its child has
the root's two-element child list. -/
theorem C1_self_reference_shares_root_children_witness :
    ∃ r d, GetTypeDataFor testPolicy testDecls 2 (NewCache TestInstructions)
        (.struct "RecursiveStruct") = some (r, d) ∧
      (d.Fields r).length = 2 ∧
      ((∃ n ∈ d.Fields r, d.IdxOf n = some 0) ∧
        ∀ n ∈ d.Fields r, d.IdxOf n = some 0 → d.Fields n = d.Fields r) :=
  match h : GetTypeDataFor testPolicy testDecls 2 (NewCache TestInstructions)
      (.struct "RecursiveStruct") with
  | some (r, d) =>
    ⟨r, d, rfl, by
      have h2 : (GetTypeDataFor testPolicy testDecls 2 (NewCache TestInstructions)
          (.struct "RecursiveStruct")).map (fun x => (x.2.Fields x.1).length) = some 2 := by
        decide
      rw [h] at h2
      simpa using h2,
      C1_self_reference_shares_root_children testPolicy testDecls 2 _ d
        (.struct "RecursiveStruct") "RecursiveStruct" r wf_newCache rfl rfl h 0
        ⟨"R", false, [("redact", "admin")], .ptr (.struct "RecursiveStruct")⟩
        (by decide) (by decide) (by decide)⟩
  | none => absurd h (by decide)

end Claims

section Positions

variable {M : Type}

theorem specIncluded_eq_included (P : InstructionSet M) (f : StructField) :
    specIncluded P f = included P f := by
  unfold specIncluded included startsWithAsciiLower lowerInitial
  cases hn : f.Name.toList with
  | nil => cases f.Anonymous <;> simp
  | cons ch rest => cases f.Anonymous <;> simp

theorem map_idxOf_entries (P : InstructionSet M) (t : Ty) (d : Cache M) (r : Nat) :
    ∀ (es : List Entry), (∀ e ∈ es, ChildOK P t d r e) →
      (es.map (fun e => e.addr)).map d.IdxOf = (es.map (fun e => e.pos)).map some := by
  intro es
  induction es with
  | nil => intro _; rfl
  | cons e rest ih =>
    intro h
    simp only [List.map_cons, List.cons.injEq]
    exact ⟨(h e (List.mem_cons_self _ _)).1, ih (fun x hx => h x (List.mem_cons_of_mem _ hx))⟩

theorem includedFrom_fst (P : InstructionSet M) :
    ∀ (fs : List StructField) (k : Nat),
      (includedFrom P fs k).map Prod.fst =
        ((List.range fs.length).filter
          (fun i => match fs[i]? with
            | some f => included P f
            | none => false)).map (fun i => i + k) := by
  intro fs
  induction fs with
  | nil => intro k; simp [includedFrom]
  | cons g rest ih =>
    intro k
    have hf : (fun i => i + (k + 1)) = (fun i => i + k) ∘ Nat.succ := by
      funext i
      simp only [Function.comp]
      omega
    have hp : (fun i => match rest[i]? with
          | some f => included P f
          | none => false) =
        (fun i => match (g :: rest)[i]? with
          | some f => included P f
          | none => false) ∘ Nat.succ := by
      funext i
      simp [Function.comp]
    have hshift : ((List.range rest.length).filter
          (fun i => match rest[i]? with
            | some f => included P f
            | none => false)).map (fun i => i + (k + 1)) =
        ((List.map Nat.succ (List.range rest.length)).filter
          (fun i => match (g :: rest)[i]? with
            | some f => included P f
            | none => false)).map (fun i => i + k) := by
      rw [List.filter_map, List.map_map, ← hf, ← hp]
    rw [List.length_cons, List.range_succ_eq_map, List.filter_cons]
    by_cases hg : included P g = true
    · rw [includedFrom, if_pos hg, List.map_cons, ih (k + 1), hshift]
      simp [hg]
    · rw [includedFrom, if_neg hg, ih (k + 1), hshift]
      simp [hg]

/-- The `Idx` values of the children, in order, are the positions of the included fields. -/
theorem Built.idx_list {P : InstructionSet M} {decls : Decls} {name : String}
    {c d : Cache M} {r : Nat} {es : List Entry} (hb : Built P decls name c d r es) :
    (d.Fields r).map d.IdxOf = (specPositions P (decls name)).map some := by
  rw [hb.fields, map_idxOf_entries P _ d r es hb.child]
  have h1 : es.map (fun e => e.pos) = (includedFrom P (decls name) 0).map Prod.fst := by
    rw [← hb.entries, List.map_map]
    rfl
  rw [h1, includedFrom_fst P (decls name) 0]
  unfold specPositions
  simp only [specIncluded_eq_included, Nat.add_zero, List.map_id']

end Positions

section NameIndex

variable {M : Type}

/-- A name is bound, after the loop, to the last entry that resolved to it; a name no entry
resolved to keeps its earlier binding. -/
theorem mapGet_indexAfter (P : InstructionSet M) (s : String) :
    ∀ (es : List Entry) (m0 : List (String × Nat)),
      mapGet (indexAfter P es m0) s =
        match lastNamed P s es with
        | some e => some e.addr
        | none => mapGet m0 s := by
  intro es
  induction es with
  | nil => intro m0; rfl
  | cons e rest ih =>
    intro m0
    have hstep : indexAfter P (e :: rest) m0 =
        indexAfter P rest (mapStore (resolvedName P e.fld) e.addr m0) := rfl
    rw [hstep, ih]
    cases hl : lastNamed P s rest with
    | some e2 => simp [lastNamed, hl]
    | none =>
      by_cases hn : resolvedName P e.fld = s
      · simp [lastNamed, hl, hn, mapGet_mapStore_self]
      · have hs : s ≠ resolvedName P e.fld := fun h => hn h.symm
        simp [lastNamed, hl, hn, mapGet_mapStore_ne _ _ _ _ hs]

theorem lastNamed_some (P : InstructionSet M) (s : String) :
    ∀ (es : List Entry) (e : Entry), lastNamed P s es = some e →
      e ∈ es ∧ resolvedName P e.fld = s := by
  intro es
  induction es with
  | nil => intro e h; simp [lastNamed] at h
  | cons x rest ih =>
    intro e h
    cases hl : lastNamed P s rest with
    | some e2 =>
      simp only [lastNamed, hl, Option.some.injEq] at h
      subst h
      exact ⟨List.mem_cons_of_mem _ (ih e2 hl).1, (ih e2 hl).2⟩
    | none =>
      by_cases hn : resolvedName P x.fld = s
      · simp only [lastNamed, hl, hn, if_true, Option.some.injEq] at h
        subst h
        exact ⟨List.mem_cons_self _ _, hn⟩
      · simp [lastNamed, hl, hn] at h

/-- Whatever `GetFieldByName` returns on the root is one of its children, built for a field
that resolved to the requested name. -/
theorem Built.byName_some {P : InstructionSet M} {decls : Decls} {name : String}
    {c d : Cache M} {r : Nat} {es : List Entry} (hb : Built P decls name c d r es)
    {s : String} {n : Nat} (h : d.GetFieldByName r s = some n) :
    ∃ e ∈ es, e.addr = n ∧ resolvedName P e.fld = s := by
  rw [hb.byName, mapGet_indexAfter] at h
  cases hl : lastNamed P s es with
  | none => simp [hl, mapGet] at h
  | some e =>
    simp only [hl, Option.some.injEq] at h
    exact ⟨e, (lastNamed_some P s es e hl).1, h, (lastNamed_some P s es e hl).2⟩

end NameIndex

section Claims3

variable {M : Type}

/-- C3. On a cache miss for the struct type `name`, the `Idx` values of the root's
`Fields()`, in order, are exactly the ascending declaration positions of the fields that
are anonymous or have a non-empty name not starting with `'a'..'z'`, and whose tag `Skip`
rejects not; when no field is excluded there are as many children as declared fields and
the `k`-th child has `Idx = k`. -/
theorem C3_children_follow_declaration_order (P : InstructionSet M) (decls : Decls)
    (fuel : Nat) (c d : Cache M) (t : Ty) (name : String) (r : Nat) (hwf : c.WF)
    (ht : t.deref = .struct name) (hmiss : mapGet c.m (.struct name) = none)
    (hrun : GetTypeDataFor P decls fuel c t = some (r, d)) :
    (d.Fields r).map d.IdxOf = (specPositions P (decls name)).map some ∧
    ((∀ f ∈ decls name, specIncluded P f = true) →
      (d.Fields r).length = (decls name).length ∧
      ∀ k, k < (decls name).length → ((d.Fields r)[k]?).bind d.IdxOf = some k) := by
  obtain ⟨es, hb⟩ := getTypeDataFor_built P decls fuel c d t name r hwf ht hmiss hrun
  have hidx := hb.idx_list
  refine ⟨hidx, fun hall => ?_⟩
  have hpos : specPositions P (decls name) = List.range (decls name).length := by
    unfold specPositions
    apply List.filter_eq_self.mpr
    intro i hi
    have hlt : i < (decls name).length := List.mem_range.mp hi
    simp only [List.getElem?_eq_getElem hlt]
    exact hall _ (List.getElem_mem ..)
  rw [hpos] at hidx
  have hlen : (d.Fields r).length = (decls name).length := by
    have := congrArg List.length hidx
    simpa using this
  refine ⟨hlen, fun k hk => ?_⟩
  have hk2 : ((d.Fields r).map d.IdxOf)[k]? = ((List.range (decls name).length).map some)[k]? := by
    rw [hidx]
  simp only [List.getElem?_map, List.getElem?_range hk, Option.map_some'] at hk2
  cases hf : (d.Fields r)[k]? with
  | none => simp [hf] at hk2
  | some n => simpa [hf] using hk2

/-- C3, on `complexStruct` of the test file (fresh cache): the third field is skipped, and
the two children carry `Idx` 0 and 1. -/
theorem C3_children_follow_declaration_order_witness :
    ∃ r d, GetTypeDataFor testPolicy testDecls 3 (NewCache TestInstructions)
        (.struct "complexStruct") = some (r, d) ∧
      specPositions testPolicy (testDecls "complexStruct") = [0, 1] ∧
      (d.Fields r).map d.IdxOf = (specPositions testPolicy (testDecls "complexStruct")).map some :=
  match h : GetTypeDataFor testPolicy testDecls 3 (NewCache TestInstructions)
      (.struct "complexStruct") with
  | some (r, d) =>
    ⟨r, d, rfl, by decide,
      (C3_children_follow_declaration_order testPolicy testDecls 3 _ d
        (.struct "complexStruct") "complexStruct" r wf_newCache rfl rfl h).1⟩
  | none => absurd h (by decide)

/-- C4. On a cache miss for the struct type `name`, a field `i` whose tag `Skip` accepts
has no node: no child has `Idx = i` and no name leads `GetFieldByName` to a node with
`Idx = i`, whatever the field's name, type and embedding; and a struct all of whose fields
are unexported (and not embedded) or skipped has no children. -/
theorem C4_skipped_field_has_no_node (P : InstructionSet M) (decls : Decls)
    (fuel : Nat) (c d : Cache M) (t : Ty) (name : String) (r : Nat) (hwf : c.WF)
    (ht : t.deref = .struct name) (hmiss : mapGet c.m (.struct name) = none)
    (hrun : GetTypeDataFor P decls fuel c t = some (r, d)) :
    (∀ i f, (decls name)[i]? = some f → P.Skip (f.tagGet P.TagNamespace) = true →
      (∀ n ∈ d.Fields r, d.IdxOf n ≠ some i) ∧
      (∀ s n, d.GetFieldByName r s = some n → d.IdxOf n ≠ some i)) ∧
    ((∀ g ∈ decls name, (lowerInitial g.Name && !g.Anonymous) = true ∨
        P.Skip (g.tagGet P.TagNamespace) = true) → d.Fields r = []) := by
  obtain ⟨es, hb⟩ := getTypeDataFor_built P decls fuel c d t name r hwf ht hmiss hrun
  have hno : ∀ i f, (decls name)[i]? = some f → P.Skip (f.tagGet P.TagNamespace) = true →
      ∀ n ∈ d.Fields r, d.IdxOf n ≠ some i := by
    intro i f hi hskip n hn hidx
    obtain ⟨e, _, _, _, hk, hinc⟩ := hb.entry_of_idx hn hidx
    rw [hi] at hk
    have hfe : f = e.fld := Option.some.inj hk
    subst hfe
    simp [included, hskip] at hinc
  refine ⟨fun i f hi hskip => ⟨hno i f hi hskip, ?_⟩, ?_⟩
  · intro s n hget
    obtain ⟨e, he, rfl, _⟩ := hb.byName_some hget
    exact hno i f hi hskip e.addr (hb.child_mem he)
  · intro hall
    cases hes : es with
    | nil => rw [hb.fields, hes]; rfl
    | cons e rest =>
      have he : e ∈ es := hes ▸ List.mem_cons_self _ _
      obtain ⟨hk, hinc⟩ := hb.field_of_entry he
      have hmem : e.fld ∈ decls name := List.getElem?_mem hk
      rcases hall e.fld hmem with h | h
      · simp [included, h] at hinc
      · simp [included, h] at hinc

/-- C4, scenario A (fresh cache): a struct with the unexported field `a` and the exported
field `C` tagged `-`, which the test policy skips, has zero children. -/
theorem C4_skipped_field_has_no_node_witness :
    ∃ r d, GetTypeDataFor testPolicy scenarioDecls 2 (NewCache TestInstructions)
        (.struct "scenarioA") = some (r, d) ∧
      testPolicy.Skip "-" = true ∧ d.Fields r = [] ∧
      ((∀ n ∈ d.Fields r, d.IdxOf n ≠ some 1) ∧
        ∀ s n, d.GetFieldByName r s = some n → d.IdxOf n ≠ some 1) :=
  match h : GetTypeDataFor testPolicy scenarioDecls 2 (NewCache TestInstructions)
      (.struct "scenarioA") with
  | some (r, d) =>
    have hc := C4_skipped_field_has_no_node testPolicy scenarioDecls 2 _ d
      (.struct "scenarioA") "scenarioA" r wf_newCache rfl rfl h
    ⟨r, d, rfl, by decide, hc.2 (by decide),
      hc.1 1 ⟨"C", false, [("redact", "-")], tyString⟩ (by decide) (by decide)⟩
  | none => absurd h (by decide)

end Claims3

section LastWins

variable {M : Type}

theorem lastNamed_none (P : InstructionSet M) (s : String) :
    ∀ (es : List Entry), (∀ e ∈ es, resolvedName P e.fld ≠ s) → lastNamed P s es = none := by
  intro es
  induction es with
  | nil => intro _; rfl
  | cons x rest ih =>
    intro h
    have h1 := ih (fun e he => h e (List.mem_cons_of_mem _ he))
    have h2 := h x (List.mem_cons_self _ _)
    simp [lastNamed, h1, h2]

theorem lastNamed_of_last (P : InstructionSet M) (s : String) :
    ∀ (es : List Entry) (e : Entry),
      (es.map (fun x => x.pos)).Pairwise (fun a b => a < b) → e ∈ es →
      resolvedName P e.fld = s →
      (∀ x ∈ es, e.pos < x.pos → resolvedName P x.fld ≠ s) → lastNamed P s es = some e := by
  intro es
  induction es with
  | nil => intro e _ he; simp at he
  | cons x rest ih =>
    intro e hsort he hs hlater
    simp only [List.map_cons, List.pairwise_cons] at hsort
    rcases List.mem_cons.mp he with rfl | hin
    · have hnone : lastNamed P s rest = none := by
        apply lastNamed_none
        intro y hy
        apply hlater y (List.mem_cons_of_mem _ hy)
        exact hsort.1 y.pos (List.mem_map.mpr ⟨y, hy, rfl⟩)
      simp [lastNamed, hnone, hs]
    · have := ih e hsort.2 hin hs (fun y hy => hlater y (List.mem_cons_of_mem _ hy))
      simp [lastNamed, this]

theorem Built.pos_sorted {P : InstructionSet M} {decls : Decls} {name : String}
    {c d : Cache M} {r : Nat} {es : List Entry} (hb : Built P decls name c d r es) :
    (es.map (fun x => x.pos)).Pairwise (fun a b => a < b) := by
  have h1 : es.map (fun e => e.pos) = (includedFrom P (decls name) 0).map Prod.fst := by
    rw [← hb.entries, List.map_map]
    rfl
  rw [h1]
  exact includedFrom_sorted P _ 0

/-- The resolved name of an included field leads `GetFieldByName` to that field's node,
unless a later included field resolves to the same name. -/
theorem Built.byName_of_last {P : InstructionSet M} {decls : Decls} {name : String}
    {c d : Cache M} {r : Nat} {es : List Entry} (hb : Built P decls name c d r es)
    {e : Entry} (he : e ∈ es)
    (hlater : ∀ j g, e.pos < j → (decls name)[j]? = some g → included P g = true →
      resolvedName P g ≠ resolvedName P e.fld) :
    d.GetFieldByName r (resolvedName P e.fld) = some e.addr := by
  rw [hb.byName, mapGet_indexAfter]
  have : lastNamed P (resolvedName P e.fld) es = some e := by
    apply lastNamed_of_last P _ es e hb.pos_sorted he rfl
    intro x hx hlt
    obtain ⟨h1, h2⟩ := hb.field_of_entry hx
    exact hlater x.pos x.fld hlt h1 h2
  simp [this]

theorem getTypeDataFor_hit_any (P : InstructionSet M) (decls : Decls) (d : Cache M) (t : Ty)
    (q : Nat) (h : mapGet d.m t.deref = some q) (fuel : Nat) :
    GetTypeDataFor P decls (fuel + 1) d t = some (q, d) :=
  getTypeDataFor_hit P decls fuel d t q h

end LastWins

section Claims5

variable {M : Type}

/-- What lines 110-117 do with a `nil` result of `GetMetadata`. On a cache miss for the
struct type `name`, an included field `i` that is not a direct self-reference and for which
`GetMetadata` returns `nil` still gets a node: the root has a child with `Idx = i`, each such
child carries the policy's default metadata, and it is what `GetFieldByName` returns for the
field's resolved name unless a later included field resolves to the same name. -/
theorem nil_metadata_node_is_appended (P : InstructionSet M) (decls : Decls)
    (fuel : Nat) (c d : Cache M) (t : Ty) (name : String) (r : Nat) (hwf : c.WF)
    (ht : t.deref = .struct name) (hmiss : mapGet c.m (.struct name) = none)
    (hrun : GetTypeDataFor P decls fuel c t = some (r, d))
    (i : Nat) (f : StructField) (hi : (decls name)[i]? = some f)
    (hinc : included P f = true) (hns : f.Typ.deref ≠ .struct name)
    (hmd : P.GetMetadata f (f.tagGet P.TagNamespace) = none) :
    (∃ n ∈ d.Fields r, d.IdxOf n = some i) ∧
    ∀ n ∈ d.Fields r, d.IdxOf n = some i →
      d.InstructionData n = some P.emptyMetadata ∧
      ((∀ j g, i < j → (decls name)[j]? = some g → included P g = true →
          resolvedName P g ≠ resolvedName P f) →
        d.GetFieldByName r (resolvedName P f) = some n) := by
  obtain ⟨es, hb⟩ := getTypeDataFor_built P decls fuel c d t name r hwf ht hmiss hrun
  obtain ⟨h1, h2⟩ := hb.child_of_field hi hinc
  refine ⟨h1, ?_⟩
  intro n hn hidx
  obtain ⟨e, he, rfl, hp, hf⟩ := h2 n hn hidx
  subst hf
  obtain ⟨q, _, _, _, _, hdata⟩ := (hb.child e he).2.2 hns
  refine ⟨by simpa [hmd] using hdata, fun hlater => ?_⟩
  exact hb.byName_of_last he (fun j g hj => hlater j g (hp ▸ hj))

/-- C5, the code at a failing input: with the test policy, the exported field `B` tagged
`-,x` is not skipped (`Skip` compares the whole tag with `-`) while `GetMetadata` returns
`nil` for it (the tag's first part is `-`, the branch the test file marks `// skip`); the
root built for `nilMeta` nevertheless has a child with `Idx = 0`, carrying the default
metadata and reachable under its resolved name `-`. -/
theorem C5_nil_metadata_does_not_exclude_field :
    testPolicy.Skip "-,x" = false ∧
    testPolicy.GetMetadata ⟨"B", false, [("redact", "-,x")], tyString⟩ "-,x" = none ∧
    (GetTypeDataFor testPolicy scenarioDecls 2 (NewCache TestInstructions)
        (.struct "nilMeta")).map
      (fun x => ((x.2.Fields x.1).map x.2.IdxOf,
        (x.2.Fields x.1).map (fun n => (x.2.InstructionData n).map (fun m => m.AllowedGroups)),
        (x.2.GetFieldByName x.1 "-").bind x.2.IdxOf)) =
      some ([some 0], [some []], some 0) := by
  decide

/-- The lemma `nil_metadata_node_is_appended` on `nilMeta` (fresh cache): its hypotheses hold
for field 0 and the child carries the default metadata. -/
theorem nil_metadata_node_is_appended_nilMeta :
    ∃ r d, GetTypeDataFor testPolicy scenarioDecls 2 (NewCache TestInstructions)
        (.struct "nilMeta") = some (r, d) ∧
      testPolicy.GetMetadata ⟨"B", false, [("redact", "-,x")], tyString⟩ "-,x" = none ∧
      (∃ n ∈ d.Fields r, d.IdxOf n = some 0) ∧
      ∀ n ∈ d.Fields r, d.IdxOf n = some 0 →
        d.InstructionData n = some testPolicy.emptyMetadata ∧ d.GetFieldByName r "-" = some n :=
  match h : GetTypeDataFor testPolicy scenarioDecls 2 (NewCache TestInstructions)
      (.struct "nilMeta") with
  | some (r, d) =>
    have hc := nil_metadata_node_is_appended testPolicy scenarioDecls 2 _ d
      (.struct "nilMeta") "nilMeta" r wf_newCache rfl rfl h 0
      ⟨"B", false, [("redact", "-,x")], tyString⟩ (by decide) (by decide) (by decide)
      (by decide)
    ⟨r, d, rfl, by decide, hc.1, fun n hn hidx =>
      ⟨(hc.2 n hn hidx).1, (hc.2 n hn hidx).2 (by
        intro j g hj hg
        cases j with
        | zero => omega
        | succ j => simp [scenarioDecls] at hg)⟩⟩
  | none => absurd h (by decide)

/-- C6. On a cache miss for the struct type `name`, the root carries the policy's default
metadata, and an included field `i` that is not a direct self-reference and for which
`GetMetadata` returns `m` has a child with `Idx = i`; each such child carries `m`, and its
`Fields()` and `GetFieldByName` are those of the tree `GetTypeDataFor` returns for the
field's type. -/
theorem C6_child_copies_field_type_tree (P : InstructionSet M) (decls : Decls)
    (fuel : Nat) (c d : Cache M) (t : Ty) (name : String) (r : Nat) (hwf : c.WF)
    (ht : t.deref = .struct name) (hmiss : mapGet c.m (.struct name) = none)
    (hrun : GetTypeDataFor P decls fuel c t = some (r, d))
    (i : Nat) (f : StructField) (hi : (decls name)[i]? = some f)
    (hinc : included P f = true) (hns : f.Typ.deref ≠ .struct name)
    (m : M) (hmd : P.GetMetadata f (f.tagGet P.TagNamespace) = some m) :
    d.InstructionData r = some P.emptyMetadata ∧
    (∃ n ∈ d.Fields r, d.IdxOf n = some i) ∧
    ∀ n ∈ d.Fields r, d.IdxOf n = some i →
      d.InstructionData n = some m ∧
      ∃ q, (∀ fuel2, GetTypeDataFor P decls (fuel2 + 1) d f.Typ = some (q, d)) ∧
        d.Fields n = d.Fields q ∧ ∀ s, d.GetFieldByName n s = d.GetFieldByName q s := by
  obtain ⟨es, hb⟩ := getTypeDataFor_built P decls fuel c d t name r hwf ht hmiss hrun
  obtain ⟨h1, h2⟩ := hb.child_of_field hi hinc
  refine ⟨hb.rootData, h1, ?_⟩
  intro n hn hidx
  obtain ⟨e, he, rfl, _, hf⟩ := h2 n hn hidx
  subst hf
  obtain ⟨q, hq, _, hfields, hnames, hdata⟩ := (hb.child e he).2.2 hns
  exact ⟨by simpa [hmd] using hdata, q, getTypeDataFor_hit_any P decls d _ q hq, hfields,
    hnames⟩

/-- C6, on `simpleStruct` of the test file (fresh cache): field 1 (`B`, tagged `admin`) gets
the metadata `GetMetadata` builds from its tag. -/
theorem C6_child_copies_field_type_tree_witness :
    ∃ r d, GetTypeDataFor testPolicy testDecls 3 (NewCache TestInstructions)
        (.struct "simpleStruct") = some (r, d) ∧
      d.InstructionData r = some testPolicy.emptyMetadata ∧
      (∃ n ∈ d.Fields r, d.IdxOf n = some 1) ∧
      ∀ n ∈ d.Fields r, d.IdxOf n = some 1 →
        d.InstructionData n = some { AllowedGroups := ["admin"] } ∧
        ∃ q, (∀ fuel2, GetTypeDataFor testPolicy testDecls (fuel2 + 1) d tyString =
            some (q, d)) ∧
          d.Fields n = d.Fields q ∧ ∀ s, d.GetFieldByName n s = d.GetFieldByName q s :=
  match h : GetTypeDataFor testPolicy testDecls 3 (NewCache TestInstructions)
      (.struct "simpleStruct") with
  | some (r, d) =>
    ⟨r, d, rfl,
      C6_child_copies_field_type_tree testPolicy testDecls 3 _ d (.struct "simpleStruct")
        "simpleStruct" r wf_newCache rfl rfl h 1
        ⟨"B", false, [("redact", "admin")], tyString⟩ (by decide) (by decide) (by decide)
        { AllowedGroups := ["admin"] } (by decide)⟩
  | none => absurd h (by decide)

/-- C7, the code at a failing input: the field `_x` of `underscore` is not exported (its
name does not begin with an upper-case letter) and not embedded, yet the gate of line 80
lets it through and the root has a child with `Idx = 0`, reachable under the name `_x`. -/
theorem C7_underscore_field_is_not_skipped :
    lowerInitial "_x" = false ∧
    (GetTypeDataFor testPolicy scenarioDecls 2 (NewCache TestInstructions)
        (.struct "underscore")).map
      (fun x => ((x.2.Fields x.1).map x.2.IdxOf, (x.2.GetFieldByName x.1 "_x").bind x.2.IdxOf)) =
      some ([some 0], some 0) := by
  decide

/-- C8. On a cache miss for the struct type `name`, an embedded field `i` of struct type `S`
whose tag is not skipped has a child with `Idx = i`, whatever the initial of its name, and
the `Fields()` of each such child is the child list of the tree `GetTypeDataFor` returns for
`S`. -/
theorem C8_embedded_field_is_included (P : InstructionSet M) (decls : Decls)
    (fuel : Nat) (c d : Cache M) (t : Ty) (name : String) (r : Nat) (hwf : c.WF)
    (ht : t.deref = .struct name) (hmiss : mapGet c.m (.struct name) = none)
    (hrun : GetTypeDataFor P decls fuel c t = some (r, d))
    (i : Nat) (f : StructField) (S : String) (hi : (decls name)[i]? = some f)
    (hanon : f.Anonymous = true) (hS : f.Typ = .struct S)
    (hskip : P.Skip (f.tagGet P.TagNamespace) = false) :
    (∃ n ∈ d.Fields r, d.IdxOf n = some i) ∧
    ∀ n ∈ d.Fields r, d.IdxOf n = some i →
      ∃ q, (∀ fuel2, GetTypeDataFor P decls (fuel2 + 1) d (.struct S) = some (q, d)) ∧
        d.Fields n = d.Fields q := by
  obtain ⟨es, hb⟩ := getTypeDataFor_built P decls fuel c d t name r hwf ht hmiss hrun
  have hinc : included P f = true := by simp [included, hanon, hskip]
  obtain ⟨h1, h2⟩ := hb.child_of_field hi hinc
  refine ⟨h1, ?_⟩
  intro n hn hidx
  obtain ⟨e, he, rfl, _, hf⟩ := h2 n hn hidx
  subst hf
  have hderef : e.fld.Typ.deref = .struct S := by rw [hS]; rfl
  by_cases hself : e.fld.Typ.deref = .struct name
  · have hSn : S = name := by
      rw [hderef] at hself
      exact Ty.struct.inj hself
    subst hSn
    refine ⟨r, fun fuel2 => getTypeDataFor_hit_any P decls d _ r (by simpa using hb.stored) _,
      ((hb.child e he).2.1 hself).1⟩
  · obtain ⟨q, hq, _, hfields, _, _⟩ := (hb.child e he).2.2 hself
    rw [hderef] at hq
    exact ⟨q, fun fuel2 => getTypeDataFor_hit_any P decls d _ q (by simpa using hq) _, hfields⟩

/-- C8, scenario B on `simpleStruct` of the test file (fresh cache): the embedded field
`embeddedStruct` at position 3 has a lower-case initial and is included; its child has the
one-element child list of `embeddedStruct`. -/
theorem C8_embedded_field_is_included_witness :
    ∃ r d, GetTypeDataFor testPolicy testDecls 3 (NewCache TestInstructions)
        (.struct "simpleStruct") = some (r, d) ∧
      lowerInitial "embeddedStruct" = true ∧
      (∃ n ∈ d.Fields r, d.IdxOf n = some 3 ∧ (d.Fields n).length = 1) ∧
      ∀ n ∈ d.Fields r, d.IdxOf n = some 3 →
        ∃ q, (∀ fuel2, GetTypeDataFor testPolicy testDecls (fuel2 + 1) d
            (.struct "embeddedStruct") = some (q, d)) ∧ d.Fields n = d.Fields q :=
  match h : GetTypeDataFor testPolicy testDecls 3 (NewCache TestInstructions)
      (.struct "simpleStruct") with
  | some (r, d) =>
    have hc := C8_embedded_field_is_included testPolicy testDecls 3 _ d
      (.struct "simpleStruct") "simpleStruct" r wf_newCache rfl rfl h 3
      ⟨"embeddedStruct", true, [], .struct "embeddedStruct"⟩ "embeddedStruct" (by decide)
      rfl rfl (by decide)
    ⟨r, d, rfl, by decide, by
      have h2 : (GetTypeDataFor testPolicy testDecls 3 (NewCache TestInstructions)
          (.struct "simpleStruct")).map (fun x =>
            decide (∃ n ∈ x.2.Fields x.1, x.2.IdxOf n = some 3 ∧
              (x.2.Fields n).length = 1)) = some true := by decide
      rw [h] at h2
      simpa using h2, hc.2⟩
  | none => absurd h (by decide)

end Claims5

section Divergence

variable {M : Type}

theorem ensureFields_m (c : Cache M) (out : Nat) : (ensureFields c out).2.m = c.m := by
  unfold ensureFields
  split <;> rfl

/-- The loop returns nothing when the nested call for its first field, which is included
and not a direct self-reference, returns nothing. -/
theorem structLoop_head_none (P : InstructionSet M)
    (call : Cache M → Ty → Option (Nat × Cache M)) (t : Ty) (out mp : Nat)
    (f : StructField) (rest : List StructField) (i : Nat) (c : Cache M)
    (hinc : included P f = true) (hns : f.Typ.deref ≠ t)
    (hnone : ∀ c2 : Cache M, c2.m = c.m → call c2 f.Typ = none) :
    structLoop P call t out mp (f :: rest) i c = none := by
  have hvis : (lowerInitial f.Name && !f.Anonymous) = false := by
    cases h : (lowerInitial f.Name && !f.Anonymous)
    · rfl
    · simp [included, h] at hinc
  have hskip : P.Skip (f.tagGet P.TagNamespace) = false := by
    cases h : P.Skip (f.tagGet P.TagNamespace)
    · rfl
    · simp [included, h] at hinc
  rw [structLoop]
  simp only [hvis, hskip, Bool.false_eq_true, if_false, if_neg hns,
    hnone _ (ensureFields_m c out)]

theorem afterAlloc_m (P : InstructionSet M) (c : Cache M) : (afterAlloc P c).m = c.m := rfl

/-- Neither `sliceSelf` nor `[]sliceSelf` is ever built: each nested call finds the other
type missing from `rc.m` and starts over. -/
theorem sliceSelf_diverges :
    ∀ (fuel : Nat) (c : Cache TestInstructions),
      mapGet c.m (.struct "sliceSelf") = none →
      mapGet c.m (.slice (.struct "sliceSelf")) = none →
      GetTypeDataFor testPolicy scenarioDecls fuel c (.struct "sliceSelf") = none ∧
      GetTypeDataFor testPolicy scenarioDecls fuel c (.slice (.struct "sliceSelf")) = none := by
  intro fuel
  induction fuel with
  | zero => intro c _ _; exact ⟨rfl, rfl⟩
  | succ n ih =>
    intro c h1 h2
    constructor
    · rw [getTypeDataFor_struct testPolicy scenarioDecls n c (.struct "sliceSelf") "sliceSelf" rfl h1]
      have hfs : scenarioDecls "sliceSelf" =
          [⟨"Kids", false, [], .slice (.struct "sliceSelf")⟩] := by decide
      rw [hfs, structLoop_head_none testPolicy _ _ _ _ _ [] 0 _ (by decide) (by decide)]
      · rfl
      · intro c2 hc2
        exact (ih c2 (by rw [hc2]; exact h1) (by rw [hc2]; exact h2)).2
    · rw [getTypeDataFor_container testPolicy scenarioDecls n c (.slice (.struct "sliceSelf"))
        (.struct "sliceSelf") (Or.inr (Or.inl rfl)) h2]
      rw [(ih (afterAlloc testPolicy c) h1 h2).1]
      rfl

/-- Neither `mutA` nor `mutB` is ever built: each is requested again through the other
before either is stored. -/
theorem mutual_diverges :
    ∀ (fuel : Nat) (c : Cache TestInstructions),
      mapGet c.m (.struct "mutA") = none → mapGet c.m (.struct "mutB") = none →
      GetTypeDataFor testPolicy scenarioDecls fuel c (.struct "mutA") = none ∧
      GetTypeDataFor testPolicy scenarioDecls fuel c (.ptr (.struct "mutB")) = none := by
  intro fuel
  induction fuel using Nat.strong_induction_on with
  | _ fuel ih =>
    intro c h1 h2
    cases fuel with
    | zero => exact ⟨rfl, rfl⟩
    | succ n =>
      have hB : ∀ c2 : Cache TestInstructions, c2.m = c.m →
          GetTypeDataFor testPolicy scenarioDecls n c2 (.ptr (.struct "mutB")) = none :=
        fun c2 hc2 => (ih n (by omega) c2 (by rw [hc2]; exact h1) (by rw [hc2]; exact h2)).2
      constructor
      · rw [getTypeDataFor_struct testPolicy scenarioDecls n c (.struct "mutA") "mutA" rfl h1]
        have hfs : scenarioDecls "mutA" = [⟨"B", false, [], .ptr (.struct "mutB")⟩] := by
          decide
        rw [hfs, structLoop_head_none testPolicy _ _ _ _ _ [] 0 _ (by decide) (by decide)]
        · rfl
        · intro c2 hc2
          exact hB c2 hc2
      · rw [getTypeDataFor_struct testPolicy scenarioDecls n c (.ptr (.struct "mutB")) "mutB" rfl h2]
        have hfs : scenarioDecls "mutB" = [⟨"A", false, [], .ptr (.struct "mutA")⟩] := by
          decide
        rw [hfs, structLoop_head_none testPolicy _ _ _ _ _ [] 0 _ (by decide) (by decide)]
        · rfl
        · intro c2 hc2
          cases n with
          | zero => rfl
          | succ k =>
            have hA := (ih (k + 1) (by omega) c2 (by rw [hc2]; exact h1)
              (by rw [hc2]; exact h2)).1
            rw [getTypeDataFor_struct testPolicy scenarioDecls k c2 (.ptr (.struct "mutA"))
              "mutA" rfl (by rw [hc2]; exact h1)]
            rw [getTypeDataFor_struct testPolicy scenarioDecls k c2 (.struct "mutA")
              "mutA" rfl (by rw [hc2]; exact h1)] at hA
            exact hA

end Divergence

section Claims2

/-- C2, the code at failing inputs: on a fresh cache the build of `sliceSelf` (a struct with
a field of type `[]sliceSelf`) and the build of `mutA` (which holds a `*mutB`, which holds a
`*mutA`) return for no amount of fuel: the direct self-reference rule of line 98 sees neither
cycle, and nothing else bounds the recursion. -/
theorem C2_cyclic_type_graphs_never_return (fuel : Nat) :
    GetTypeDataFor testPolicy scenarioDecls fuel (NewCache TestInstructions)
      (.struct "sliceSelf") = none ∧
    GetTypeDataFor testPolicy scenarioDecls fuel (NewCache TestInstructions)
      (.struct "mutA") = none :=
  ⟨(sliceSelf_diverges fuel (NewCache TestInstructions) rfl rfl).1,
    (mutual_diverges fuel (NewCache TestInstructions) rfl rfl).1⟩

end Claims2

section KeyInvariants

variable {M : Type}

/-- A property of `rc.m` that every nested call of the loop keeps is kept by the loop: the
loop itself never writes `rc.m`. -/
theorem structLoop_inv (P : InstructionSet M)
    (call : Cache M → Ty → Option (Nat × Cache M)) (t : Ty) (out mp : Nat)
    (Inv : List (Ty × Nat) → Prop) :
    ∀ (fs : List StructField) (i : Nat) (c d : Cache M),
      (∀ f ∈ fs, ∀ (c1 : Cache M) (r : Nat) (d1 : Cache M), Inv c1.m →
        included P f = true → f.Typ.deref ≠ t → call c1 f.Typ = some (r, d1) → Inv d1.m) →
      Inv c.m → structLoop P call t out mp fs i c = some d → Inv d.m := by
  intro fs
  induction fs with
  | nil =>
    intro i c d _ hinv hrun
    simp only [structLoop, Option.some.injEq] at hrun
    exact hrun ▸ hinv
  | cons f rest ih =>
    intro i c d hcall hinv hrun
    have hrest : ∀ g ∈ rest, ∀ (c1 : Cache M) (r : Nat) (d1 : Cache M), Inv c1.m →
        included P g = true → g.Typ.deref ≠ t → call c1 g.Typ = some (r, d1) → Inv d1.m :=
      fun g hg => hcall g (List.mem_cons_of_mem _ hg)
    have hinv1 : Inv (ensureFields c out).2.m := by rw [ensureFields_m]; exact hinv
    rw [structLoop] at hrun
    simp only at hrun
    by_cases hvis : (lowerInitial f.Name && !f.Anonymous) = true
    · rw [if_pos hvis] at hrun
      exact ih (i + 1) _ d hrest hinv1 hrun
    · rw [if_neg hvis] at hrun
      by_cases hskip : P.Skip (f.tagGet P.TagNamespace) = true
      · rw [if_pos hskip] at hrun
        exact ih (i + 1) _ d hrest hinv1 hrun
      · rw [if_neg hskip] at hrun
        by_cases hself : f.Typ.deref = t
        · rw [if_pos hself] at hrun
          exact ih (i + 1) _ d hrest (by exact hinv1) hrun
        · rw [if_neg hself] at hrun
          have hinc : included P f = true := by
            simp only [Bool.not_eq_true] at hvis hskip
            simp [included, hvis, hskip]
          cases hc : call (ensureFields c out).2 f.Typ with
          | none => rw [hc] at hrun; exact Option.noConfusion hrun
          | some rd =>
            obtain ⟨r, d1⟩ := rd
            rw [hc] at hrun
            have hinv2 : Inv d1.m :=
              hcall f (List.mem_cons_self _ _) _ r d1 hinv1 hinc hself hc
            exact ih (i + 1) _ d hrest (by exact hinv2) hrun

theorem getTypeDataFor_congr_deref (P : InstructionSet M) (decls : Decls) (fuel : Nat)
    (c : Cache M) (t1 t2 : Ty) (h : t1.deref = t2.deref) :
    GetTypeDataFor P decls fuel c t1 = GetTypeDataFor P decls fuel c t2 := by
  cases fuel with
  | zero => rfl
  | succ n =>
    rw [GetTypeDataFor, GetTypeDataFor]
    simp only [h]

theorem Ty.deref_of_not_isPtr (t : Ty) (h : t.isPtr = false) : t.deref = t := by
  cases t <;> simp [Ty.isPtr] at h <;> rfl

theorem Ty.noPtrPtr_deref (t : Ty) (h : t.noPtrPtr = true) :
    t.deref.isPtr = false ∧ t.deref.noPtrPtr = true := by
  cases t with
  | ptr e =>
    simp only [Ty.noPtrPtr, Bool.and_eq_true, Bool.not_eq_true'] at h
    exact ⟨h.1, h.2⟩
  | basic s => exact ⟨rfl, rfl⟩
  | array len e => exact ⟨rfl, h⟩
  | slice e => exact ⟨rfl, h⟩
  | map k e => exact ⟨rfl, h⟩
  | struct s => exact ⟨rfl, rfl⟩

/-- Whatever a call returns is what `rc.m` holds for the normalised type afterwards. -/
theorem getTypeDataFor_stored (P : InstructionSet M) (decls : Decls) (fuel : Nat)
    (c d : Cache M) (t : Ty) (r : Nat) (h : GetTypeDataFor P decls fuel c t = some (r, d)) :
    mapGet d.m t.deref = some r := by
  cases fuel with
  | zero => simp [GetTypeDataFor] at h
  | succ n =>
    cases hm : mapGet c.m t.deref with
    | some q =>
      rw [getTypeDataFor_hit P decls n c t q hm] at h
      simp only [Option.some.injEq, Prod.mk.injEq] at h
      obtain ⟨rfl, rfl⟩ := h
      exact hm
    | none =>
      cases ht : t.deref with
      | struct name =>
        rw [getTypeDataFor_struct P decls n c t name ht hm] at h
        simp only [Option.map_eq_some', Prod.mk.injEq] at h
        obtain ⟨d1, _, rfl, rfl⟩ := h
        simp [Cache.store, mapGet_mapStore_self]
      | array len e =>
        rw [getTypeDataFor_container P decls n c t e (Or.inl ⟨len, ht⟩) hm] at h
        simp only [Option.map_eq_some', Prod.mk.injEq] at h
        obtain ⟨rd, _, rfl, rfl⟩ := h
        simp [Cache.store, mapGet_mapStore_self, ht]
      | slice e =>
        rw [getTypeDataFor_container P decls n c t e (Or.inr (Or.inl ht)) hm] at h
        simp only [Option.map_eq_some', Prod.mk.injEq] at h
        obtain ⟨rd, _, rfl, rfl⟩ := h
        simp [Cache.store, mapGet_mapStore_self, ht]
      | map k e =>
        rw [getTypeDataFor_container P decls n c t e (Or.inr (Or.inr ⟨k, ht⟩)) hm] at h
        simp only [Option.map_eq_some', Prod.mk.injEq] at h
        obtain ⟨rd, _, rfl, rfl⟩ := h
        simp [Cache.store, mapGet_mapStore_self, ht]
      | basic s =>
        rw [getTypeDataFor_leaf P decls n c t (Or.inl ⟨s, ht⟩) hm] at h
        simp only [Option.some.injEq, Prod.mk.injEq] at h
        obtain ⟨rfl, rfl⟩ := h
        simp [Cache.store, mapGet_mapStore_self, ht]
      | ptr e =>
        rw [getTypeDataFor_leaf P decls n c t (Or.inr ⟨e, ht⟩) hm] at h
        simp only [Option.some.injEq, Prod.mk.injEq] at h
        obtain ⟨rfl, rfl⟩ := h
        simp [Cache.store, mapGet_mapStore_self, ht]

/-- Where no pointer-to-pointer type is requested, a call adds no key of pointer kind. -/
theorem getTypeDataFor_no_pointer_key (P : InstructionSet M) (decls : Decls)
    (hdecls : ∀ n, ∀ f ∈ decls n, f.Typ.noPtrPtr = true) :
    ∀ (fuel : Nat) (c d : Cache M) (t : Ty) (r : Nat), t.noPtrPtr = true →
      GetTypeDataFor P decls fuel c t = some (r, d) →
      ∀ k, mapGet c.m (.ptr k) = none → mapGet d.m (.ptr k) = none := by
  intro fuel
  induction fuel with
  | zero => intro c d t r _ h; simp [GetTypeDataFor] at h
  | succ n ih =>
    intro c d t r ht h k hk
    obtain ⟨hnp, hnpp⟩ := Ty.noPtrPtr_deref t ht
    cases hm : mapGet c.m t.deref with
    | some q =>
      rw [getTypeDataFor_hit P decls n c t q hm] at h
      simp only [Option.some.injEq, Prod.mk.injEq] at h
      obtain ⟨rfl, rfl⟩ := h
      exact hk
    | none =>
      cases htd : t.deref with
      | struct name =>
        rw [getTypeDataFor_struct P decls n c t name htd hm] at h
        simp only [Option.map_eq_some', Prod.mk.injEq] at h
        obtain ⟨d1, hl, rfl, rfl⟩ := h
        have := structLoop_inv P (GetTypeDataFor P decls n) (.struct name) c.nodes.length
          c.maps.length (fun m => mapGet m (.ptr k) = none) (decls name) 0 (afterAlloc P c) d1
          (fun f hf c1 r1 d2 hinv _ _ hc => ih c1 d2 f.Typ r1 (hdecls name f hf) hc k hinv)
          hk hl
        simpa [Cache.store, mapGet_mapStore_ne _ _ _ _ (show Ty.ptr k ≠ .struct name from
          fun e => Ty.noConfusion e)] using this
      | array len e =>
        rw [getTypeDataFor_container P decls n c t e (Or.inl ⟨len, htd⟩) hm] at h
        simp only [Option.map_eq_some', Prod.mk.injEq] at h
        obtain ⟨⟨r1, d1⟩, hl, rfl, rfl⟩ := h
        have he : e.noPtrPtr = true := by rw [htd] at hnpp; exact hnpp
        have := ih (afterAlloc P c) d1 e r1 he hl k hk
        simpa [Cache.store, htd, mapGet_mapStore_ne _ _ _ _ (show Ty.ptr k ≠ .array len e from
          fun e => Ty.noConfusion e)] using this
      | slice e =>
        rw [getTypeDataFor_container P decls n c t e (Or.inr (Or.inl htd)) hm] at h
        simp only [Option.map_eq_some', Prod.mk.injEq] at h
        obtain ⟨⟨r1, d1⟩, hl, rfl, rfl⟩ := h
        have he : e.noPtrPtr = true := by rw [htd] at hnpp; exact hnpp
        have := ih (afterAlloc P c) d1 e r1 he hl k hk
        simpa [Cache.store, htd, mapGet_mapStore_ne _ _ _ _ (show Ty.ptr k ≠ .slice e from
          fun e => Ty.noConfusion e)] using this
      | map key e =>
        rw [getTypeDataFor_container P decls n c t e (Or.inr (Or.inr ⟨key, htd⟩)) hm] at h
        simp only [Option.map_eq_some', Prod.mk.injEq] at h
        obtain ⟨⟨r1, d1⟩, hl, rfl, rfl⟩ := h
        have he : e.noPtrPtr = true := by rw [htd] at hnpp; exact hnpp
        have := ih (afterAlloc P c) d1 e r1 he hl k hk
        simpa [Cache.store, htd, mapGet_mapStore_ne _ _ _ _ (show Ty.ptr k ≠ .map key e from
          fun e => Ty.noConfusion e)] using this
      | basic s =>
        rw [getTypeDataFor_leaf P decls n c t (Or.inl ⟨s, htd⟩) hm] at h
        simp only [Option.some.injEq, Prod.mk.injEq] at h
        obtain ⟨rfl, rfl⟩ := h
        simpa [Cache.store, Cache.allocNode, afterAlloc, Cache.allocMap, htd,
          mapGet_mapStore_ne _ _ _ _ (show Ty.ptr k ≠ .basic s from
            fun e => Ty.noConfusion e)] using hk
      | ptr e =>
        rw [htd] at hnp
        simp [Ty.isPtr] at hnp

end KeyInvariants

section NestedRequests

variable {M : Type}

/-- The four ways a call returns: the cache held the type; or it did not, and the type is a
leaf, a container, or a struct. -/
theorem getTypeDataFor_inv (P : InstructionSet M) (decls : Decls) (n : Nat) (c d : Cache M)
    (t : Ty) (r : Nat) (h : GetTypeDataFor P decls (n + 1) c t = some (r, d)) :
    (mapGet c.m t.deref = some r ∧ d = c) ∨
    (mapGet c.m t.deref = none ∧
      ((requests P decls t.deref = [] ∧ t.deref.Elem = none ∧
          d.m = mapStore t.deref r c.m) ∨
       (∃ e d1, t.deref.Elem = some e ∧ requests P decls t.deref = [e.deref] ∧
          GetTypeDataFor P decls n (afterAlloc P c) e = some (r, d1) ∧
          d = d1.store t.deref r) ∨
       (∃ name d1, t.deref = .struct name ∧
          structLoop P (GetTypeDataFor P decls n) (.struct name) c.nodes.length
            c.maps.length (decls name) 0 (afterAlloc P c) = some d1 ∧
          d = d1.store (.struct name) r))) := by
  cases hm : mapGet c.m t.deref with
  | some q =>
    rw [getTypeDataFor_hit P decls n c t q hm] at h
    simp only [Option.some.injEq, Prod.mk.injEq] at h
    obtain ⟨rfl, rfl⟩ := h
    exact Or.inl ⟨rfl, rfl⟩
  | none =>
    refine Or.inr ⟨rfl, ?_⟩
    cases ht : t.deref with
    | struct name =>
      rw [getTypeDataFor_struct P decls n c t name ht hm] at h
      simp only [Option.map_eq_some', Prod.mk.injEq] at h
      obtain ⟨d1, hl, rfl, rfl⟩ := h
      exact Or.inr (Or.inr ⟨name, d1, rfl, hl, rfl⟩)
    | array len e =>
      rw [getTypeDataFor_container P decls n c t e (Or.inl ⟨len, ht⟩) hm] at h
      simp only [Option.map_eq_some', Prod.mk.injEq] at h
      obtain ⟨⟨r1, d1⟩, hl, rfl, rfl⟩ := h
      exact Or.inr (Or.inl ⟨e, d1, rfl, rfl, hl, by rw [ht]⟩)
    | slice e =>
      rw [getTypeDataFor_container P decls n c t e (Or.inr (Or.inl ht)) hm] at h
      simp only [Option.map_eq_some', Prod.mk.injEq] at h
      obtain ⟨⟨r1, d1⟩, hl, rfl, rfl⟩ := h
      exact Or.inr (Or.inl ⟨e, d1, rfl, rfl, hl, by rw [ht]⟩)
    | map k e =>
      rw [getTypeDataFor_container P decls n c t e (Or.inr (Or.inr ⟨k, ht⟩)) hm] at h
      simp only [Option.map_eq_some', Prod.mk.injEq] at h
      obtain ⟨⟨r1, d1⟩, hl, rfl, rfl⟩ := h
      exact Or.inr (Or.inl ⟨e, d1, rfl, rfl, hl, by rw [ht]⟩)
    | basic s =>
      rw [getTypeDataFor_leaf P decls n c t (Or.inl ⟨s, ht⟩) hm] at h
      simp only [Option.some.injEq, Prod.mk.injEq] at h
      obtain ⟨rfl, rfl⟩ := h
      exact Or.inl ⟨rfl, rfl, by rw [ht]; rfl⟩
    | ptr e =>
      rw [getTypeDataFor_leaf P decls n c t (Or.inr ⟨e, ht⟩) hm] at h
      simp only [Option.some.injEq, Prod.mk.injEq] at h
      obtain ⟨rfl, rfl⟩ := h
      exact Or.inl ⟨rfl, rfl, by rw [ht]; rfl⟩

/-- The loop makes the nested call for every included field that is not a direct
self-reference, in a state that satisfies every property of `rc.m` the calls keep. -/
theorem structLoop_calls (P : InstructionSet M)
    (call : Cache M → Ty → Option (Nat × Cache M)) (t : Ty) (out mp : Nat)
    (Inv : List (Ty × Nat) → Prop) :
    ∀ (fs : List StructField) (i : Nat) (c d : Cache M),
      (∀ f ∈ fs, ∀ (c1 : Cache M) (r : Nat) (d1 : Cache M), Inv c1.m →
        included P f = true → f.Typ.deref ≠ t → call c1 f.Typ = some (r, d1) → Inv d1.m) →
      Inv c.m → structLoop P call t out mp fs i c = some d →
      ∀ f ∈ fs, included P f = true → f.Typ.deref ≠ t →
        ∃ c1 r d1, Inv c1.m ∧ call c1 f.Typ = some (r, d1) := by
  intro fs
  induction fs with
  | nil =>
    intro i c d _ _ _ f hf
    exact absurd hf (List.not_mem_nil _)
  | cons g rest ih =>
    intro i c d hcall hinv hrun f hf hinc hns
    have hrest : ∀ g ∈ rest, ∀ (c1 : Cache M) (r : Nat) (d1 : Cache M), Inv c1.m →
        included P g = true → g.Typ.deref ≠ t → call c1 g.Typ = some (r, d1) → Inv d1.m :=
      fun g hg => hcall g (List.mem_cons_of_mem _ hg)
    have hinv1 : Inv (ensureFields c out).2.m := by rw [ensureFields_m]; exact hinv
    rw [structLoop] at hrun
    simp only at hrun
    by_cases hvis : (lowerInitial g.Name && !g.Anonymous) = true
    · rw [if_pos hvis] at hrun
      rcases List.mem_cons.mp hf with rfl | hf
      · simp [included, hvis] at hinc
      · exact ih (i + 1) _ d hrest hinv1 hrun f hf hinc hns
    · rw [if_neg hvis] at hrun
      by_cases hskip : P.Skip (g.tagGet P.TagNamespace) = true
      · rw [if_pos hskip] at hrun
        rcases List.mem_cons.mp hf with rfl | hf
        · simp [included, hskip] at hinc
        · exact ih (i + 1) _ d hrest hinv1 hrun f hf hinc hns
      · rw [if_neg hskip] at hrun
        by_cases hself : g.Typ.deref = t
        · rw [if_pos hself] at hrun
          rcases List.mem_cons.mp hf with rfl | hf
          · exact absurd hself hns
          · exact ih (i + 1) _ d hrest (by exact hinv1) hrun f hf hinc hns
        · rw [if_neg hself] at hrun
          have hginc : included P g = true := by
            simp only [Bool.not_eq_true] at hvis hskip
            simp [included, hvis, hskip]
          cases hc : call (ensureFields c out).2 g.Typ with
          | none => rw [hc] at hrun; exact Option.noConfusion hrun
          | some rd =>
            obtain ⟨r, d1⟩ := rd
            rw [hc] at hrun
            have hinv2 : Inv d1.m :=
              hcall g (List.mem_cons_self _ _) _ r d1 hinv1 hginc hself hc
            rcases List.mem_cons.mp hf with rfl | hf
            · exact ⟨_, r, d1, hinv1, hc⟩
            · exact ih (i + 1) _ d hrest (by exact hinv2) hrun f hf hinc hns

theorem mem_requests_struct (P : InstructionSet M) (decls : Decls) (name : String)
    (f : StructField) (hf : f ∈ decls name) (hinc : included P f = true)
    (hns : f.Typ.deref ≠ .struct name) :
    f.Typ.deref ∈ requests P decls (.struct name) := by
  simp only [requests, List.mem_map, List.mem_filter]
  exact ⟨f, ⟨hf, by simp [hinc, hns]⟩, rfl⟩

theorem of_mem_requests_struct (P : InstructionSet M) (decls : Decls) (name : String)
    (x : Ty) (hx : x ∈ requests P decls (.struct name)) :
    ∃ f ∈ decls name, included P f = true ∧ f.Typ.deref ≠ .struct name ∧ x = f.Typ.deref := by
  simp only [requests, List.mem_map, List.mem_filter] at hx
  obtain ⟨f, ⟨hf, hc⟩, rfl⟩ := hx
  simp only [Bool.and_eq_true, Bool.not_eq_true', decide_eq_false_iff_not] at hc
  exact ⟨f, hf, hc.1, hc.2, rfl⟩

theorem ReachM.source_missing {P : InstructionSet M} {decls : Decls} {m : List (Ty × Nat)}
    {a k : Ty} (h : ReachM P decls m a k) : mapGet m a = none := by
  cases h with
  | refl _ h => exact h
  | step _ _ _ h _ _ => exact h

theorem ReachM.weaken {P : InstructionSet M} {decls : Decls} {m1 m : List (Ty × Nat)}
    {a k : Ty} (h : ReachM P decls m1 a k)
    (hm : ∀ x, mapGet m1 x = none → mapGet m x = none) : ReachM P decls m a k := by
  induction h with
  | refl a h => exact ReachM.refl a (hm a h)
  | step a b k h hb _ ih => exact ReachM.step a b k (hm a h) hb ih

/-- What the loop of a struct build leaves in `rc.m`, given what each nested call leaves:
the bindings it found are kept, and a key it added is reached from one of the struct's
requests through types the cache did not hold. -/
theorem structLoop_reach (P : InstructionSet M) (decls : Decls)
    (call : Cache M → Ty → Option (Nat × Cache M)) (name : String) (out mp : Nat)
    (c0 c d : Cache M) (hc : c.m = c0.m)
    (hcall : ∀ c1 t r d1, call c1 t = some (r, d1) →
      (∀ k v, mapGet c1.m k = some v → mapGet d1.m k = some v) ∧
      (∀ k, mapGet c1.m k = none → mapGet d1.m k ≠ none → ReachM P decls c1.m t.deref k))
    (h : structLoop P call (.struct name) out mp (decls name) 0 c = some d) :
    (∀ k v, mapGet c0.m k = some v → mapGet d.m k = some v) ∧
    (∀ k, mapGet c0.m k = none → mapGet d.m k ≠ none →
      ∃ x ∈ requests P decls (.struct name), ReachM P decls c0.m x k) := by
  refine structLoop_inv P call (.struct name) out mp
    (fun m => (∀ k v, mapGet c0.m k = some v → mapGet m k = some v) ∧
      (∀ k, mapGet c0.m k = none → mapGet m k ≠ none →
        ∃ x ∈ requests P decls (.struct name), ReachM P decls c0.m x k))
    (decls name) 0 c d ?_ ?_ h
  · intro f hf c1 r d1 hinv hinc hns hrun
    obtain ⟨hk, hr⟩ := hcall c1 f.Typ r d1 hrun
    refine ⟨fun k v hkv => hk k v (hinv.1 k v hkv), ?_⟩
    intro k hk0 hkd
    cases hk1 : mapGet c1.m k with
    | some v => exact hinv.2 k hk0 (by rw [hk1]; exact Option.noConfusion)
    | none =>
      refine ⟨f.Typ.deref, mem_requests_struct P decls name f hf hinc hns,
        (hr k hk1 hkd).weaken ?_⟩
      intro x hx
      cases hx0 : mapGet c0.m x with
      | none => rfl
      | some v => rw [hinv.1 x v hx0] at hx; exact Option.noConfusion hx
  · rw [hc]
    exact ⟨fun _ _ h => h, fun k hk hk2 => absurd hk hk2⟩

/-- A call that returns keeps every binding of `rc.m` it found, and a key it added is
reached from the requested type through types the cache did not hold. -/
theorem getTypeDataFor_reach (P : InstructionSet M) (decls : Decls) :
    ∀ (n : Nat) (c : Cache M) (t : Ty) (r : Nat) (d : Cache M),
      GetTypeDataFor P decls n c t = some (r, d) →
      (∀ k v, mapGet c.m k = some v → mapGet d.m k = some v) ∧
      (∀ k, mapGet c.m k = none → mapGet d.m k ≠ none → ReachM P decls c.m t.deref k) := by
  intro n
  induction n with
  | zero => intro c t r d h; simp [GetTypeDataFor] at h
  | succ n ih =>
    intro c t r d h
    have hne : ∀ k v, mapGet c.m t.deref = none → mapGet c.m k = some v → k ≠ t.deref := by
      intro k v hm hk e
      rw [e, hm] at hk
      exact Option.noConfusion hk
    rcases getTypeDataFor_inv P decls n c d t r h with
      ⟨_, rfl⟩ | ⟨hm, ⟨_, _, hd⟩ | ⟨e, d1, _, hreq, hrun, rfl⟩ | ⟨name, d1, ht, hrun, rfl⟩⟩
    · exact ⟨fun _ _ h => h, fun k hk hk2 => absurd hk hk2⟩
    · rw [hd]
      refine ⟨fun k v hk => by rw [mapGet_mapStore_ne _ _ _ _ (hne k v hm hk)]; exact hk, ?_⟩
      intro k hk hk2
      by_cases hkt : k = t.deref
      · rw [hkt]; exact ReachM.refl _ hm
      · rw [mapGet_mapStore_ne _ _ _ _ hkt] at hk2
        exact absurd hk hk2
    · obtain ⟨hk1, hr1⟩ := ih (afterAlloc P c) e r d1 hrun
      refine ⟨fun k v hk => ?_, ?_⟩
      · show mapGet (mapStore t.deref r d1.m) k = some v
        rw [mapGet_mapStore_ne _ _ _ _ (hne k v hm hk)]
        exact hk1 k v hk
      · intro k hk hk2
        by_cases hkt : k = t.deref
        · rw [hkt]; exact ReachM.refl _ hm
        · have hk3 : mapGet d1.m k ≠ none := by
            have : mapGet (mapStore t.deref r d1.m) k ≠ none := hk2
            rwa [mapGet_mapStore_ne _ _ _ _ hkt] at this
          exact ReachM.step _ e.deref _ hm (by rw [hreq]; exact List.mem_singleton_self _)
            (hr1 k hk hk3)
    · obtain ⟨hk1, hr1⟩ := structLoop_reach P decls (GetTypeDataFor P decls n) name
        c.nodes.length c.maps.length c (afterAlloc P c) d1 rfl ih hrun
      rw [ht] at hm hne ⊢
      refine ⟨fun k v hk => ?_, ?_⟩
      · show mapGet (mapStore (.struct name) r d1.m) k = some v
        rw [mapGet_mapStore_ne _ _ _ _ (hne k v hm hk)]
        exact hk1 k v hk
      · intro k hk hk2
        by_cases hkt : k = .struct name
        · rw [hkt]; exact ReachM.refl _ hm
        · have hk3 : mapGet d1.m k ≠ none := by
            have : mapGet (mapStore (.struct name) r d1.m) k ≠ none := hk2
            rwa [mapGet_mapStore_ne _ _ _ _ hkt] at this
          obtain ⟨x, hx, hrx⟩ := hr1 k hk hk3
          exact ReachM.step _ x _ hm hx hrx

/-- A set of types, none held by the cache, each of which requests another of the set: no
call on a type of the set returns, and no call that returns stores one. -/
theorem getTypeDataFor_trap (P : InstructionSet M) (decls : Decls) (Z : Ty → Prop)
    (hZ : ∀ z, Z z → ∃ x ∈ requests P decls z, Z x) :
    ∀ (n : Nat) (c : Cache M) (t : Ty) (r : Nat) (d : Cache M),
      (∀ z, Z z → mapGet c.m z = none) → GetTypeDataFor P decls n c t = some (r, d) →
      ¬ Z t.deref ∧ ∀ z, Z z → mapGet d.m z = none := by
  intro n
  induction n with
  | zero => intro c t r d _ h; simp [GetTypeDataFor] at h
  | succ n ih =>
    intro c t r d hc h
    rcases getTypeDataFor_inv P decls n c d t r h with
      ⟨hm, rfl⟩ | ⟨hm, ⟨hreq, _, hd⟩ | ⟨e, d1, _, hreq, hrun, rfl⟩ | ⟨name, d1, ht, hrun, rfl⟩⟩
    · refine ⟨fun hz => ?_, hc⟩
      rw [hc _ hz] at hm
      exact Option.noConfusion hm
    · have hnz : ¬ Z t.deref := by
        intro hz
        obtain ⟨x, hx, _⟩ := hZ _ hz
        rw [hreq] at hx
        exact absurd hx (List.not_mem_nil _)
      refine ⟨hnz, fun z hz => ?_⟩
      rw [hd, mapGet_mapStore_ne _ _ _ _ (fun (e : z = t.deref) => hnz (e ▸ hz))]
      exact hc z hz
    · obtain ⟨hne, hd1⟩ := ih (afterAlloc P c) e r d1 hc hrun
      have hnz : ¬ Z t.deref := by
        intro hz
        obtain ⟨x, hx, hzx⟩ := hZ _ hz
        rw [hreq, List.mem_singleton] at hx
        exact hne (hx ▸ hzx)
      refine ⟨hnz, fun z hz => ?_⟩
      show mapGet (mapStore t.deref r d1.m) z = none
      rw [mapGet_mapStore_ne _ _ _ _ (fun (e : z = t.deref) => hnz (e ▸ hz))]
      exact hd1 z hz
    · have hpres : ∀ f ∈ decls name, ∀ (c1 : Cache M) (r1 : Nat) (d2 : Cache M),
          (∀ z, Z z → mapGet c1.m z = none) → included P f = true →
          f.Typ.deref ≠ .struct name →
          GetTypeDataFor P decls n c1 f.Typ = some (r1, d2) →
          ∀ z, Z z → mapGet d2.m z = none :=
        fun f _ c1 r1 d2 hinv _ _ hr => (ih c1 f.Typ r1 d2 hinv hr).2
      have hnz : ¬ Z (.struct name) := by
        intro hz
        obtain ⟨x, hx, hzx⟩ := hZ _ hz
        obtain ⟨f, hf, hinc, hns, rfl⟩ := of_mem_requests_struct P decls name x hx
        obtain ⟨c1, r1, d2, hinv, hr⟩ := structLoop_calls P (GetTypeDataFor P decls n)
          (.struct name) c.nodes.length c.maps.length
          (fun m => ∀ z, Z z → mapGet m z = none) (decls name) 0 (afterAlloc P c) d1
          hpres hc hrun f hf hinc hns
        exact (ih c1 f.Typ r1 d2 hinv hr).1 hzx
      have hd1 := structLoop_inv P (GetTypeDataFor P decls n)
          (.struct name) c.nodes.length c.maps.length
          (fun m => ∀ z, Z z → mapGet m z = none) (decls name) 0 (afterAlloc P c) d1
          hpres hc hrun
      rw [ht]
      refine ⟨hnz, fun z hz => ?_⟩
      show mapGet (mapStore (.struct name) r d1.m) z = none
      rw [mapGet_mapStore_ne _ _ _ _ (fun (e : z = .struct name) => hnz (e ▸ hz))]
      exact hd1 z hz

/-- A call that returns did not, on its way, request its own type again while the cache did
not hold it. -/
theorem getTypeDataFor_no_cycle (P : InstructionSet M) (decls : Decls) (n : Nat)
    (c d : Cache M) (t : Ty) (r : Nat) (h : GetTypeDataFor P decls n c t = some (r, d))
    (x : Ty) (hx : x ∈ requests P decls t.deref) (hm : mapGet c.m t.deref = none)
    (hr : ReachM P decls c.m x t.deref) : False := by
  have hZ : ∀ z, ReachM P decls c.m z t.deref →
      ∃ y ∈ requests P decls z, ReachM P decls c.m y t.deref := by
    intro z hz
    cases hz with
    | refl _ _ => exact ⟨x, hx, hr⟩
    | step _ b _ _ hb hbt => exact ⟨b, hb, hbt⟩
  exact (getTypeDataFor_trap P decls (fun z => ReachM P decls c.m z t.deref) hZ n c t r d
    (fun z hz => hz.source_missing) h).1 (ReachM.refl _ hm)

theorem containerInv_store_fresh (m : List (Ty × Nat)) (T : Ty) (r : Nat)
    (hci : ContainerInv m) (hT : mapGet m T = none)
    (hE : ∀ E, T.Elem = some E → mapGet m E.deref = some r) :
    ContainerInv (mapStore T r m) := by
  intro K E v hK hv
  have hpresent : ∀ v, mapGet m E.deref = some v → mapGet (mapStore T r m) E.deref = some v := by
    intro v hv
    rw [mapGet_mapStore_ne _ _ _ _ (fun e => by rw [e, hT] at hv; exact Option.noConfusion hv)]
    exact hv
  by_cases hKT : K = T
  · subst hKT
    rw [mapGet_mapStore_self] at hv
    obtain rfl := Option.some.inj hv
    exact hpresent _ (hE E hK)
  · rw [mapGet_mapStore_ne _ _ _ _ hKT] at hv
    exact hpresent _ (hci K E v hK hv)

/-- A call that returns keeps the invariant that a container type is held with the root of
its element type. -/
theorem getTypeDataFor_containerInv (P : InstructionSet M) (decls : Decls) :
    ∀ (n : Nat) (c : Cache M) (t : Ty) (r : Nat) (d : Cache M),
      ContainerInv c.m → GetTypeDataFor P decls n c t = some (r, d) → ContainerInv d.m := by
  intro n
  induction n with
  | zero => intro c t r d _ h; simp [GetTypeDataFor] at h
  | succ n ih =>
    intro c t r d hci h
    rcases getTypeDataFor_inv P decls n c d t r h with
      ⟨_, rfl⟩ | ⟨hm, ⟨_, hel, hd⟩ | ⟨e, d1, hel, hreq, hrun, rfl⟩ | ⟨name, d1, ht, hrun, rfl⟩⟩
    · exact hci
    · rw [hd]
      exact containerInv_store_fresh _ _ _ hci hm
        (fun E hE => by rw [hel] at hE; exact Option.noConfusion hE)
    · have hci1 : ContainerInv d1.m := ih (afterAlloc P c) e r d1 hci hrun
      have hfresh : mapGet d1.m t.deref = none := by
        by_contra hne
        exact getTypeDataFor_no_cycle P decls (n + 1) c _ t r h e.deref
          (by rw [hreq]; exact List.mem_singleton_self _) hm
          ((getTypeDataFor_reach P decls n (afterAlloc P c) e r d1 hrun).2 _ hm hne)
      refine containerInv_store_fresh _ _ _ hci1 hfresh (fun E hE => ?_)
      rw [hel] at hE
      obtain rfl := Option.some.inj hE
      exact getTypeDataFor_stored P decls n _ d1 _ r hrun
    · have hci1 : ContainerInv d1.m :=
        structLoop_inv P (GetTypeDataFor P decls n) (.struct name) c.nodes.length
          c.maps.length ContainerInv (decls name) 0 (afterAlloc P c) d1
          (fun f _ c1 r1 d2 hinv _ _ hr => ih c1 f.Typ r1 d2 hinv hr) hci hrun
      rw [ht] at hm
      have hfresh : mapGet d1.m (.struct name) = none := by
        by_contra hne
        obtain ⟨x, hx, hrx⟩ := (structLoop_reach P decls (GetTypeDataFor P decls n) name
          c.nodes.length c.maps.length c (afterAlloc P c) d1 rfl
          (getTypeDataFor_reach P decls n) hrun).2 _ hm hne
        exact getTypeDataFor_no_cycle P decls (n + 1) c _ t r h x (by rw [ht]; exact hx)
          (by rw [ht]; exact hm) (by rw [ht]; exact hrx)
      exact containerInv_store_fresh _ _ _ hci1 hfresh
        (fun E hE => by simp [Ty.Elem] at hE)

theorem containerInv_newCache : ContainerInv (NewCache M).m := by
  intro K E r _ h
  simp [NewCache, mapGet] at h

/-- Every reachable cache state is well formed and holds each container type with the root
of its element type. -/
theorem Reachable.inv {P : InstructionSet M} {decls : Decls} {c : Cache M}
    (h : Reachable P decls c) : c.WF ∧ ContainerInv c.m := by
  induction h with
  | fresh => exact ⟨wf_newCache, containerInv_newCache⟩
  | call fuel c t r d _ hrun ih =>
    exact ⟨(getTypeDataFor_callSpec P decls fuel c t r d ih.1 hrun).1,
      getTypeDataFor_containerInv P decls fuel c t r d ih.2 hrun⟩

end NestedRequests

section Claims10

variable {M : Type}

/-- C10. On every reachable cache state, for a container type `t` (array, slice or map, also
behind a pointer) with element type `E`, whatever the map's key type and whatever `E` is:
when the cache holds `t`, the calls on `t` and on `E` return the same root; when it does not,
the call on `t` returns exactly the root the nested call on `E` returns and stores it under
the container's key; whenever the call on `t` returns a root, `rc.m` holds it for the
container's key and a request for `E` returns that same root; consequently, in a struct
built on this state, the child of an included field of type `t` has the `Fields()` and the
`GetFieldByName` of the root a direct request for `E` returns. -/
theorem C10_container_shares_element_tree (P : InstructionSet M) (decls : Decls)
    (fuel : Nat) (c : Cache M) (t E : Ty) (hreach : Reachable P decls c)
    (hE : t.deref.Elem = some E) :
    (∀ q, mapGet c.m t.deref = some q →
      GetTypeDataFor P decls (fuel + 1) c t = some (q, c) ∧
      GetTypeDataFor P decls (fuel + 1) c E = some (q, c)) ∧
    (mapGet c.m t.deref = none → ∀ r d1,
      GetTypeDataFor P decls fuel (afterAlloc P c) E = some (r, d1) →
      GetTypeDataFor P decls (fuel + 1) c t = some (r, d1.store t.deref r)) ∧
    (∀ r d, GetTypeDataFor P decls fuel c t = some (r, d) →
      mapGet d.m t.deref = some r ∧
      ∀ fuel2, GetTypeDataFor P decls (fuel2 + 1) d E = some (r, d)) ∧
    (∀ (name : String) (s : Ty) (r : Nat) (d : Cache M) (i : Nat) (f : StructField),
      s.deref = .struct name → mapGet c.m (.struct name) = none →
      GetTypeDataFor P decls fuel c s = some (r, d) →
      (decls name)[i]? = some f → included P f = true → f.Typ = t →
      (∃ n ∈ d.Fields r, d.IdxOf n = some i) ∧
      ∀ n ∈ d.Fields r, d.IdxOf n = some i →
        ∃ q, (∀ fuel2, GetTypeDataFor P decls (fuel2 + 1) d E = some (q, d)) ∧
          d.Fields n = d.Fields q ∧ ∀ nm, d.GetFieldByName n nm = d.GetFieldByName q nm) := by
  have hcont : (∃ len, t.deref = .array len E) ∨ t.deref = .slice E ∨
      (∃ k, t.deref = .map k E) := by
    cases ht : t.deref with
    | array len e =>
      rw [ht] at hE
      exact Or.inl ⟨len, by rw [Option.some.inj hE]⟩
    | slice e =>
      rw [ht] at hE
      exact Or.inr (Or.inl (by rw [Option.some.inj hE]))
    | map k e =>
      rw [ht] at hE
      exact Or.inr (Or.inr ⟨k, by rw [Option.some.inj hE]⟩)
    | basic s => rw [ht] at hE; exact Option.noConfusion hE
    | ptr e => rw [ht] at hE; exact Option.noConfusion hE
    | struct s => rw [ht] at hE; exact Option.noConfusion hE
  refine ⟨?_, ?_, ?_, ?_⟩
  · intro q hq
    exact ⟨getTypeDataFor_hit P decls fuel c t q hq,
      getTypeDataFor_hit P decls fuel c E q (hreach.inv.2 _ E q hE hq)⟩
  · intro hm r d1 hrun
    rw [getTypeDataFor_container P decls fuel c t E hcont hm, hrun]
    rfl
  · intro r d hrun
    have hst := getTypeDataFor_stored P decls fuel c d t r hrun
    have hci := (Reachable.call fuel c t r d hreach hrun).inv.2
    exact ⟨hst, fun fuel2 => getTypeDataFor_hit P decls fuel2 d E r (hci _ E r hE hst)⟩
  · intro name s r d i f hs hmiss hrun hi hinc hft
    obtain ⟨es, hb⟩ := getTypeDataFor_built P decls fuel c d s name r hreach.inv.1 hs hmiss hrun
    have hci := (Reachable.call fuel c s r d hreach hrun).inv.2
    obtain ⟨h1, h2⟩ := hb.child_of_field hi hinc
    refine ⟨h1, ?_⟩
    intro n hn hidx
    obtain ⟨e, he, rfl, _, hf⟩ := h2 n hn hidx
    subst hf
    have hns : e.fld.Typ.deref ≠ .struct name := by
      intro hc
      rw [hft] at hc
      rw [hc] at hE
      exact Option.noConfusion hE
    obtain ⟨q, hq, _, hfields, hnames, _⟩ := (hb.child e he).2.2 hns
    rw [hft] at hq
    exact ⟨q, fun fuel2 => getTypeDataFor_hit P decls fuel2 d E q (hci _ E q hE hq), hfields,
      hnames⟩

/-- C10, on a fresh cache with `item { B string "admin" }` and
`holder { Items []item; Direct item }`: requesting `[]item` returns a root that `rc.m`
holds for `[]item` and that a request for `item` returns too; and in `holder` the child of
field 0 (`Items`) has the `Fields()` and `GetFieldByName` of the root returned for `item`. -/
theorem C10_container_shares_element_tree_witness :
    Reachable testPolicy scenarioDecls (NewCache TestInstructions) ∧
    (Ty.slice (.struct "item")).deref.Elem = some (.struct "item") ∧
    (∃ r d, GetTypeDataFor testPolicy scenarioDecls 4 (NewCache TestInstructions)
        (.slice (.struct "item")) = some (r, d) ∧
      mapGet d.m (.slice (.struct "item")) = some r ∧
      GetTypeDataFor testPolicy scenarioDecls 1 d (.struct "item") = some (r, d)) ∧
    ∃ r d, GetTypeDataFor testPolicy scenarioDecls 4 (NewCache TestInstructions)
        (.struct "holder") = some (r, d) ∧
      (∃ n ∈ d.Fields r, d.IdxOf n = some 0) ∧
      ∀ n ∈ d.Fields r, d.IdxOf n = some 0 →
        ∃ q, (∀ fuel2, GetTypeDataFor testPolicy scenarioDecls (fuel2 + 1) d
            (.struct "item") = some (q, d)) ∧
          d.Fields n = d.Fields q ∧
          ∀ nm, d.GetFieldByName n nm = d.GetFieldByName q nm :=
  have hc := C10_container_shares_element_tree testPolicy scenarioDecls 4
    (NewCache TestInstructions) (.slice (.struct "item")) (.struct "item") Reachable.fresh rfl
  ⟨Reachable.fresh, rfl,
    match h : GetTypeDataFor testPolicy scenarioDecls 4 (NewCache TestInstructions)
        (.slice (.struct "item")) with
    | some (r, d) => ⟨r, d, rfl, (hc.2.2.1 r d h).1, (hc.2.2.1 r d h).2 0⟩
    | none => absurd h (by decide),
    match h : GetTypeDataFor testPolicy scenarioDecls 4 (NewCache TestInstructions)
        (.struct "holder") with
    | some (r, d) =>
      ⟨r, d, rfl, hc.2.2.2 "holder" (.struct "holder") r d 0
        ⟨"Items", false, [], .slice (.struct "item")⟩ rfl rfl h (by decide) (by decide) rfl⟩
    | none => absurd h (by decide)⟩

end Claims10

section SoundFrames

variable {M : Type}

theorem fields_frame {S K : Nat → Prop} {c d : Cache M} (hf : Frame (fun _ => False) S K c d)
    (q : Nat) (nd : FieldCache M) (hq : c.nodes[q]? = some nd)
    (hfo : ∀ fq, nd.fields = some fq → ¬ S fq ∧ fq < c.slices.length) :
    d.Fields q = c.Fields q := by
  have hq2 := hf.node_some (fun x => x) hq
  cases hfq : nd.fields with
  | none => simp [Cache.Fields, hq, hq2, hfq]
  | some fq =>
    obtain ⟨hS, hlt⟩ := hfo fq hfq
    simp [Cache.Fields, hq, hq2, hfq, hf.slices fq hlt hS]

theorem structOK_frame {P : InstructionSet M} {decls : Decls} {S K S2 K2 : Nat → Prop}
    {c d : Cache M} (hf : Frame (fun _ => False) S2 K2 c d)
    (hS : ∀ i, S2 i → S i) (hK : ∀ i, K2 i → K i) {name : String} {q : Nat}
    (h : StructOK P decls S K c name q) : StructOK P decls S K d name q := by
  obtain ⟨fo, mq, es, h1, h2, h3, h4, h5, h6, h7⟩ := h
  refine ⟨fo, mq, es, h1, hf.node_some (fun x => x) h2, ?_, h4, ?_, ?_, ?_⟩
  · rw [hf.maps mq (getElem?_lt_of_some h3) (fun hk => h1 (hK _ hk)), h3]
  · rw [fields_frame hf q _ h2 (fun fq hfq => ⟨fun hs => (h6 fq hfq).1 (hS _ hs), (h6 fq hfq).2⟩),
      h5]
  · exact fun fq hfq => ⟨(h6 fq hfq).1, lt_of_lt_of_le (h6 fq hfq).2 hf.slicesLen⟩
  · exact fun e he => nodeOK_frame hf (h7 e he)

theorem soundEx_frame {P : InstructionSet M} {decls : Decls} {S K S2 K2 : Nat → Prop}
    {c d : Cache M} (h : SoundEx P decls S K c) (hf : Frame (fun _ => False) S2 K2 c d)
    (hS : ∀ i, S2 i → S i) (hK : ∀ i, K2 i → K i) (hm : d.m = c.m) :
    SoundEx P decls S K d := by
  intro key q hq
  rw [hm] at hq
  obtain ⟨a, b, l⟩ := h key q hq
  refine ⟨fun name hn => structOK_frame hf hS hK (a name hn), fun e he => ?_, fun hl => ?_⟩
  · rw [hm]; exact b e he
  · exact hf.node_some (fun x => x) (l hl)

theorem soundEx_mono {P : InstructionSet M} {decls : Decls} {S K S2 K2 : Nat → Prop}
    {c : Cache M} (h : SoundEx P decls S K c) (hS : ∀ i, S2 i → S i)
    (hK : ∀ i, K2 i → K i) : SoundEx P decls S2 K2 c := by
  intro key q hq
  obtain ⟨a, b, l⟩ := h key q hq
  refine ⟨fun name hn => ?_, b, l⟩
  obtain ⟨fo, mq, es, h1, h2, h3, h4, h5, h6, h7⟩ := a name hn
  exact ⟨fo, mq, es, fun hk => h1 (hK _ hk), h2, h3, h4, h5,
    fun fq hfq => ⟨fun hs => (h6 fq hfq).1 (hS _ hs), (h6 fq hfq).2⟩, h7⟩

/-- Stored roots use only what is allocated, so they stay clear of whatever is allocated
later. -/
theorem soundEx_extend {P : InstructionSet M} {decls : Decls} {S K : Nat → Prop}
    {c : Cache M} (h : SoundEx P decls S K c) :
    SoundEx P decls (fun i => S i ∨ c.slices.length ≤ i) (fun i => K i ∨ c.maps.length ≤ i)
      c := by
  intro key q hq
  obtain ⟨a, b, l⟩ := h key q hq
  refine ⟨fun name hn => ?_, b, l⟩
  obtain ⟨fo, mq, es, h1, h2, h3, h4, h5, h6, h7⟩ := a name hn
  refine ⟨fo, mq, es, ?_, h2, h3, h4, h5, ?_, h7⟩
  · rintro (hk | hk)
    · exact h1 hk
    · have := getElem?_lt_of_some h3
      omega
  · intro fq hfq
    refine ⟨?_, (h6 fq hfq).2⟩
    rintro (hs | hs)
    · exact (h6 fq hfq).1 hs
    · have := (h6 fq hfq).2
      omega

theorem nodeOK_store_fresh {P : InstructionSet M} {t T : Ty} {fo : Option Nat} {c : Cache M}
    {e : Entry} (out : Nat) (hT : mapGet c.m T = none) (h : NodeOK P t fo c e) :
    NodeOK P t fo (c.store T out) e := by
  unfold NodeOK at h ⊢
  split
  · rename_i hself
    rw [if_pos hself] at h
    exact h
  · rename_i hself
    rw [if_neg hself] at h
    obtain ⟨q, nd, hq, hnd, ha⟩ := h
    refine ⟨q, nd, ?_, hnd, ha⟩
    have hne : e.fld.Typ.deref ≠ T := fun e2 => by
      rw [e2, hT] at hq
      exact Option.noConfusion hq
    simpa [Cache.store, mapGet_mapStore_ne _ _ _ _ hne] using hq

theorem rootOK_store_fresh {P : InstructionSet M} {decls : Decls} {S K : Nat → Prop}
    {c : Cache M} (T : Ty) (out : Nat) (hT : mapGet c.m T = none) {key : Ty} {q : Nat}
    (h : RootOK P decls S K c key q) : RootOK P decls S K (c.store T out) key q := by
  obtain ⟨a, b, l⟩ := h
  refine ⟨fun name hn => ?_, fun e he => ?_, l⟩
  · obtain ⟨fo, mq, es, h1, h2, h3, h4, h5, h6, h7⟩ := a name hn
    exact ⟨fo, mq, es, h1, h2, h3, h4, h5, h6, fun e he => nodeOK_store_fresh out hT (h7 e he)⟩
  · have hq := b e he
    have hne : e.deref ≠ T := fun e2 => by
      rw [e2, hT] at hq
      exact Option.noConfusion hq
    simpa [Cache.store, mapGet_mapStore_ne _ _ _ _ hne] using hq

/-- Storing a finished root under a key the cache does not hold keeps every binding a
finished root. -/
theorem soundEx_store_fresh {P : InstructionSet M} {decls : Decls} {S K : Nat → Prop}
    {c : Cache M} (T : Ty) (out : Nat) (h : SoundEx P decls S K c)
    (hT : mapGet c.m T = none) (hnew : RootOK P decls S K c T out) :
    SoundEx P decls S K (c.store T out) := by
  intro key q hq
  by_cases hk : key = T
  · subst hk
    simp only [Cache.store, mapGet_mapStore_self, Option.some.injEq] at hq
    subst hq
    exact rootOK_store_fresh _ _ hT hnew
  · simp only [Cache.store, mapGet_mapStore_ne _ _ _ _ hk] at hq
    exact rootOK_store_fresh T out hT (h key q hq)

end SoundFrames

section SoundProof

variable {M : Type}

/-- Once `out.fields` points to the slice variable `sl`, the loop keeps every property of
the cache state that the nested calls keep and that survives an append of a new node to
`sl` and to the name index `mp`. -/
theorem structLoop_keeps (P : InstructionSet M)
    (call : Cache M → Ty → Option (Nat × Cache M)) (t : Ty) (out mp sl : Nat)
    (J : Cache M → Prop)
    (hens : ∀ c, J c → ensureFields c out = (sl, c))
    (hcall : ∀ c ty r d, J c → call c ty = some (r, d) → J d)
    (hstep : ∀ c n name, J c →
      J ((((c.allocNode n).2).appendSlice sl c.nodes.length).putMap mp name c.nodes.length)) :
    ∀ (rest : List StructField) (i : Nat) (c d : Cache M),
      J c → structLoop P call t out mp rest i c = some d → J d := by
  intro rest
  induction rest with
  | nil =>
    intro i c d hJ hrun
    simp only [structLoop, Option.some.injEq] at hrun
    exact hrun ▸ hJ
  | cons f rest ih =>
    intro i c d hJ hrun
    rw [structLoop, hens c hJ] at hrun
    simp only at hrun
    by_cases hvis : (lowerInitial f.Name && !f.Anonymous) = true
    · rw [if_pos hvis] at hrun
      exact ih (i + 1) c d hJ hrun
    · rw [if_neg hvis] at hrun
      by_cases hskip : P.Skip (f.tagGet P.TagNamespace) = true
      · rw [if_pos hskip] at hrun
        exact ih (i + 1) c d hJ hrun
      · rw [if_neg hskip] at hrun
        by_cases hself : f.Typ.deref = t
        · rw [if_pos hself] at hrun
          exact ih (i + 1) _ d (hstep c _ _ hJ) hrun
        · rw [if_neg hself] at hrun
          cases hc : call c f.Typ with
          | none => rw [hc] at hrun; exact Option.noConfusion hrun
          | some rd =>
            obtain ⟨r, c2⟩ := rd
            rw [hc] at hrun
            exact ih (i + 1) _ d (hstep c2 _ _ (hcall c f.Typ r c2 hJ hc)) hrun

/-- The key of a container build is still missing when the nested call on the element type
has returned. -/
theorem container_key_fresh (P : InstructionSet M) (decls : Decls) (n : Nat)
    (c d d1 : Cache M) (t e : Ty) (r : Nat)
    (h : GetTypeDataFor P decls (n + 1) c t = some (r, d))
    (hm : mapGet c.m t.deref = none) (hreq : requests P decls t.deref = [e.deref])
    (hrun : GetTypeDataFor P decls n (afterAlloc P c) e = some (r, d1)) :
    mapGet d1.m t.deref = none := by
  by_contra hne
  exact getTypeDataFor_no_cycle P decls (n + 1) c _ t r h e.deref
    (by rw [hreq]; exact List.mem_singleton_self _) hm
    ((getTypeDataFor_reach P decls n (afterAlloc P c) e r d1 hrun).2 _ hm hne)

/-- The key of a struct build is still missing when the loop over its fields has ended. -/
theorem struct_key_fresh (P : InstructionSet M) (decls : Decls) (n : Nat)
    (c d d1 : Cache M) (t : Ty) (name : String) (r : Nat)
    (h : GetTypeDataFor P decls (n + 1) c t = some (r, d))
    (ht : t.deref = .struct name) (hm : mapGet c.m (.struct name) = none)
    (hrun : structLoop P (GetTypeDataFor P decls n) (.struct name) c.nodes.length
      c.maps.length (decls name) 0 (afterAlloc P c) = some d1) :
    mapGet d1.m (.struct name) = none := by
  by_contra hne
  obtain ⟨x, hx, hrx⟩ := (structLoop_reach P decls (GetTypeDataFor P decls n) name
    c.nodes.length c.maps.length c (afterAlloc P c) d1 rfl
    (getTypeDataFor_reach P decls n) hrun).2 _ hm hne
  exact getTypeDataFor_no_cycle P decls (n + 1) c _ t r h x (by rw [ht]; exact hx)
    (by rw [ht]; exact hm) (by rw [ht]; exact hrx)

end SoundProof

section SoundProof2

variable {M : Type}

theorem soundEx_store_new {P : InstructionSet M} {decls : Decls} {S K : Nat → Prop}
    {c : Cache M} (T : Ty) (out : Nat) (h : SoundEx P decls S K c)
    (hT : mapGet c.m T = none) (hnew : RootOK P decls S K (c.store T out) T out) :
    SoundEx P decls S K (c.store T out) := by
  intro key q hq
  by_cases hk : key = T
  · subst hk
    simp only [Cache.store, mapGet_mapStore_self, Option.some.injEq] at hq
    subst hq
    exact hnew
  · simp only [Cache.store, mapGet_mapStore_ne _ _ _ _ hk] at hq
    exact rootOK_store_fresh T out hT (h key q hq)

/-- The struct case of `getTypeDataFor_sound`, given the statement for the nested calls. -/
theorem sound_struct_step (P : InstructionSet M) (decls : Decls) (n : Nat)
    (ih : ∀ (S K : Nat → Prop) (c : Cache M) (t : Ty) (r : Nat) (d : Cache M), c.WF →
      (∀ i, S i → i < c.slices.length) → (∀ i, K i → i < c.maps.length) →
      SoundEx P decls S K c → GetTypeDataFor P decls n c t = some (r, d) →
      SoundEx P decls S K d)
    (S K : Nat → Prop) (c d : Cache M) (t : Ty) (name : String) (r : Nat) (hwf : c.WF)
    (hS : ∀ i, S i → i < c.slices.length) (hK : ∀ i, K i → i < c.maps.length)
    (hs : SoundEx P decls S K c) (ht : t.deref = .struct name)
    (hm : mapGet c.m (.struct name) = none)
    (h : GetTypeDataFor P decls (n + 1) c t = some (r, d)) : SoundEx P decls S K d := by
  obtain ⟨hr, es, fo, e1, e2, e3, e4, e5, _, _, _⟩ :=
    getTypeDataFor_struct_spec P decls (n + 1) c d t name r hwf ht hm h
  have h2 := h
  rw [getTypeDataFor_struct P decls n c t name ht (ht ▸ hm)] at h2
  simp only [Option.map_eq_some', Prod.mk.injEq] at h2
  obtain ⟨d1, hl, _, hd⟩ := h2
  have hfresh := struct_key_fresh P decls n c d d1 t name r h ht hm hl
  have hg0 : Grows c (afterAlloc P c) := grows_afterAlloc P c
  -- the old bindings after the loop, and where `out.fields` points
  have hold : SoundEx P decls S K d1 ∧
      ∀ fq, fo = some fq → ¬ S fq ∧ fq < d1.slices.length := by
    cases hfs : decls name with
    | nil =>
      rw [hfs] at hl
      simp only [structLoop, Option.some.injEq] at hl
      subst hl
      refine ⟨soundEx_frame hs hg0 (fun _ hf => hf.elim) (fun _ hf => hf.elim) rfl, ?_⟩
      intro fq hfq
      subst hd hr
      have e2b : (afterAlloc P c).nodes[c.nodes.length]? =
          some { rootNode P c.maps.length with fields := fo } := e2
      rw [afterAlloc_node] at e2b
      have := congrArg FieldCache.fields (Option.some.inj e2b)
      rw [hfq] at this
      simp [rootNode] at this
    | cons f rest =>
      rw [hfs, structLoop_ensure P _ _ _ _ f rest 0 (afterAlloc P c) _ (afterAlloc_node P c)]
        at hl
      have hE : ensureFields (afterAlloc P c) c.nodes.length =
          (c.slices.length,
            ((afterAlloc P c).allocSlice.2).setFields c.nodes.length c.slices.length) := by
        simp [ensureFields, afterAlloc_node, rootNode, Cache.allocSlice, afterAlloc,
          Cache.allocNode, Cache.allocMap]
      rw [hE] at hl
      simp only at hl
      let o1 : FieldCache M := { rootNode P c.maps.length with fields := some c.slices.length }
      let J : Cache M → Prop := fun x =>
        x.WF ∧ x.nodes[c.nodes.length]? = some o1 ∧ c.slices.length < x.slices.length ∧
        c.maps.length < x.maps.length ∧
        SoundEx P decls (fun i => S i ∨ i = c.slices.length) (fun i => K i ∨ i = c.maps.length) x
      have hJ1 : J (((afterAlloc P c).allocSlice.2).setFields c.nodes.length c.slices.length) := by
        refine ⟨hwf.of_same_m rfl (by simp [Cache.setFields, Cache.allocSlice, afterAlloc,
            Cache.allocNode, Cache.allocMap]), ?_, ?_, ?_, ?_⟩
        · simp [Cache.setFields, Cache.allocSlice, afterAlloc, Cache.allocNode, Cache.allocMap,
            o1, rootNode]
        · simp [Cache.setFields, Cache.allocSlice, afterAlloc, Cache.allocNode, Cache.allocMap]
        · simp [Cache.setFields, Cache.allocSlice, afterAlloc, Cache.allocNode, Cache.allocMap]
        · have hg1 : Grows c ((afterAlloc P c).allocSlice.2) := hg0.trans (grows_allocSlice _)
          have hg2 : Grows c
              (((afterAlloc P c).allocSlice.2).setFields c.nodes.length c.slices.length) :=
            Frame.below hg1 (frame_setFields (fun _ => False) (fun _ => False) _ _ _)
              (fun i hi => le_of_eq hi.symm) (fun _ hf => hf.elim) (fun _ hf => hf.elim)
          exact soundEx_frame
            (soundEx_mono (soundEx_extend hs)
              (fun i hi => hi.elim Or.inl (fun e => Or.inr (le_of_eq e.symm)))
              (fun i hi => hi.elim Or.inl (fun e => Or.inr (le_of_eq e.symm))))
            hg2 (fun _ hf => hf.elim) (fun _ hf => hf.elim) rfl
      have hJd : J d1 := by
        refine structLoop_keeps P (GetTypeDataFor P decls n) (.struct name) c.nodes.length
          c.maps.length c.slices.length J ?_ ?_ ?_ (f :: rest) 0 _ d1 hJ1 hl
        · intro x hx
          exact ensureFields_of_some x _ _ o1 hx.2.1 rfl
        · intro x ty r2 x2 hx hc
          obtain ⟨hx1, hx2, hx3, hx4, hx5⟩ := hx
          obtain ⟨hwf2, hg2, _, _⟩ := getTypeDataFor_callSpec P decls n x ty r2 x2 hx1 hc
          refine ⟨hwf2, hg2.node_some (fun y => y) hx2, lt_of_lt_of_le hx3 hg2.slicesLen,
            lt_of_lt_of_le hx4 hg2.mapsLen, ?_⟩
          refine ih _ _ x ty r2 x2 hx1 ?_ ?_ hx5 hc
          · rintro i (hi | hi)
            · exact lt_trans (hS i hi) hx3
            · rw [hi]; exact hx3
          · rintro i (hi | hi)
            · exact lt_trans (hK i hi) hx4
            · rw [hi]; exact hx4
        · intro x nd nm hx
          obtain ⟨hx1, hx2, hx3, hx4, hx5⟩ := hx
          obtain ⟨l0, hl0⟩ : ∃ l0, x.slices[c.slices.length]? = some l0 :=
            ⟨_, List.getElem?_eq_getElem hx3⟩
          obtain ⟨m0, hm0⟩ : ∃ m0, x.maps[c.maps.length]? = some m0 :=
            ⟨_, List.getElem?_eq_getElem hx4⟩
          obtain ⟨_, _, _, g4, g5, g6⟩ := step_facts x nd c.slices.length c.maps.length nm
            l0 m0 hl0 hm0
          refine ⟨hx1.of_same_m g4 (by omega), g6.node_some (fun y => y) hx2,
            lt_of_lt_of_le hx3 g6.slicesLen, lt_of_lt_of_le hx4 g6.mapsLen, ?_⟩
          exact soundEx_frame hx5 g6 (fun _ hi => Or.inr hi) (fun _ hi => Or.inr hi) g4
      obtain ⟨_, hJ2, hJ3, _, hJ5⟩ := hJd
      refine ⟨soundEx_mono hJ5 (fun _ hi => Or.inl hi) (fun _ hi => Or.inl hi), ?_⟩
      intro fq hfq
      subst hd hr
      have e2b : d1.nodes[c.nodes.length]? =
          some { rootNode P c.maps.length with fields := fo } := e2
      rw [hJ2] at e2b
      have := congrArg FieldCache.fields (Option.some.inj e2b)
      rw [hfq] at this
      simp only [o1, Option.some.injEq] at this
      subst this
      exact ⟨fun hs2 => lt_irrefl _ (hS _ hs2), hJ3⟩
  subst hd hr
  refine soundEx_store_new _ _ hold.1 hfresh ⟨?_, ?_, ?_⟩
  · intro name2 hn
    obtain rfl := Ty.struct.inj hn
    exact ⟨fo, c.maps.length, es, fun hk => lt_irrefl _ (hK _ hk), e2, e4, e1, e3, hold.2, e5⟩
  · intro e he
    simp [Ty.Elem] at he
  · intro hl
    simp [Ty.isLeaf] at hl

end SoundProof2

section SoundProof3

variable {M : Type}

theorem Ty.elem_cases (P : InstructionSet M) (decls : Decls) (T e : Ty)
    (h : T.Elem = some e) :
    ((∃ len, T = .array len e) ∨ T = .slice e ∨ (∃ k, T = .map k e)) ∧
    requests P decls T = [e.deref] ∧ T.isLeaf = false ∧ ∀ name, T ≠ .struct name := by
  cases T with
  | array len x =>
    obtain rfl := Option.some.inj h
    exact ⟨Or.inl ⟨len, rfl⟩, rfl, rfl, fun _ hn => Ty.noConfusion hn⟩
  | slice x =>
    obtain rfl := Option.some.inj h
    exact ⟨Or.inr (Or.inl rfl), rfl, rfl, fun _ hn => Ty.noConfusion hn⟩
  | map k x =>
    obtain rfl := Option.some.inj h
    exact ⟨Or.inr (Or.inr ⟨k, rfl⟩), rfl, rfl, fun _ hn => Ty.noConfusion hn⟩
  | basic s => exact Option.noConfusion h
  | ptr x => exact Option.noConfusion h
  | struct s => exact Option.noConfusion h

theorem Ty.leaf_cases (T : Ty) (h : T.isLeaf = true) :
    ((∃ s, T = .basic s) ∨ (∃ e, T = .ptr e)) ∧ T.Elem = none ∧ ∀ name, T ≠ .struct name := by
  cases T with
  | basic s => exact ⟨Or.inl ⟨s, rfl⟩, rfl, fun _ hn => Ty.noConfusion hn⟩
  | ptr x => exact ⟨Or.inr ⟨x, rfl⟩, rfl, fun _ hn => Ty.noConfusion hn⟩
  | array len x => exact Bool.noConfusion h
  | slice x => exact Bool.noConfusion h
  | map k x => exact Bool.noConfusion h
  | struct s => exact Bool.noConfusion h

theorem Ty.kind_cases (T : Ty) :
    (∃ name, T = .struct name) ∨ (∃ e, T.Elem = some e) ∨ T.isLeaf = true := by
  cases T with
  | basic s => exact Or.inr (Or.inr rfl)
  | ptr x => exact Or.inr (Or.inr rfl)
  | array len x => exact Or.inr (Or.inl ⟨x, rfl⟩)
  | slice x => exact Or.inr (Or.inl ⟨x, rfl⟩)
  | map k x => exact Or.inr (Or.inl ⟨x, rfl⟩)
  | struct s => exact Or.inl ⟨s, rfl⟩

/-- Every call that returns leaves every binding of `rc.m` a finished root, clear of the
slice variables and map objects of the builds that are still running. -/
theorem getTypeDataFor_sound (P : InstructionSet M) (decls : Decls) :
    ∀ (n : Nat) (S K : Nat → Prop) (c : Cache M) (t : Ty) (r : Nat) (d : Cache M), c.WF →
      (∀ i, S i → i < c.slices.length) → (∀ i, K i → i < c.maps.length) →
      SoundEx P decls S K c → GetTypeDataFor P decls n c t = some (r, d) →
      SoundEx P decls S K d := by
  intro n
  induction n with
  | zero => intro S K c t r d _ _ _ _ h; simp [GetTypeDataFor] at h
  | succ n ih =>
    intro S K c t r d hwf hS hK hs h
    cases hm : mapGet c.m t.deref with
    | some q =>
      rw [getTypeDataFor_hit P decls n c t q hm] at h
      simp only [Option.some.injEq, Prod.mk.injEq] at h
      obtain ⟨_, rfl⟩ := h
      exact hs
    | none =>
      have hs0 : SoundEx P decls S K (afterAlloc P c) :=
        soundEx_frame hs (grows_afterAlloc P c) (fun _ hf => hf.elim) (fun _ hf => hf.elim) rfl
      rcases Ty.kind_cases t.deref with ⟨name, ht⟩ | ⟨e, hel⟩ | hleaf
      · exact sound_struct_step P decls n ih S K c d t name r hwf hS hK hs ht (ht ▸ hm) h
      · obtain ⟨hcont, hreq, hnl, hns⟩ := Ty.elem_cases P decls _ e hel
        have h2 := h
        rw [getTypeDataFor_container P decls n c t e hcont hm] at h2
        simp only [Option.map_eq_some', Prod.mk.injEq] at h2
        obtain ⟨⟨r1, d1⟩, hl, hr, hd⟩ := h2
        simp only at hr hd
        subst hr
        have hfresh := container_key_fresh P decls n c d d1 t e r1 h hm hreq hl
        have hs1 : SoundEx P decls S K d1 :=
          ih S K (afterAlloc P c) e r1 d1 (wf_afterAlloc P hwf)
            (fun i hi => by have := (afterAlloc_lengths P c).2.1; have := hS i hi; omega)
            (fun i hi => by have := (afterAlloc_lengths P c).2.2.1; have := hK i hi; omega)
            hs0 hl
        subst hd
        refine soundEx_store_fresh _ _ hs1 hfresh ⟨fun name hn => absurd hn (hns name), ?_, ?_⟩
        · intro e2 he2
          rw [hel] at he2
          obtain rfl := Option.some.inj he2
          exact getTypeDataFor_stored P decls n _ d1 _ r1 hl
        · intro hl2
          rw [hnl] at hl2
          exact Bool.noConfusion hl2
      · obtain ⟨hkind, hel, hns⟩ := Ty.leaf_cases _ hleaf
        rw [getTypeDataFor_leaf P decls n c t hkind hm] at h
        simp only [Option.some.injEq, Prod.mk.injEq] at h
        obtain ⟨rfl, rfl⟩ := h
        have hs1 : SoundEx P decls S K ((afterAlloc P c).allocNode (emptyNode P)).2 :=
          soundEx_frame hs0 (grows_allocNode _ _) (fun _ hf => hf.elim) (fun _ hf => hf.elim)
            rfl
        refine soundEx_store_new _ _ hs1 hm ⟨fun name hn => absurd hn (hns name), ?_, ?_⟩
        · intro e he
          rw [hel] at he
          exact Option.noConfusion he
        · intro _
          have hlen : (afterAlloc P c).nodes.length = c.nodes.length + 1 :=
            (afterAlloc_lengths P c).1
          show ((afterAlloc P c).nodes ++ [emptyNode P])[c.nodes.length + 1]? = _
          rw [← hlen]
          simp

theorem sound_newCache (P : InstructionSet M) (decls : Decls) : Sound P decls (NewCache M) := by
  intro key q h
  simp [NewCache, mapGet] at h

/-- In every reachable state each binding of `rc.m` is a finished root. -/
theorem Reachable.sound {P : InstructionSet M} {decls : Decls} {c : Cache M}
    (h : Reachable P decls c) : Sound P decls c := by
  induction h with
  | fresh => exact sound_newCache P decls
  | call fuel c t r d hc hrun ih =>
    exact getTypeDataFor_sound P decls fuel _ _ c t r d hc.inv.1 (fun _ hf => hf.elim)
      (fun _ hf => hf.elim) ih hrun

end SoundProof3

section ReachableViews

variable {M : Type}

/-- In a reachable state the root held for a struct type is as the build left it. -/
theorem Reachable.built {P : InstructionSet M} {decls : Decls} {c : Cache M}
    (h : Reachable P decls c) {name : String} {q : Nat}
    (hq : mapGet c.m (.struct name) = some q) :
    ∃ (c0 : Cache M) (es : List Entry), Built P decls name c0 c q es := by
  obtain ⟨fo, mq, es, _, h2, h3, h4, h5, _, h7⟩ := (h.sound _ q hq).1 name rfl
  have hlt : q < c.nodes.length := getElem?_lt_of_some h2
  refine ⟨{ nodes := c.nodes.take q, slices := [], maps := [], m := [] }, es,
    ⟨h4, h5, ?_, ?_, ?_, ?_, ?_, h.inv.1, hq, ?_⟩⟩
  · intro s
    simp [Cache.GetFieldByName, h2, rootNode, h3]
  · simp [Cache.IdxOf, h2, rootNode]
  · simp [Cache.InstructionData, h2, rootNode]
  · intro e he
    exact childOK_of_nodeOK P _ c q _ h2 e (h7 e he)
  · refine ⟨?_, ?_, ?_, ?_, ?_, ?_, ?_⟩
    · intro i hi _
      simp only [List.length_take] at hi
      simp only [List.getElem?_take]
      rw [if_pos (by omega)]
    · intro i hi _
      simp at hi
    · intro i hi _
      simp at hi
    · simp only [List.length_take]
      omega
    · simp
    · simp
    · intro k v hkv
      simp [mapGet] at hkv
  · simp only [List.length_take]
    omega

/-- In a reachable state the root held for a leaf type is the empty node of line 122. -/
theorem Reachable.leaf_root {P : InstructionSet M} {decls : Decls} {c : Cache M}
    (h : Reachable P decls c) {key : Ty} {q : Nat} (hk : key.isLeaf = true)
    (hq : mapGet c.m key = some q) : c.nodes[q]? = some (emptyNode P) :=
  (h.sound key q hq).2.2 hk

/-- In a reachable state every stored root has `Idx = 0` and the default metadata. -/
theorem Reachable.root_node {P : InstructionSet M} {decls : Decls} {c : Cache M}
    (h : Reachable P decls c) :
    ∀ (key : Ty) (q : Nat), mapGet c.m key = some q ∨ mapGet c.m key.deref = some q →
      ∃ nd, c.nodes[q]? = some nd ∧ nd.Idx = 0 ∧ nd.metadata = P.emptyMetadata := by
  have hbase : ∀ (key : Ty) (q : Nat), (∀ e, key.Elem = some e →
      ∃ nd, c.nodes[q]? = some nd ∧ nd.Idx = 0 ∧ nd.metadata = P.emptyMetadata) →
      mapGet c.m key = some q →
      ∃ nd, c.nodes[q]? = some nd ∧ nd.Idx = 0 ∧ nd.metadata = P.emptyMetadata := by
    intro key q hcont hq
    rcases Ty.kind_cases key with ⟨name, rfl⟩ | ⟨e, hel⟩ | hleaf
    · obtain ⟨fo, mq, es, _, h2, _⟩ := (h.sound _ q hq).1 name rfl
      exact ⟨_, h2, rfl, rfl⟩
    · exact hcont e hel
    · exact ⟨_, h.leaf_root hleaf hq, rfl, rfl⟩
  intro key
  induction key with
  | basic s =>
    intro q hq
    exact hbase _ q (fun e he => Option.noConfusion he) (hq.elim id id)
  | struct s =>
    intro q hq
    exact hbase _ q (fun e he => Option.noConfusion he) (hq.elim id id)
  | ptr x ih =>
    intro q hq
    rcases hq with hq | hq
    · exact hbase _ q (fun e he => Option.noConfusion he) hq
    · exact ih q (Or.inl hq)
  | array len x ih =>
    intro q hq
    have hq2 : mapGet c.m (.array len x) = some q := hq.elim id id
    exact hbase _ q (fun e he => by
      obtain rfl := Option.some.inj he
      exact ih q (Or.inr ((h.sound _ q hq2).2.1 _ rfl))) hq2
  | slice x ih =>
    intro q hq
    have hq2 : mapGet c.m (.slice x) = some q := hq.elim id id
    exact hbase _ q (fun e he => by
      obtain rfl := Option.some.inj he
      exact ih q (Or.inr ((h.sound _ q hq2).2.1 _ rfl))) hq2
  | map k x _ ih =>
    intro q hq
    have hq2 : mapGet c.m (.map k x) = some q := hq.elim id id
    exact hbase _ q (fun e he => by
      obtain rfl := Option.some.inj he
      exact ih q (Or.inr ((h.sound _ q hq2).2.1 _ rfl))) hq2

/-- A returning call on a reachable state: the state it leaves is reachable and holds the
returned root for the normalised type. -/
theorem Reachable.after {P : InstructionSet M} {decls : Decls} {c d : Cache M}
    (h : Reachable P decls c) {fuel : Nat} {t : Ty} {r : Nat}
    (hrun : GetTypeDataFor P decls fuel c t = some (r, d)) :
    Reachable P decls d ∧ mapGet d.m t.deref = some r :=
  ⟨Reachable.call fuel c t r d h hrun, getTypeDataFor_stored P decls fuel c d t r hrun⟩

end ReachableViews

section SameTrees

variable {M : Type}

theorem forall2_of_map_eq {α : Type} (g : Entry → α) (R : Nat → Nat → Prop) :
    ∀ (es es2 : List Entry), es.map g = es2.map g →
      (∀ e ∈ es, ∀ e2 ∈ es2, g e = g e2 → R e.addr e2.addr) →
      List.Forall₂ R (es.map (fun e => e.addr)) (es2.map (fun e => e.addr)) := by
  intro es
  induction es with
  | nil =>
    intro es2 h _
    cases es2 with
    | nil => exact List.Forall₂.nil
    | cons x rest => simp at h
  | cons e rest ih =>
    intro es2 h hR
    cases es2 with
    | nil => simp at h
    | cons x rest2 =>
      simp only [List.map_cons, List.cons.injEq] at h
      exact List.Forall₂.cons (hR e (List.mem_cons_self _ _) x (List.mem_cons_self _ _) h.1)
        (ih rest2 h.2 (fun a ha b hb => hR a (List.mem_cons_of_mem _ ha) b
          (List.mem_cons_of_mem _ hb)))

theorem optionRel_imp {α β : Type} {R T : α → β → Prop} (h : ∀ a b, R a b → T a b) :
    ∀ (x : Option α) (y : Option β), Option.Rel R x y → Option.Rel T x y := by
  intro x y hr
  cases hr with
  | some hab => exact Option.Rel.some (h _ _ hab)
  | none => exact Option.Rel.none

theorem lastNamed_pair (P : InstructionSet M) (s : String) :
    ∀ (es es2 : List Entry),
      es.map (fun e => (e.pos, e.fld)) = es2.map (fun e => (e.pos, e.fld)) →
      (lastNamed P s es = none ∧ lastNamed P s es2 = none) ∨
      ∃ e e2, lastNamed P s es = some e ∧ lastNamed P s es2 = some e2 ∧ e ∈ es ∧ e2 ∈ es2 ∧
        (e.pos, e.fld) = (e2.pos, e2.fld) := by
  intro es
  induction es with
  | nil =>
    intro es2 h
    cases es2 with
    | nil => exact Or.inl ⟨rfl, rfl⟩
    | cons x rest => simp at h
  | cons e rest ih =>
    intro es2 h
    cases es2 with
    | nil => simp at h
    | cons x rest2 =>
      simp only [List.map_cons, List.cons.injEq] at h
      rcases ih rest2 h.2 with ⟨h1, h2⟩ | ⟨a, b, h1, h2, h3, h4, h5⟩
      · have hfld : e.fld = x.fld := (Prod.mk.inj h.1).2
        by_cases hn : resolvedName P e.fld = s
        · refine Or.inr ⟨e, x, ?_, ?_, List.mem_cons_self _ _, List.mem_cons_self _ _, h.1⟩
          · simp [lastNamed, h1, hn]
          · simp [lastNamed, h2, ← hfld, hn]
        · refine Or.inl ⟨?_, ?_⟩
          · simp [lastNamed, h1, hn]
          · simp [lastNamed, h2, ← hfld, hn]
      · refine Or.inr ⟨a, b, ?_, ?_, List.mem_cons_of_mem _ h3, List.mem_cons_of_mem _ h4, h5⟩
        · simp [lastNamed, h1]
        · simp [lastNamed, h2]

/-- The children built for one field of one struct type in two caches are twins. -/
theorem twin_children {P : InstructionSet M} {decls : Decls} {name : String}
    {c0 c d0 d : Cache M} {q q2 : Nat} {es es2 : List Entry}
    (hb : Built P decls name c0 c q es) (hb2 : Built P decls name d0 d q2 es2)
    {e e2 : Entry} (he : e ∈ es) (he2 : e2 ∈ es2) (hpf : (e.pos, e.fld) = (e2.pos, e2.fld)) :
    Twin c e.addr d e2.addr := by
  obtain ⟨hpos, hfld⟩ := Prod.mk.inj hpf
  obtain ⟨i1, s1, n1⟩ := hb.child e he
  obtain ⟨i2, s2, n2⟩ := hb2.child e2 he2
  by_cases hself : e.fld.Typ.deref = .struct name
  · obtain ⟨f1, g1, m1⟩ := s1 hself
    obtain ⟨f2, g2, m2⟩ := s2 (hfld ▸ hself)
    exact ⟨by rw [i1, i2, hpos], by rw [m1, m2], .struct name, q, q2, hb.stored, hb2.stored,
      f1, f2, Or.inr ⟨g1, g2⟩⟩
  · obtain ⟨x, hx, _, f1, g1, m1⟩ := n1 hself
    obtain ⟨y, hy, _, f2, g2, m2⟩ := n2 (hfld ▸ hself)
    refine ⟨by rw [i1, i2, hpos], by rw [m1, m2, hfld], e.fld.Typ.deref, x, y, hx,
      by rw [hfld]; exact hy, f1, f2, Or.inl ⟨g1, g2⟩⟩

/-- The roots two reachable caches hold for one key have twin children, position by
position and name by name. -/
theorem twin_kids {P : InstructionSet M} {decls : Decls} {c d : Cache M}
    (hc : Reachable P decls c) (hd : Reachable P decls d) :
    ∀ (key : Ty) (q q2 : Nat),
      (mapGet c.m key = some q ∧ mapGet d.m key = some q2) ∨
        (mapGet c.m key.deref = some q ∧ mapGet d.m key.deref = some q2) →
      List.Forall₂ (fun x y => Twin c x d y) (c.Fields q) (d.Fields q2) ∧
      ∀ s, Option.Rel (fun x y => Twin c x d y) (c.GetFieldByName q s)
        (d.GetFieldByName q2 s) := by
  have hbase : ∀ (key : Ty) (q q2 : Nat), (∀ e, key.Elem = some e →
        List.Forall₂ (fun x y => Twin c x d y) (c.Fields q) (d.Fields q2) ∧
        ∀ s, Option.Rel (fun x y => Twin c x d y) (c.GetFieldByName q s)
          (d.GetFieldByName q2 s)) →
      mapGet c.m key = some q → mapGet d.m key = some q2 →
      List.Forall₂ (fun x y => Twin c x d y) (c.Fields q) (d.Fields q2) ∧
      ∀ s, Option.Rel (fun x y => Twin c x d y) (c.GetFieldByName q s)
        (d.GetFieldByName q2 s) := by
    intro key q q2 hcont hq hq2
    rcases Ty.kind_cases key with ⟨name, rfl⟩ | ⟨e, hel⟩ | hleaf
    · obtain ⟨c0, es, hb⟩ := hc.built hq
      obtain ⟨d0, es2, hb2⟩ := hd.built hq2
      have hmap : es.map (fun e => (e.pos, e.fld)) = es2.map (fun e => (e.pos, e.fld)) := by
        rw [hb.entries, hb2.entries]
      refine ⟨?_, fun s => ?_⟩
      · rw [hb.fields, hb2.fields]
        exact forall2_of_map_eq _ _ es es2 hmap (fun e he e2 he2 h => twin_children hb hb2 he he2 h)
      · rw [hb.byName, hb2.byName, mapGet_indexAfter, mapGet_indexAfter]
        rcases lastNamed_pair P s es es2 hmap with ⟨h1, h2⟩ | ⟨a, b, h1, h2, h3, h4, h5⟩
        · rw [h1, h2]
          exact Option.Rel.none
        · rw [h1, h2]
          exact Option.Rel.some (twin_children hb hb2 h3 h4 h5)
    · exact hcont e hel
    · have h1 := hc.leaf_root hleaf hq
      have h2 := hd.leaf_root hleaf hq2
      refine ⟨?_, fun s => ?_⟩
      · simp [Cache.Fields, h1, h2, emptyNode]
      · simp only [Cache.GetFieldByName, h1, h2, emptyNode]
        exact Option.Rel.none
  intro key
  induction key with
  | basic s =>
    intro q q2 hq
    exact hbase _ q q2 (fun e he => Option.noConfusion he) (hq.elim (·.1) (·.1))
      (hq.elim (·.2) (·.2))
  | struct s =>
    intro q q2 hq
    exact hbase _ q q2 (fun e he => Option.noConfusion he) (hq.elim (·.1) (·.1))
      (hq.elim (·.2) (·.2))
  | ptr x ih =>
    intro q q2 hq
    rcases hq with hq | hq
    · exact hbase _ q q2 (fun e he => Option.noConfusion he) hq.1 hq.2
    · exact ih q q2 (Or.inl hq)
  | array len x ih =>
    intro q q2 hq
    have h1 : mapGet c.m (.array len x) = some q := hq.elim (·.1) (·.1)
    have h2 : mapGet d.m (.array len x) = some q2 := hq.elim (·.2) (·.2)
    exact hbase _ q q2 (fun e he => by
      obtain rfl := Option.some.inj he
      exact ih q q2 (Or.inr ⟨hc.inv.2 (.array len x) x q rfl h1,
        hd.inv.2 (.array len x) x q2 rfl h2⟩)) h1 h2
  | slice x ih =>
    intro q q2 hq
    have h1 : mapGet c.m (.slice x) = some q := hq.elim (·.1) (·.1)
    have h2 : mapGet d.m (.slice x) = some q2 := hq.elim (·.2) (·.2)
    exact hbase _ q q2 (fun e he => by
      obtain rfl := Option.some.inj he
      exact ih q q2 (Or.inr ⟨hc.inv.2 (.slice x) x q rfl h1,
        hd.inv.2 (.slice x) x q2 rfl h2⟩)) h1 h2
  | map k x _ ih =>
    intro q q2 hq
    have h1 : mapGet c.m (.map k x) = some q := hq.elim (·.1) (·.1)
    have h2 : mapGet d.m (.map k x) = some q2 := hq.elim (·.2) (·.2)
    exact hbase _ q q2 (fun e he => by
      obtain rfl := Option.some.inj he
      exact ih q q2 (Or.inr ⟨hc.inv.2 (.map k x) x q rfl h1,
        hd.inv.2 (.map k x) x q2 rfl h2⟩)) h1 h2

theorem twin_sameTree {P : InstructionSet M} {decls : Decls} {c d : Cache M}
    (hc : Reachable P decls c) (hd : Reachable P decls d) :
    ∀ (k a b : Nat), Twin c a d b → SameTree k c a d b := by
  intro k
  induction k with
  | zero => intro a b _; exact True.intro
  | succ k ih =>
    intro a b h
    obtain ⟨h1, h2, key, q, q2, hq, hq2, f1, f2, hnames⟩ := h
    obtain ⟨hk1, hk2⟩ := twin_kids hc hd key q q2 (Or.inl ⟨hq, hq2⟩)
    refine ⟨h1, h2, ?_, fun s => ?_⟩
    · rw [f1, f2]
      exact hk1.imp (fun x y hxy => ih x y hxy)
    · rcases hnames with ⟨g1, g2⟩ | ⟨g1, g2⟩
      · rw [g1, g2]
        exact optionRel_imp (fun x y hxy => ih x y hxy) _ _ (hk2 s)
      · rw [g1, g2]
        exact Option.Rel.none

/-- The roots two reachable caches hold for one key carry equal trees. -/
theorem sameTree_reachable {P : InstructionSet M} {decls : Decls} {c d : Cache M}
    (hc : Reachable P decls c) (hd : Reachable P decls d) {key : Ty} {q q2 : Nat}
    (hq : mapGet c.m key = some q) (hq2 : mapGet d.m key = some q2) (k : Nat) :
    SameTree k c q d q2 := by
  obtain ⟨n1, a1, b1, c1⟩ := hc.root_node key q (Or.inl hq)
  obtain ⟨n2, a2, b2, c2⟩ := hd.root_node key q2 (Or.inl hq2)
  refine twin_sameTree hc hd k q q2 ⟨?_, ?_, key, q, q2, hq, hq2, rfl, rfl,
    Or.inl ⟨fun _ => rfl, fun _ => rfl⟩⟩
  · simp [Cache.IdxOf, a1, a2, b1, b2]
  · simp [Cache.InstructionData, a1, a2, c1, c2]

theorem Later.reachable {P : InstructionSet M} {decls : Decls} {c d : Cache M}
    (h : Later P decls c d) (hc : Reachable P decls c) : Reachable P decls d := by
  induction h with
  | refl => exact hc
  | call fuel d t r e _ hrun ih => exact Reachable.call fuel d t r e ih hrun

theorem Later.keeps {P : InstructionSet M} {decls : Decls} {c d : Cache M}
    (h : Later P decls c d) : ∀ k v, mapGet c.m k = some v → mapGet d.m k = some v := by
  induction h with
  | refl => exact fun _ _ h => h
  | call fuel d t r e _ hrun ih =>
    exact fun k v hk => (getTypeDataFor_reach P decls fuel d t r e hrun).1 k v (ih k v hk)

theorem Later.grows {P : InstructionSet M} {decls : Decls} {c d : Cache M}
    (h : Later P decls c d) (hc : Reachable P decls c) : Grows c d := by
  induction h with
  | refl => exact Frame.refl _ _ _ _
  | call fuel d t r e hl hrun ih =>
    exact ih.trans (getTypeDataFor_callSpec P decls fuel d t r e (hl.reachable hc).inv.1 hrun).2.1

end SameTrees

section Claims11

variable {M : Type}

theorem reachable_stateAfter {P : InstructionSet M} {decls : Decls} {c : Cache M}
    (h : Reachable P decls c) (fuel : Nat) (t : Ty) :
    Reachable P decls (stateAfter P decls fuel c t) := by
  unfold stateAfter
  cases hr : GetTypeDataFor P decls fuel c t with
  | none => exact h
  | some rd => exact Reachable.call fuel c t rd.1 rd.2 h hr

/-- C11. On a cache state reached from a fresh cache by any finite sequence of returning
calls, a request for `t` that returns gives a tree equal at every depth (shape, names,
`Idx`, metadata) to the tree a fresh cache returns for `t`; and after that, whatever
requests are made in between, a further request for `t` is a lookup: it returns the same
root, leaves the cache as it is, and the tree behind the root is still the same. -/
theorem C11_same_tree_as_fresh_cache (P : InstructionSet M) (decls : Decls)
    (c d d0 : Cache M) (t : Ty) (fuel fuel0 r r0 : Nat) (hreach : Reachable P decls c)
    (hrun : GetTypeDataFor P decls fuel c t = some (r, d))
    (hfresh : GetTypeDataFor P decls fuel0 (NewCache M) t = some (r0, d0)) :
    (∀ k, SameTree k d r d0 r0) ∧
    ∀ e, Later P decls d e →
      (∀ fuel2, GetTypeDataFor P decls (fuel2 + 1) e t = some (r, e)) ∧
      ∀ k, SameTree k d r e r := by
  obtain ⟨hd, hst⟩ := hreach.after hrun
  obtain ⟨hd0, hst0⟩ := (Reachable.fresh : Reachable P decls (NewCache M)).after hfresh
  refine ⟨fun k => sameTree_reachable hd hd0 hst hst0 k, fun e he => ?_⟩
  have hse := he.keeps _ _ hst
  exact ⟨fun fuel2 => getTypeDataFor_hit P decls fuel2 e t r hse,
    fun k => sameTree_reachable hd (he.reachable hd) hst hse k⟩

/-- C11, on the test file's types: after `embeddedStruct` has been requested from a fresh
cache, the tree returned for `complexStruct` equals the one a fresh cache returns, and a
second request is a lookup. -/
theorem C11_same_tree_as_fresh_cache_witness :
    Reachable testPolicy testDecls
      (stateAfter testPolicy testDecls 3 (NewCache TestInstructions) (.struct "embeddedStruct")) ∧
    ∃ r d r0 d0,
      GetTypeDataFor testPolicy testDecls 3
        (stateAfter testPolicy testDecls 3 (NewCache TestInstructions)
          (.struct "embeddedStruct")) (.struct "complexStruct") = some (r, d) ∧
      GetTypeDataFor testPolicy testDecls 3 (NewCache TestInstructions)
        (.struct "complexStruct") = some (r0, d0) ∧
      (∀ k, SameTree k d r d0 r0) ∧
      ∀ fuel2, GetTypeDataFor testPolicy testDecls (fuel2 + 1) d (.struct "complexStruct") =
        some (r, d) :=
  ⟨reachable_stateAfter Reachable.fresh 3 _,
    match h1 : GetTypeDataFor testPolicy testDecls 3
        (stateAfter testPolicy testDecls 3 (NewCache TestInstructions)
          (.struct "embeddedStruct")) (.struct "complexStruct"),
      h2 : GetTypeDataFor testPolicy testDecls 3 (NewCache TestInstructions)
        (.struct "complexStruct") with
    | some (r, d), some (r0, d0) =>
      have hc := C11_same_tree_as_fresh_cache testPolicy testDecls _ d d0
        (.struct "complexStruct") 3 3 r r0 (reachable_stateAfter Reachable.fresh 3 _) h1 h2
      ⟨r, d, r0, d0, rfl, rfl, hc.1, fun fuel2 => (hc.2 d Later.refl).1 fuel2⟩
    | none, _ => absurd h1 (by decide)
    | some _, none => absurd h2 (by decide)⟩

end Claims11

section Claims12

variable {M : Type}

theorem lastNamed_eq_none (P : InstructionSet M) (s : String) :
    ∀ (es : List Entry), lastNamed P s es = none → ∀ e ∈ es, resolvedName P e.fld ≠ s := by
  intro es
  induction es with
  | nil => intro _ e he; exact absurd he (List.not_mem_nil _)
  | cons x rest ih =>
    intro h e he
    cases hl : lastNamed P s rest with
    | some e2 => simp [lastNamed, hl] at h
    | none =>
      simp only [lastNamed, hl] at h
      rcases List.mem_cons.mp he with rfl | hin
      · intro hn
        rw [if_pos hn] at h
        exact Option.noConfusion h
      · exact ih hl e hin

/-- The entry `lastNamed` picks is the last one with that resolved name. -/
theorem lastNamed_max (P : InstructionSet M) (s : String) :
    ∀ (es : List Entry) (e : Entry),
      (es.map (fun x => x.pos)).Pairwise (fun a b => a < b) → lastNamed P s es = some e →
      ∀ x ∈ es, resolvedName P x.fld = s → x.pos ≤ e.pos := by
  intro es
  induction es with
  | nil => intro e _ h; simp [lastNamed] at h
  | cons y rest ih =>
    intro e hsort h x hx hn
    simp only [List.map_cons, List.pairwise_cons] at hsort
    cases hl : lastNamed P s rest with
    | some e2 =>
      simp only [lastNamed, hl, Option.some.injEq] at h
      subst h
      rcases List.mem_cons.mp hx with rfl | hin
      · exact le_of_lt (hsort.1 _ (List.mem_map.mpr ⟨e2, (lastNamed_some P s rest e2 hl).1, rfl⟩))
      · exact ih e2 hsort.2 hl x hin hn
    | none =>
      simp only [lastNamed, hl] at h
      rcases List.mem_cons.mp hx with rfl | hin
      · rw [if_pos hn] at h
        rw [← Option.some.inj h]
      · exact absurd hn (lastNamed_eq_none P s rest hl x hin)

/-- A returning request for a struct type on a reachable state: the root is as a build
leaves it. -/
theorem Reachable.built_run {P : InstructionSet M} {decls : Decls} {c d : Cache M}
    (h : Reachable P decls c) {fuel : Nat} {t : Ty} {name : String} {r : Nat}
    (ht : t.deref = .struct name)
    (hrun : GetTypeDataFor P decls fuel c t = some (r, d)) :
    ∃ (c0 : Cache M) (es : List Entry), Built P decls name c0 d r es :=
  (h.after hrun).1.built (ht ▸ (h.after hrun).2)

/-- The name index leads to the node of the last included field with that resolved name. -/
theorem Built.byName_last {P : InstructionSet M} {decls : Decls} {name : String}
    {c d : Cache M} {r : Nat} {es : List Entry} (hb : Built P decls name c d r es)
    {s : String} {n : Nat} (h : d.GetFieldByName r s = some n) :
    ∃ e ∈ es, e.addr = n ∧ resolvedName P e.fld = s ∧
      ∀ x ∈ es, resolvedName P x.fld = s → x.pos ≤ e.pos := by
  rw [hb.byName, mapGet_indexAfter] at h
  cases hl : lastNamed P s es with
  | none => simp [hl, mapGet] at h
  | some e =>
    simp only [hl, Option.some.injEq] at h
    exact ⟨e, (lastNamed_some P s es e hl).1, h, (lastNamed_some P s es e hl).2,
      lastNamed_max P s es e hb.pos_sorted hl⟩

/-- C12 as amended. For a struct type requested on a reachable state: every node that
`GetFieldByName` returns is an element of `Fields()`; and the child of field `i` is returned
by `GetFieldByName` for the field's resolved name exactly when no later included field
resolves to the same name (the map assignment of lines 104 and 117 lets the last one
win). -/
theorem C12_name_index_holds_last_of_each_name (P : InstructionSet M) (decls : Decls)
    (fuel : Nat) (c d : Cache M) (t : Ty) (name : String) (r : Nat)
    (hreach : Reachable P decls c) (ht : t.deref = .struct name)
    (hrun : GetTypeDataFor P decls fuel c t = some (r, d)) :
    (∀ s n, d.GetFieldByName r s = some n → n ∈ d.Fields r) ∧
    ∀ n ∈ d.Fields r, ∀ i f, d.IdxOf n = some i → (decls name)[i]? = some f →
      (d.GetFieldByName r (resolvedName P f) = some n ↔
        ∀ j g, i < j → (decls name)[j]? = some g → included P g = true →
          resolvedName P g ≠ resolvedName P f) := by
  obtain ⟨c0, es, hb⟩ := hreach.built_run ht hrun
  refine ⟨?_, ?_⟩
  · intro s n h
    obtain ⟨e, he, rfl, _⟩ := hb.byName_some h
    exact hb.child_mem he
  · intro n hn i f hidx hi
    obtain ⟨e, he, rfl, rfl, hfld, _⟩ := hb.entry_of_idx hn hidx
    rw [hi] at hfld
    obtain rfl := Option.some.inj hfld
    constructor
    · intro h j g hij hj hg hname
      obtain ⟨e2, he2, ha, _, hmax⟩ := hb.byName_last h
      obtain ⟨x, hx, hxp, hxf⟩ := hb.entry_of_field hj hg
      have h1 := hmax x hx (by rw [hxf]; exact hname)
      have h2 := (hb.child e2 he2).1
      rw [ha, hidx] at h2
      have := Option.some.inj h2
      omega
    · intro h
      exact hb.byName_of_last he h

/-- C12, the claim as stated fails on `RecursiveStruct` with the test policy: the fields `R`
and `A` both resolve to the name `admin`; the child of `R` is in `Fields()`, but
`GetFieldByName("admin")` returns the child of `A`, and no name leads to the child of
`R`. -/
theorem C12_same_membership_counterexample :
    resolvedName testPolicy ⟨"R", false, [("redact", "admin")],
      .ptr (.struct "RecursiveStruct")⟩ = "admin" ∧
    (GetTypeDataFor testPolicy testDecls 2 (NewCache TestInstructions)
        (.struct "RecursiveStruct")).map
      (fun x => (x.2.Fields x.1, (x.2.Fields x.1).map x.2.IdxOf,
        x.2.GetFieldByName x.1 "admin")) =
      some ([1, 4], [some 0, some 1], some 4) := by
  decide

/-- C12 as amended, on `RecursiveStruct` (fresh cache): what `GetFieldByName` returns is in
`Fields()`, and the child of field 1 (`A`), the last field named `admin`, is what the name
`admin` leads to. -/
theorem C12_name_index_holds_last_of_each_name_witness :
    Reachable testPolicy testDecls (NewCache TestInstructions) ∧
    ∃ r d, GetTypeDataFor testPolicy testDecls 2 (NewCache TestInstructions)
        (.struct "RecursiveStruct") = some (r, d) ∧
      (∀ s n, d.GetFieldByName r s = some n → n ∈ d.Fields r) ∧
      ∀ n ∈ d.Fields r, d.IdxOf n = some 1 → d.GetFieldByName r "admin" = some n :=
  ⟨Reachable.fresh,
    match h : GetTypeDataFor testPolicy testDecls 2 (NewCache TestInstructions)
        (.struct "RecursiveStruct") with
    | some (r, d) =>
      have hc := C12_name_index_holds_last_of_each_name testPolicy testDecls 2
        (NewCache TestInstructions) d (.struct "RecursiveStruct") "RecursiveStruct" r
        Reachable.fresh rfl h
      ⟨r, d, rfl, hc.1, fun n hn hidx =>
        (hc.2 n hn 1 ⟨"A", false, [("redact", "admin")], tyString⟩ hidx (by decide)).mpr (by
          intro j g hj hg
          have : (testDecls "RecursiveStruct")[j]? = none := by
            match j, hj with
            | j + 2, _ => rfl
          rw [this] at hg
          exact Option.noConfusion hg)⟩
    | none => absurd h (by decide)⟩

end Claims12

section Claims13

variable {M : Type}

theorem string_length_eq_zero (s : String) : s.length = 0 ↔ s = "" := by
  constructor
  · intro h
    apply String.ext
    exact List.length_eq_zero.mp h
  · rintro rfl
    rfl

theorem resolvedName_eq (P : InstructionSet M) (f : StructField) :
    resolvedName P f =
      if P.FieldName (f.tagGet P.TagNamespace) = "" then f.Name
      else P.FieldName (f.tagGet P.TagNamespace) := by
  unfold resolvedName
  simp only [string_length_eq_zero]

theorem Built.names_nodup {P : InstructionSet M} {decls : Decls} {name : String}
    {c d : Cache M} {r : Nat} {es : List Entry} (hb : Built P decls name c d r es)
    (hdist : ((includedFrom P (decls name) 0).map (fun x => resolvedName P x.2)).Nodup)
    {e x : Entry} (he : e ∈ es) (hx : x ∈ es)
    (hn : resolvedName P e.fld = resolvedName P x.fld) : e = x := by
  rw [← hb.entries, List.map_map] at hdist
  exact List.inj_on_of_nodup_map hdist he hx hn

/-- C13. For a struct type requested on a reachable state, where the resolved name of a
field is `FieldName(tag)` when that is non-empty and the declared name otherwise, and the
included fields have pairwise distinct resolved names: `GetFieldByName` on the resolved name
of an included field `i` returns the child with `Idx = i`; it returns `nil` for every name
that is not the resolved name of an included field; and a declared name that `FieldName`
overrides does not lead to the field's node. -/
theorem C13_distinct_names_find_every_field (P : InstructionSet M) (decls : Decls)
    (fuel : Nat) (c d : Cache M) (t : Ty) (name : String) (r : Nat)
    (hreach : Reachable P decls c) (ht : t.deref = .struct name)
    (hrun : GetTypeDataFor P decls fuel c t = some (r, d))
    (hdist : ((includedFrom P (decls name) 0).map (fun x => resolvedName P x.2)).Nodup) :
    (∀ f, resolvedName P f =
      if P.FieldName (f.tagGet P.TagNamespace) = "" then f.Name
      else P.FieldName (f.tagGet P.TagNamespace)) ∧
    (∀ (i : Nat) (f : StructField), (decls name)[i]? = some f → included P f = true →
      ∃ n, d.GetFieldByName r (resolvedName P f) = some n ∧ n ∈ d.Fields r ∧
        d.IdxOf n = some i) ∧
    (∀ s, (∀ (i : Nat) (f : StructField), (decls name)[i]? = some f → included P f = true →
        resolvedName P f ≠ s) →
      d.GetFieldByName r s = none) ∧
    ∀ (i : Nat) (f : StructField) (n : Nat), (decls name)[i]? = some f → n ∈ d.Fields r →
      d.IdxOf n = some i →
      resolvedName P f ≠ f.Name → d.GetFieldByName r f.Name ≠ some n := by
  obtain ⟨c0, es, hb⟩ := hreach.built_run ht hrun
  refine ⟨resolvedName_eq P, ?_, ?_, ?_⟩
  · intro i f hi hinc
    obtain ⟨e, he, rfl, rfl⟩ := hb.entry_of_field hi hinc
    refine ⟨e.addr, hb.byName_of_last he ?_, hb.child_mem he, (hb.child e he).1⟩
    intro j g hj hg hginc hname
    obtain ⟨x, hx, rfl, rfl⟩ := hb.entry_of_field hg hginc
    have := hb.names_nodup hdist he hx hname.symm
    subst this
    exact lt_irrefl _ hj
  · intro s hs
    cases h : d.GetFieldByName r s with
    | none => rfl
    | some n =>
      obtain ⟨e, he, _, hn⟩ := hb.byName_some h
      obtain ⟨h1, h2⟩ := hb.field_of_entry he
      exact absurd hn (hs e.pos e.fld h1 h2)
  · intro i f n hi hn hidx hne h
    obtain ⟨e, he, ha, hname⟩ := hb.byName_some h
    have h2 := (hb.child e he).1
    rw [ha, hidx] at h2
    obtain rfl := Option.some.inj h2
    have h3 := (hb.field_of_entry he).1
    rw [hi] at h3
    obtain rfl := Option.some.inj h3
    exact hne hname

/-- C13, on `simpleStruct` of the test file (fresh cache): the included fields resolve to
`admin` and `embeddedStruct`; `admin` leads to the child with `Idx = 1`, and the declared
name `B` leads nowhere. -/
theorem C13_distinct_names_find_every_field_witness :
    Reachable testPolicy testDecls (NewCache TestInstructions) ∧
    ((includedFrom testPolicy (testDecls "simpleStruct") 0).map
      (fun x => resolvedName testPolicy x.2)).Nodup ∧
    ∃ r d, GetTypeDataFor testPolicy testDecls 3 (NewCache TestInstructions)
        (.struct "simpleStruct") = some (r, d) ∧
      (∃ n, d.GetFieldByName r "admin" = some n ∧ n ∈ d.Fields r ∧ d.IdxOf n = some 1) ∧
      d.GetFieldByName r "B" = none :=
  ⟨Reachable.fresh, by decide,
    match h : GetTypeDataFor testPolicy testDecls 3 (NewCache TestInstructions)
        (.struct "simpleStruct") with
    | some (r, d) =>
      have hc := C13_distinct_names_find_every_field testPolicy testDecls 3
        (NewCache TestInstructions) d (.struct "simpleStruct") "simpleStruct" r
        Reachable.fresh rfl h (by decide)
      ⟨r, d, rfl,
        hc.2.1 1 ⟨"B", false, [("redact", "admin")], tyString⟩ (by decide) (by decide),
        hc.2.2.1 "B" (by
          intro i f hi hinc
          match i, hi with
          | 0, hi =>
            obtain rfl := Option.some.inj hi
            exact absurd hinc (by decide)
          | 1, hi =>
            obtain rfl := Option.some.inj hi
            decide
          | 2, hi =>
            obtain rfl := Option.some.inj hi
            exact absurd hinc (by decide)
          | 3, hi =>
            obtain rfl := Option.some.inj hi
            decide
          | i + 4, hi => exact Option.noConfusion hi)⟩
    | none => absurd h (by decide)⟩

end Claims13

section Claims14

variable {M : Type}

/-- C14, the code at a failing input: in `RecursiveStruct` the child built for the
self-referential field `R` (the first element of `Fields()`) shares the root's child list,
but its name index is `nil`: the root finds a node under `admin`, the child finds none. -/
theorem C14_self_reference_child_has_no_name_index :
    (GetTypeDataFor testPolicy testDecls 2 (NewCache TestInstructions)
        (.struct "RecursiveStruct")).map
      (fun x => (x.2.Fields x.1, (x.2.Fields x.1).map x.2.Fields,
        x.2.GetFieldByName x.1 "admin",
        (x.2.Fields x.1).map (fun n => x.2.GetFieldByName n "admin"))) =
      some ([1, 4], [[1, 4], []], some 4, [none, none]) := by
  decide

/-- C15. For a struct type requested on a reachable state, an included field `i` that is a
direct self-reference has a child with `Idx = i`, and every such child carries the policy's
default metadata, whatever the policy's `GetMetadata` returns for the field and its tag. -/
theorem C15_self_reference_child_has_default_metadata (P : InstructionSet M)
    (decls : Decls) (fuel : Nat) (c d : Cache M) (t : Ty) (name : String) (r : Nat)
    (hreach : Reachable P decls c) (ht : t.deref = .struct name)
    (hrun : GetTypeDataFor P decls fuel c t = some (r, d))
    (i : Nat) (f : StructField) (hi : (decls name)[i]? = some f)
    (hinc : included P f = true) (hself : f.Typ.deref = .struct name) :
    (∃ n ∈ d.Fields r, d.IdxOf n = some i) ∧
    ∀ n ∈ d.Fields r, d.IdxOf n = some i → d.InstructionData n = some P.emptyMetadata := by
  obtain ⟨c0, es, hb⟩ := hreach.built_run ht hrun
  obtain ⟨h1, h2⟩ := hb.child_of_field hi hinc
  refine ⟨h1, ?_⟩
  intro n hn hidx
  obtain ⟨e, he, rfl, _, hf⟩ := h2 n hn hidx
  subst hf
  exact ((hb.child e he).2.1 hself).2.2

/-- C15, on `RecursiveStruct` (fresh cache): `GetMetadata` would give the field `R`, tagged
`admin`, the group `admin`, yet the child of `R` has empty `AllowedGroups`, while the child
of `A`, tagged `admin` too, has one. -/
theorem C15_self_reference_child_has_default_metadata_witness :
    Reachable testPolicy testDecls (NewCache TestInstructions) ∧
    testPolicy.GetMetadata ⟨"R", false, [("redact", "admin")],
      .ptr (.struct "RecursiveStruct")⟩ "admin" = some { AllowedGroups := ["admin"] } ∧
    (GetTypeDataFor testPolicy testDecls 2 (NewCache TestInstructions)
        (.struct "RecursiveStruct")).map
      (fun x => (x.2.Fields x.1).map
        (fun n => (x.2.IdxOf n, (x.2.InstructionData n).map (fun m => m.AllowedGroups)))) =
      some [(some 0, some []), (some 1, some ["admin"])] ∧
    ∃ r d, GetTypeDataFor testPolicy testDecls 2 (NewCache TestInstructions)
        (.struct "RecursiveStruct") = some (r, d) ∧
      (∃ n ∈ d.Fields r, d.IdxOf n = some 0) ∧
      ∀ n ∈ d.Fields r, d.IdxOf n = some 0 →
        d.InstructionData n = some { AllowedGroups := [] } :=
  ⟨Reachable.fresh, by decide, by decide,
    match h : GetTypeDataFor testPolicy testDecls 2 (NewCache TestInstructions)
        (.struct "RecursiveStruct") with
    | some (r, d) =>
      ⟨r, d, rfl,
        C15_self_reference_child_has_default_metadata testPolicy testDecls 2
          (NewCache TestInstructions) d (.struct "RecursiveStruct") "RecursiveStruct" r
          Reachable.fresh rfl h 0
          ⟨"R", false, [("redact", "admin")], .ptr (.struct "RecursiveStruct")⟩ (by decide)
          (by decide) (by decide)⟩
    | none => absurd h (by decide)⟩

end Claims14

section Claims16

variable {M : Type}

theorem NormalisesTo.root {m : List (Ty × Nat)} (hci : ContainerInv m) {t k : Ty}
    (h : NormalisesTo t k) : ∀ q, mapGet m t.deref = some q → mapGet m k = some q := by
  induction h with
  | direct t => exact fun _ hq => hq
  | elem t e k he _ ih => exact fun q hq => ih q (hci _ e q he hq)

/-- C16. In a struct type requested on a reachable state, two included fields `i` and `j`
that are not direct self-references and whose types normalise to one struct type `S`
(directly, through one pointer, or through containers) have children whose `Fields()` are
the same list, element for element the same nodes, and whose `GetFieldByName` agree on every
name: both are those of the root the cache holds for `S`; the two children themselves carry
`Idx = i` and `Idx = j` and each its own field's metadata. -/
theorem C16_fields_of_one_type_share_children (P : InstructionSet M) (decls : Decls)
    (fuel : Nat) (c d : Cache M) (t : Ty) (name : String) (r : Nat)
    (hreach : Reachable P decls c) (ht : t.deref = .struct name)
    (hrun : GetTypeDataFor P decls fuel c t = some (r, d))
    (i j : Nat) (f g : StructField) (S : String)
    (hi : (decls name)[i]? = some f) (hj : (decls name)[j]? = some g)
    (hfi : included P f = true) (hgi : included P g = true)
    (hfs : f.Typ.deref ≠ .struct name) (hgs : g.Typ.deref ≠ .struct name)
    (hf : NormalisesTo f.Typ (.struct S)) (hg : NormalisesTo g.Typ (.struct S)) :
    (∃ n ∈ d.Fields r, d.IdxOf n = some i) ∧ (∃ m ∈ d.Fields r, d.IdxOf m = some j) ∧
    ∀ n ∈ d.Fields r, ∀ m ∈ d.Fields r, d.IdxOf n = some i → d.IdxOf m = some j →
      d.Fields n = d.Fields m ∧ (∀ s, d.GetFieldByName n s = d.GetFieldByName m s) ∧
      (∃ q, (∀ fuel2, GetTypeDataFor P decls (fuel2 + 1) d (.struct S) = some (q, d)) ∧
        d.Fields n = d.Fields q ∧ ∀ s, d.GetFieldByName n s = d.GetFieldByName q s) ∧
      d.InstructionData n =
        some ((P.GetMetadata f (f.tagGet P.TagNamespace)).getD P.emptyMetadata) ∧
      d.InstructionData m =
        some ((P.GetMetadata g (g.tagGet P.TagNamespace)).getD P.emptyMetadata) := by
  obtain ⟨c0, es, hb⟩ := hreach.built_run ht hrun
  have hci := (hreach.after hrun).1.inv.2
  obtain ⟨h1, h2⟩ := hb.child_of_field hi hfi
  obtain ⟨h3, h4⟩ := hb.child_of_field hj hgi
  refine ⟨h1, h3, ?_⟩
  intro n hn m hm hni hmj
  obtain ⟨e, he, rfl, _, hef⟩ := h2 n hn hni
  obtain ⟨x, hx, rfl, _, hxf⟩ := h4 m hm hmj
  subst hef hxf
  obtain ⟨q, hq, _, f1, g1, m1⟩ := (hb.child e he).2.2 hfs
  obtain ⟨q2, hq2, _, f2, g2, m2⟩ := (hb.child x hx).2.2 hgs
  have hqS := hf.root hci q hq
  have hq2S := hg.root hci q2 hq2
  rw [hqS] at hq2S
  obtain rfl := Option.some.inj hq2S
  exact ⟨by rw [f1, f2], fun s => by rw [g1, g2],
    ⟨q, fun fuel2 => getTypeDataFor_hit P decls fuel2 d (.struct S) q hqS, f1, g1⟩, m1, m2⟩

/-- C16, on `holder { Items []item; Direct item }` (fresh cache): field 0 reaches `item`
through a slice, field 1 directly; their children list the same nodes. -/
theorem C16_fields_of_one_type_share_children_witness :
    Reachable testPolicy scenarioDecls (NewCache TestInstructions) ∧
    NormalisesTo (.slice (.struct "item")) (.struct "item") ∧
    NormalisesTo (.struct "item") (.struct "item") ∧
    ∃ r d, GetTypeDataFor testPolicy scenarioDecls 4 (NewCache TestInstructions)
        (.struct "holder") = some (r, d) ∧
      (∃ n ∈ d.Fields r, d.IdxOf n = some 0) ∧ (∃ m ∈ d.Fields r, d.IdxOf m = some 1) ∧
      ∀ n ∈ d.Fields r, ∀ m ∈ d.Fields r, d.IdxOf n = some 0 → d.IdxOf m = some 1 →
        d.Fields n = d.Fields m ∧ ∀ s, d.GetFieldByName n s = d.GetFieldByName m s :=
  ⟨Reachable.fresh, NormalisesTo.elem _ (.struct "item") _ rfl (NormalisesTo.direct _),
    NormalisesTo.direct (.struct "item"),
    match h : GetTypeDataFor testPolicy scenarioDecls 4 (NewCache TestInstructions)
        (.struct "holder") with
    | some (r, d) =>
      have hc := C16_fields_of_one_type_share_children testPolicy scenarioDecls 4
        (NewCache TestInstructions) d (.struct "holder") "holder" r Reachable.fresh rfl h 0 1
        ⟨"Items", false, [], .slice (.struct "item")⟩ ⟨"Direct", false, [], .struct "item"⟩
        "item" (by decide) (by decide) (by decide) (by decide) (by decide) (by decide)
        (NormalisesTo.elem _ (.struct "item") _ rfl (NormalisesTo.direct _))
        (NormalisesTo.direct (.struct "item"))
      ⟨r, d, rfl, hc.1, hc.2.1, fun n hn m hm h1 h2 =>
        ⟨(hc.2.2 n hn m hm h1 h2).1, (hc.2.2 n hn m hm h1 h2).2.1⟩⟩
    | none => absurd h (by decide)⟩

end Claims16

section Claims17

variable {M : Type}

/-- A request for a leaf type on a reachable state returns, whatever the fuel beyond the
first unit, and what it returns is the empty node of line 122. -/
theorem leaf_request {P : InstructionSet M} {decls : Decls} {c : Cache M}
    (hreach : Reachable P decls c) (t : Ty) (hleaf : t.deref.isLeaf = true) (fuel : Nat) :
    ∃ r d, GetTypeDataFor P decls (fuel + 1) c t = some (r, d) ∧
      mapGet d.m t.deref = some r ∧ d.nodes[r]? = some (emptyNode P) := by
  have hret : ∃ r d, GetTypeDataFor P decls (fuel + 1) c t = some (r, d) := by
    cases hm : mapGet c.m t.deref with
    | some q => exact ⟨q, c, getTypeDataFor_hit P decls fuel c t q hm⟩
    | none => exact ⟨_, _, getTypeDataFor_leaf P decls fuel c t (Ty.leaf_cases _ hleaf).1 hm⟩
  obtain ⟨r, d, hrun⟩ := hret
  obtain ⟨hd, hst⟩ := hreach.after hrun
  exact ⟨r, d, hrun, hst, hd.leaf_root hleaf hst⟩

theorem emptyNode_accessors (P : InstructionSet M) (d : Cache M) (r : Nat)
    (h : d.nodes[r]? = some (emptyNode P)) :
    d.Fields r = [] ∧ (∀ s, d.GetFieldByName r s = none) ∧
    d.InstructionData r = some P.emptyMetadata ∧ d.IdxOf r = some 0 := by
  refine ⟨?_, fun s => ?_, ?_, ?_⟩
  · simp [Cache.Fields, h, emptyNode]
  · simp [Cache.GetFieldByName, h, emptyNode]
  · simp [Cache.InstructionData, h, emptyNode]
  · simp [Cache.IdxOf, h, emptyNode]

/-- C17. On a reachable state, a request for a type whose kind after stripping one pointer
level is none of struct, array, slice or map returns with any fuel beyond the first unit,
and returns an empty node: `Fields()` is empty, `GetFieldByName` is absent for every name,
and `InstructionData()` is the policy's default. -/
theorem C17_leaf_types_give_an_empty_node (P : InstructionSet M) (decls : Decls)
    (c : Cache M) (t : Ty) (fuel : Nat) (hreach : Reachable P decls c)
    (hleaf : t.deref.isLeaf = true) :
    ∃ r d, GetTypeDataFor P decls (fuel + 1) c t = some (r, d) ∧
      d.Fields r = [] ∧ (∀ s, d.GetFieldByName r s = none) ∧
      d.InstructionData r = some P.emptyMetadata := by
  obtain ⟨r, d, hrun, _, hnode⟩ := leaf_request hreach t hleaf fuel
  obtain ⟨h1, h2, h3, _⟩ := emptyNode_accessors P d r hnode
  exact ⟨r, d, hrun, h1, h2, h3⟩

/-- C17, on the type `*string` requested from a fresh cache. -/
theorem C17_leaf_types_give_an_empty_node_witness :
    Reachable testPolicy testDecls (NewCache TestInstructions) ∧
    (Ty.ptr tyString).deref.isLeaf = true ∧
    ∃ r d, GetTypeDataFor testPolicy testDecls 1 (NewCache TestInstructions)
        (.ptr tyString) = some (r, d) ∧
      d.Fields r = [] ∧ (∀ s, d.GetFieldByName r s = none) ∧
      d.InstructionData r = some testPolicy.emptyMetadata :=
  ⟨Reachable.fresh, rfl,
    C17_leaf_types_give_an_empty_node testPolicy testDecls (NewCache TestInstructions)
      (.ptr tyString) 0 Reachable.fresh rfl⟩

end Claims17

section Claims20

variable {M : Type}

theorem Built.fields_length {P : InstructionSet M} {decls : Decls} {name : String}
    {c d : Cache M} {r : Nat} {es : List Entry} (hb : Built P decls name c d r es) :
    (d.Fields r).length = (includedFrom P (decls name) 0).length := by
  rw [hb.fields, ← hb.entries, List.length_map, List.length_map]

/-- C20. Only one pointer level is stripped. On a reachable state, for a struct type `S`
with at least one included field: a request for `**S` returns an empty node, which `rc.m`
then holds under the key `*S`; and in any struct type requested on this state (`S` itself
included), the child of an included field declared `**S` has no children and no names,
whereas the child of an included field declared `S` or `*S` has the children of the root
held for `S`, at least one. -/
theorem C20_only_one_pointer_level_is_stripped (P : InstructionSet M) (decls : Decls)
    (c : Cache M) (S : String) (hreach : Reachable P decls c)
    (hS : 0 < (includedFrom P (decls S) 0).length) :
    (∀ fuel, ∃ r d, GetTypeDataFor P decls (fuel + 1) c (.ptr (.ptr (.struct S))) =
        some (r, d) ∧
      mapGet d.m (.ptr (.struct S)) = some r ∧ d.Fields r = [] ∧
      ∀ s, d.GetFieldByName r s = none) ∧
    ∀ (fuel : Nat) (t : Ty) (name : String) (r : Nat) (d : Cache M) (i : Nat)
      (f : StructField),
      t.deref = .struct name → GetTypeDataFor P decls fuel c t = some (r, d) →
      (decls name)[i]? = some f → included P f = true →
      (∃ n ∈ d.Fields r, d.IdxOf n = some i) ∧
      ∀ n ∈ d.Fields r, d.IdxOf n = some i →
        (f.Typ = .ptr (.ptr (.struct S)) →
          d.Fields n = [] ∧ ∀ s, d.GetFieldByName n s = none) ∧
        (f.Typ.deref = .struct S →
          d.Fields n ≠ [] ∧ ∃ q, mapGet d.m (.struct S) = some q ∧
            d.Fields n = d.Fields q) := by
  refine ⟨?_, ?_⟩
  · intro fuel
    obtain ⟨r, d, hrun, hst, hnode⟩ :=
      leaf_request hreach (.ptr (.ptr (.struct S))) rfl fuel
    obtain ⟨h1, h2, _, _⟩ := emptyNode_accessors P d r hnode
    exact ⟨r, d, hrun, hst, h1, h2⟩
  · intro fuel t name r d i f ht hrun hi hinc
    obtain ⟨c0, es, hb⟩ := hreach.built_run ht hrun
    have hd := (hreach.after hrun).1
    obtain ⟨h1, h2⟩ := hb.child_of_field hi hinc
    refine ⟨h1, ?_⟩
    intro n hn hidx
    obtain ⟨e, he, rfl, _, hef⟩ := h2 n hn hidx
    subst hef
    refine ⟨?_, ?_⟩
    · intro hty
      have hderef : e.fld.Typ.deref = .ptr (.struct S) := by rw [hty]; rfl
      have hns : e.fld.Typ.deref ≠ .struct name := by
        rw [hderef]
        exact fun h => Ty.noConfusion h
      obtain ⟨q, hq, _, f1, g1, _⟩ := (hb.child e he).2.2 hns
      rw [hderef] at hq
      have hl : (Ty.ptr (.struct S)).isLeaf = true := rfl
      obtain ⟨a1, a2, _, _⟩ := emptyNode_accessors P d q (hd.leaf_root hl hq)
      exact ⟨by rw [f1, a1], fun s => by rw [g1, a2]⟩
    · intro hty
      have hne : ∀ q (d0 : Cache M) (es2 : List Entry), Built P decls S d0 d q es2 →
          d.Fields q ≠ [] := by
        intro q d0 es2 hb2 hnil
        have := hb2.fields_length
        rw [hnil] at this
        simp only [List.length_nil] at this
        omega
      by_cases hself : e.fld.Typ.deref = .struct name
      · have hSn : S = name := by
          rw [hty] at hself
          exact Ty.struct.inj hself
        subst hSn
        have f1 := ((hb.child e he).2.1 hself).1
        exact ⟨by rw [f1]; exact hne r c0 es hb, r, hb.stored, f1⟩
      · obtain ⟨q, hq, _, f1, _, _⟩ := (hb.child e he).2.2 hself
        rw [hty] at hq
        obtain ⟨d0, es2, hb2⟩ := hd.built hq
        exact ⟨by rw [f1]; exact hne q d0 es2 hb2, q, hq, f1⟩

/-- C20, on `leafy { B string }` and `owner { PP **leafy; P *leafy; V leafy }` (fresh
cache): `**leafy` gives an empty node under the key `*leafy`; in `owner` the child of `PP`
has no children, the children of `P` and of `V` have one; and in `selfpp { F **selfpp }` the
child of `F` has no children. -/
theorem C20_only_one_pointer_level_is_stripped_witness :
    Reachable testPolicy pointerDecls (NewCache TestInstructions) ∧
    0 < (includedFrom testPolicy (pointerDecls "leafy") 0).length ∧
    (∃ r d, GetTypeDataFor testPolicy pointerDecls 1 (NewCache TestInstructions)
        (.ptr (.ptr (.struct "leafy"))) = some (r, d) ∧
      mapGet d.m (.ptr (.struct "leafy")) = some r ∧ d.Fields r = []) ∧
    (GetTypeDataFor testPolicy pointerDecls 3 (NewCache TestInstructions)
        (.struct "owner")).map
      (fun x => (x.2.Fields x.1).map (fun n => (x.2.IdxOf n, (x.2.Fields n).length))) =
      some [(some 0, 0), (some 1, 1), (some 2, 1)] ∧
    ∃ r d, GetTypeDataFor testPolicy pointerDecls 3 (NewCache TestInstructions)
        (.struct "owner") = some (r, d) ∧
      (∀ n ∈ d.Fields r, d.IdxOf n = some 0 → d.Fields n = []) ∧
      (∀ n ∈ d.Fields r, d.IdxOf n = some 1 → d.Fields n ≠ []) ∧
      (∀ n ∈ d.Fields r, d.IdxOf n = some 2 → d.Fields n ≠ []) ∧
      ∃ r2 d2, GetTypeDataFor testPolicy pointerDecls 2 (NewCache TestInstructions)
          (.struct "selfpp") = some (r2, d2) ∧
        ∀ n ∈ d2.Fields r2, d2.IdxOf n = some 0 → d2.Fields n = [] :=
  have hc := C20_only_one_pointer_level_is_stripped testPolicy pointerDecls
    (NewCache TestInstructions) "leafy" Reachable.fresh (by decide)
  have hs := C20_only_one_pointer_level_is_stripped testPolicy pointerDecls
    (NewCache TestInstructions) "selfpp" Reachable.fresh (by decide)
  ⟨Reachable.fresh, by decide,
    (hc.1 0).elim (fun r h => h.elim (fun d hd => ⟨r, d, hd.1, hd.2.1, hd.2.2.1⟩)),
    by decide,
    match h : GetTypeDataFor testPolicy pointerDecls 3 (NewCache TestInstructions)
        (.struct "owner") with
    | some (r, d) =>
      ⟨r, d, rfl,
        fun n hn hidx => (((hc.2 3 (.struct "owner") "owner" r d 0
          ⟨"PP", false, [], .ptr (.ptr (.struct "leafy"))⟩ rfl h (by decide) (by decide)).2
          n hn hidx).1 rfl).1,
        fun n hn hidx => (((hc.2 3 (.struct "owner") "owner" r d 1
          ⟨"P", false, [], .ptr (.struct "leafy")⟩ rfl h (by decide) (by decide)).2
          n hn hidx).2 rfl).1,
        fun n hn hidx => (((hc.2 3 (.struct "owner") "owner" r d 2
          ⟨"V", false, [], .struct "leafy"⟩ rfl h (by decide) (by decide)).2
          n hn hidx).2 rfl).1,
        match h2 : GetTypeDataFor testPolicy pointerDecls 2 (NewCache TestInstructions)
            (.struct "selfpp") with
        | some (r2, d2) =>
          ⟨r2, d2, rfl, fun n hn hidx => (((hs.2 2 (.struct "selfpp") "selfpp" r2 d2 0
            ⟨"F", false, [], .ptr (.ptr (.struct "selfpp"))⟩ rfl h2 (by decide)
            (by decide)).2 n hn hidx).1 rfl).1⟩
        | none => absurd h2 (by decide)⟩
    | none => absurd h (by decide)⟩

end Claims20

section Claims18

variable {M : Type}

/-- What holds of every struct root and of every leaf root of a reachable state holds of
every stored root: a container key holds the root of its element type. -/
theorem Reachable.root_cases {P : InstructionSet M} {decls : Decls} {c : Cache M}
    (h : Reachable P decls c) (Q : Nat → Prop)
    (hstruct : ∀ name q, mapGet c.m (.struct name) = some q → Q q)
    (hleaf : ∀ key q, key.isLeaf = true → mapGet c.m key = some q → Q q) :
    ∀ (key : Ty) (q : Nat), mapGet c.m key = some q ∨ mapGet c.m key.deref = some q →
      Q q := by
  intro key
  induction key with
  | basic s =>
    intro q hq
    exact hleaf (.basic s) q rfl (hq.elim id id)
  | struct s =>
    intro q hq
    exact hstruct s q (hq.elim id id)
  | ptr x ih =>
    intro q hq
    rcases hq with hq | hq
    · exact hleaf (.ptr x) q rfl hq
    · exact ih q (Or.inl hq)
  | array len x ih =>
    intro q hq
    exact ih q (Or.inr (h.inv.2 (.array len x) x q rfl (hq.elim id id)))
  | slice x ih =>
    intro q hq
    exact ih q (Or.inr (h.inv.2 (.slice x) x q rfl (hq.elim id id)))
  | map k x _ ih =>
    intro q hq
    exact ih q (Or.inr (h.inv.2 (.map k x) x q rfl (hq.elim id id)))

theorem Reachable.closed_root {P : InstructionSet M} {decls : Decls} {c : Cache M}
    (h : Reachable P decls c) {key : Ty} {q : Nat} (hq : mapGet c.m key = some q) :
    NodeClosed c q := by
  refine h.root_cases (NodeClosed c) ?_ ?_ key q (Or.inl hq)
  · intro name q hq
    obtain ⟨fo, mq, es, _, h2, h3, _, _, h6, _⟩ := (h.sound _ q hq).1 name rfl
    refine ⟨_, h2, fun fq hfq => (h6 fq hfq).2, fun mq2 hmq => ?_⟩
    simp only [rootNode, Option.some.injEq] at hmq
    subst hmq
    exact getElem?_lt_of_some h3
  · intro key q hk hq
    exact ⟨_, h.leaf_root hk hq, fun fq hfq => by simp [emptyNode] at hfq,
      fun mq hmq => by simp [emptyNode] at hmq⟩

/-- The children of a stored root, by position and by name, are closed nodes that take
their own children from stored roots. -/
theorem Reachable.kin_kids {P : InstructionSet M} {decls : Decls} {c : Cache M}
    (h : Reachable P decls c) {key : Ty} {q : Nat} (hq : mapGet c.m key = some q) :
    (∀ x ∈ c.Fields q, Kin c x) ∧ ∀ s x, c.GetFieldByName q s = some x → Kin c x := by
  refine h.root_cases
    (fun q => (∀ x ∈ c.Fields q, Kin c x) ∧ ∀ s x, c.GetFieldByName q s = some x → Kin c x)
    ?_ ?_ key q (Or.inl hq)
  · intro name q hq
    obtain ⟨c0, es2, hb⟩ := h.built hq
    obtain ⟨fo, mq, es, _, h2, _, _, h5, h6, h7⟩ := (h.sound _ q hq).1 name rfl
    have hkid : ∀ x ∈ c.Fields q, Kin c x := by
      intro x hx
      refine ⟨?_, ?_⟩
      · rw [h5] at hx
        obtain ⟨e, he, rfl⟩ := List.mem_map.mp hx
        have hn := h7 e he
        unfold NodeOK at hn
        by_cases hself : e.fld.Typ.deref = .struct name
        · rw [if_pos hself] at hn
          exact ⟨_, hn, fun fq hfq => (h6 fq hfq).2, fun mq2 hmq => Option.noConfusion hmq⟩
        · rw [if_neg hself] at hn
          obtain ⟨q2, nd, hq2, hnd, ha⟩ := hn
          obtain ⟨nd2, hnd2, c1, c2⟩ := h.closed_root hq2
          rw [hnd] at hnd2
          obtain rfl := Option.some.inj hnd2
          exact ⟨_, ha, c1, c2⟩
      · obtain ⟨e, he, rfl⟩ := hb.entry_of_child hx
        obtain ⟨_, s1, n1⟩ := hb.child e he
        by_cases hself : e.fld.Typ.deref = .struct name
        · obtain ⟨f1, g1, _⟩ := s1 hself
          exact ⟨.struct name, q, hq, f1, Or.inr g1⟩
        · obtain ⟨q2, hq2, _, f1, g1, _⟩ := n1 hself
          exact ⟨_, q2, hq2, f1, Or.inl g1⟩
    refine ⟨hkid, fun s x hx => ?_⟩
    obtain ⟨e, he, rfl, _⟩ := hb.byName_some hx
    exact hkid _ (hb.child_mem he)
  · intro key q hk hq
    obtain ⟨a1, a2, _, _⟩ := emptyNode_accessors P c q (h.leaf_root hk hq)
    refine ⟨fun x hx => ?_, fun s x hx => ?_⟩
    · rw [a1] at hx
      exact absurd hx (List.not_mem_nil _)
    · rw [a2] at hx
      exact Option.noConfusion hx

theorem accessors_grows {c d : Cache M} (hg : Grows c d) {n : Nat} (hn : NodeClosed c n) :
    d.IdxOf n = c.IdxOf n ∧ d.InstructionData n = c.InstructionData n ∧
    d.Fields n = c.Fields n ∧ ∀ s, d.GetFieldByName n s = c.GetFieldByName n s := by
  obtain ⟨nd, h1, h2, h3⟩ := hn
  have h1d := hg.node_some (fun x => x) h1
  refine ⟨by simp [Cache.IdxOf, h1, h1d], by simp [Cache.InstructionData, h1, h1d],
    fields_frame hg n nd h1 (fun fq hfq => ⟨fun x => x, h2 fq hfq⟩), fun s => ?_⟩
  cases hm : nd.fieldMap with
  | none => simp [Cache.GetFieldByName, h1, h1d, hm]
  | some mq => simp [Cache.GetFieldByName, h1, h1d, hm, hg.maps mq (h3 mq hm) (fun x => x)]

theorem kin_untouched {P : InstructionSet M} {decls : Decls} {c d : Cache M}
    (h : Reachable P decls c) (hg : Grows c d) :
    ∀ (k n : Nat), Kin c n → Untouched k c d n := by
  intro k
  induction k with
  | zero => intro n _; exact True.intro
  | succ k ih =>
    intro n hn
    obtain ⟨hcl, key, q, hq, hf, hnames⟩ := hn
    obtain ⟨a1, a2, a3, a4⟩ := accessors_grows hg hcl
    obtain ⟨k1, k2⟩ := h.kin_kids hq
    refine ⟨a1, a2, a3, a4, fun x hx => ih x (k1 x (hf ▸ hx)), fun s x hx => ?_⟩
    rcases hnames with g | g
    · exact ih x (k2 s x (g s ▸ hx))
    · rw [g s] at hx
      exact Option.noConfusion hx

/-- C18. A call that returns on a reachable state changes nothing that was allocated; every
key the cache held is still held, with the same root, and the tree behind that root is what
it was at every node (`Idx`, metadata, child list, name index); and every root the cache
holds afterwards, the roots of the field types of a struct just built among them, has
`Idx = 0` and the default metadata. -/
theorem C18_stored_trees_are_never_changed (P : InstructionSet M) (decls : Decls)
    (fuel : Nat) (c d : Cache M) (t : Ty) (r : Nat) (hreach : Reachable P decls c)
    (hrun : GetTypeDataFor P decls fuel c t = some (r, d)) :
    Grows c d ∧
    (∀ key v, mapGet c.m key = some v →
      mapGet d.m key = some v ∧ ∀ k, Untouched k c d v) ∧
    ∀ key v, mapGet d.m key = some v →
      d.IdxOf v = some 0 ∧ d.InstructionData v = some P.emptyMetadata := by
  have hg : Grows c d := (getTypeDataFor_callSpec P decls fuel c t r d hreach.inv.1 hrun).2.1
  refine ⟨hg, fun key v hv => ⟨hg.keys key v hv, fun k => ?_⟩, fun key v hv => ?_⟩
  · exact kin_untouched hreach hg k v ⟨hreach.closed_root hv, key, v, hv, rfl,
      Or.inl (fun _ => rfl)⟩
  · obtain ⟨nd, h1, h2, h3⟩ := (hreach.after hrun).1.root_node key v (Or.inl hv)
    exact ⟨by simp [Cache.IdxOf, h1, h2], by simp [Cache.InstructionData, h1, h3]⟩

/-- C18, on the test file's types: `complexStruct` is requested after `embeddedStruct`;
the root held for `embeddedStruct` (address 0) is still held, its tree is untouched, and it
still has `Idx = 0` and the default metadata although two fields of `complexStruct` carry
copies of it with their own `Idx` and metadata. -/
theorem C18_stored_trees_are_never_changed_witness :
    Reachable testPolicy testDecls
      (stateAfter testPolicy testDecls 3 (NewCache TestInstructions) (.struct "embeddedStruct")) ∧
    mapGet (stateAfter testPolicy testDecls 3 (NewCache TestInstructions)
      (.struct "embeddedStruct")).m (.struct "embeddedStruct") = some 0 ∧
    ∃ r d,
      GetTypeDataFor testPolicy testDecls 3
        (stateAfter testPolicy testDecls 3 (NewCache TestInstructions)
          (.struct "embeddedStruct")) (.struct "complexStruct") = some (r, d) ∧
      mapGet d.m (.struct "embeddedStruct") = some 0 ∧
      (∀ k, Untouched k (stateAfter testPolicy testDecls 3 (NewCache TestInstructions)
        (.struct "embeddedStruct")) d 0) ∧
      d.IdxOf 0 = some 0 ∧ d.InstructionData 0 = some testPolicy.emptyMetadata :=
  ⟨reachable_stateAfter Reachable.fresh 3 _, by decide,
    match h : GetTypeDataFor testPolicy testDecls 3
        (stateAfter testPolicy testDecls 3 (NewCache TestInstructions)
          (.struct "embeddedStruct")) (.struct "complexStruct") with
    | some (r, d) =>
      have hc := C18_stored_trees_are_never_changed testPolicy testDecls 3 _ d
        (.struct "complexStruct") r (reachable_stateAfter Reachable.fresh 3 _) h
      have h0 := hc.2.1 (.struct "embeddedStruct") 0 (by decide)
      ⟨r, d, rfl, h0.1, h0.2, hc.2.2 (.struct "embeddedStruct") 0 h0.1⟩
    | none => absurd h (by decide)⟩

end Claims18

section PointerKeys

variable {M : Type}

theorem present_store (m : List (Ty × Nat)) (T x : Ty) (r : Nat) (h : mapGet m x ≠ none) :
    mapGet (mapStore T r m) x ≠ none := by
  by_cases hx : x = T
  · subst hx
    rw [mapGet_mapStore_self]
    exact fun e => Option.noConfusion e
  · rw [mapGet_mapStore_ne _ _ _ _ hx]
    exact h

theorem present_of_some {m : List (Ty × Nat)} {x : Ty} {v : Nat} (h : mapGet m x = some v) :
    mapGet m x ≠ none := by
  rw [h]
  exact fun e => Option.noConfusion e

/-- When the loop has ended, `rc.m` holds the type of every included field that is not a
direct self-reference: the nested call stored it, and nothing is removed afterwards. -/
theorem structLoop_requested (P : InstructionSet M)
    (call : Cache M → Ty → Option (Nat × Cache M)) (t : Ty) (out mp : Nat)
    (hcall : ∀ c1 ty r d1, call c1 ty = some (r, d1) →
      (∀ k v, mapGet c1.m k = some v → mapGet d1.m k = some v) ∧
      mapGet d1.m ty.deref = some r) :
    ∀ (fs : List StructField) (i : Nat) (c d : Cache M),
      structLoop P call t out mp fs i c = some d →
      (∀ k v, mapGet c.m k = some v → mapGet d.m k = some v) ∧
      ∀ f ∈ fs, included P f = true → f.Typ.deref ≠ t → mapGet d.m f.Typ.deref ≠ none := by
  intro fs
  induction fs with
  | nil =>
    intro i c d hrun
    simp only [structLoop, Option.some.injEq] at hrun
    subst hrun
    exact ⟨fun _ _ h => h, fun f hf => absurd hf (List.not_mem_nil _)⟩
  | cons g rest ih =>
    intro i c d hrun
    have hm : (ensureFields c out).2.m = c.m := ensureFields_m c out
    rw [structLoop] at hrun
    simp only at hrun
    by_cases hvis : (lowerInitial g.Name && !g.Anonymous) = true
    · rw [if_pos hvis] at hrun
      obtain ⟨k1, k2⟩ := ih (i + 1) _ d hrun
      refine ⟨fun k v hk => k1 k v (by rw [hm]; exact hk), ?_⟩
      intro f hf hinc hns
      rcases List.mem_cons.mp hf with rfl | hf
      · simp [included, hvis] at hinc
      · exact k2 f hf hinc hns
    · rw [if_neg hvis] at hrun
      by_cases hskip : P.Skip (g.tagGet P.TagNamespace) = true
      · rw [if_pos hskip] at hrun
        obtain ⟨k1, k2⟩ := ih (i + 1) _ d hrun
        refine ⟨fun k v hk => k1 k v (by rw [hm]; exact hk), ?_⟩
        intro f hf hinc hns
        rcases List.mem_cons.mp hf with rfl | hf
        · simp [included, hskip] at hinc
        · exact k2 f hf hinc hns
      · rw [if_neg hskip] at hrun
        by_cases hself : g.Typ.deref = t
        · rw [if_pos hself] at hrun
          obtain ⟨k1, k2⟩ := ih (i + 1) _ d hrun
          refine ⟨fun k v hk => k1 k v (by
            show mapGet (ensureFields c out).2.m k = some v
            rw [hm]; exact hk), ?_⟩
          intro f hf hinc hns
          rcases List.mem_cons.mp hf with rfl | hf
          · exact absurd hself hns
          · exact k2 f hf hinc hns
        · rw [if_neg hself] at hrun
          cases hc : call (ensureFields c out).2 g.Typ with
          | none => rw [hc] at hrun; exact Option.noConfusion hrun
          | some rd =>
            obtain ⟨r, d1⟩ := rd
            rw [hc] at hrun
            obtain ⟨c1, c2⟩ := hcall _ g.Typ r d1 hc
            obtain ⟨k1, k2⟩ := ih (i + 1) _ d hrun
            have k1b : ∀ k v, mapGet d1.m k = some v → mapGet d.m k = some v :=
              fun k v hk => k1 k v (by exact hk)
            refine ⟨fun k v hk => k1b k v (c1 k v (by rw [hm]; exact hk)), ?_⟩
            intro f hf hinc hns
            rcases List.mem_cons.mp hf with rfl | hf
            · exact present_of_some (k1b _ _ c2)
            · exact k2 f hf hinc hns

/-- Every key a returning call adds to `rc.m` comes with the keys of the types its build
requests. -/
theorem getTypeDataFor_requests_present (P : InstructionSet M) (decls : Decls) :
    ∀ (n : Nat) (c : Cache M) (t : Ty) (r : Nat) (d : Cache M),
      GetTypeDataFor P decls n c t = some (r, d) →
      ∀ a, mapGet c.m a = none → mapGet d.m a ≠ none →
        ∀ x ∈ requests P decls a, mapGet d.m x ≠ none := by
  intro n
  induction n with
  | zero => intro c t r d h; simp [GetTypeDataFor] at h
  | succ n ih =>
    intro c t r d h a ha had x hx
    have hspec : ∀ c1 ty r1 d1, GetTypeDataFor P decls n c1 ty = some (r1, d1) →
        (∀ k v, mapGet c1.m k = some v → mapGet d1.m k = some v) ∧
        mapGet d1.m ty.deref = some r1 :=
      fun c1 ty r1 d1 hr => ⟨(getTypeDataFor_reach P decls n c1 ty r1 d1 hr).1,
        getTypeDataFor_stored P decls n c1 d1 ty r1 hr⟩
    rcases getTypeDataFor_inv P decls n c d t r h with
      ⟨_, rfl⟩ | ⟨hm, ⟨hreq, _, hd⟩ | ⟨e, d1, _, hreq, hrun, rfl⟩ | ⟨name, d1, ht, hrun, rfl⟩⟩
    · exact absurd ha had
    · by_cases hat : a = t.deref
      · rw [hat, hreq] at hx
        exact absurd hx (List.not_mem_nil _)
      · rw [hd, mapGet_mapStore_ne _ _ _ _ hat] at had
        exact absurd ha had
    · show mapGet (mapStore t.deref r d1.m) x ≠ none
      apply present_store
      by_cases hat : a = t.deref
      · rw [hat, hreq, List.mem_singleton] at hx
        rw [hx]
        exact present_of_some (hspec _ e r d1 hrun).2
      · have had1 : mapGet d1.m a ≠ none := by
          have : mapGet (mapStore t.deref r d1.m) a ≠ none := had
          rwa [mapGet_mapStore_ne _ _ _ _ hat] at this
        exact ih (afterAlloc P c) e r d1 hrun a ha had1 x hx
    · show mapGet (mapStore (.struct name) r d1.m) x ≠ none
      apply present_store
      by_cases hat : a = .struct name
      · rw [hat] at hx
        obtain ⟨f, hf, hinc, hns, rfl⟩ := of_mem_requests_struct P decls name x hx
        exact (structLoop_requested P (GetTypeDataFor P decls n) (.struct name) _ _ hspec
          (decls name) 0 (afterAlloc P c) d1 hrun).2 f hf hinc hns
      · have had1 : mapGet d1.m a ≠ none := by
          have : mapGet (mapStore (.struct name) r d1.m) a ≠ none := had
          rwa [mapGet_mapStore_ne _ _ _ _ hat] at this
        have hinv := structLoop_inv P (GetTypeDataFor P decls n) (.struct name)
          c.nodes.length c.maps.length
          (fun m => (∀ k v, mapGet c.m k = some v → mapGet m k = some v) ∧
            ∀ a, mapGet c.m a = none → mapGet m a ≠ none →
              ∀ x ∈ requests P decls a, mapGet m x ≠ none)
          (decls name) 0 (afterAlloc P c) d1
          (fun f _ c1 r1 d2 hinv _ _ hr => by
            obtain ⟨hk, _⟩ := hspec c1 f.Typ r1 d2 hr
            refine ⟨fun k v hkv => hk k v (hinv.1 k v hkv), ?_⟩
            intro a2 ha2 had2 x2 hx2
            cases h1 : mapGet c1.m a2 with
            | none => exact ih c1 f.Typ r1 d2 hr a2 h1 had2 x2 hx2
            | some v =>
              have hp := hinv.2 a2 ha2 (present_of_some h1) x2 hx2
              cases h2 : mapGet c1.m x2 with
              | none => exact absurd h2 hp
              | some w => exact present_of_some (hk x2 w h2))
          ⟨fun _ _ hk => hk, fun a2 ha2 had2 => absurd ha2 had2⟩ hrun
        exact hinv.2 a ha had1 x hx

/-- What a chain of nested requests through missing types leads to is in `rc.m` when the
call on its first type has returned. -/
theorem getTypeDataFor_reach_present (P : InstructionSet M) (decls : Decls) (n : Nat)
    (c d : Cache M) (t : Ty) (r : Nat) (h : GetTypeDataFor P decls n c t = some (r, d))
    {a k : Ty} (hr : ReachM P decls c.m a k) :
    mapGet d.m a ≠ none → mapGet d.m k ≠ none := by
  induction hr with
  | refl a _ => exact fun h => h
  | step a b k ha hb _ ih =>
    exact fun had => ih (getTypeDataFor_requests_present P decls n c t r d h a ha had b hb)

end PointerKeys

section Claims9

variable {M : Type}

/-- C9 as amended. For a non-pointer type `T` and any cache state, requesting `*T` and
requesting `T` are the same call: same result, same final state; a cached root is looked up
under the key `T`, and a returned root is stored under the key `T`.  An entry keyed by `*T`
is created exactly when the build requests the type `**T`, that is when a chain of nested
requests through types the cache does not hold leads from `T` to the key `*T`; an included
field of `T` declared `**T` is such a chain.  On a reachable state that entry is an empty
node. -/
theorem C9_pointer_and_pointee_share_one_entry (P : InstructionSet M) (decls : Decls)
    (fuel : Nat) (c : Cache M) (T : Ty) (hT : T.isPtr = false) :
    GetTypeDataFor P decls fuel c (.ptr T) = GetTypeDataFor P decls fuel c T ∧
    (∀ q, mapGet c.m T = some q →
      GetTypeDataFor P decls (fuel + 1) c (.ptr T) = some (q, c) ∧
      GetTypeDataFor P decls (fuel + 1) c T = some (q, c)) ∧
    ∀ r d, GetTypeDataFor P decls fuel c T = some (r, d) →
      mapGet d.m T = some r ∧
      (mapGet c.m (.ptr T) = none →
        (mapGet d.m (.ptr T) ≠ none ↔ ReachM P decls c.m T (.ptr T))) ∧
      (∀ (name : String) (f : StructField), T = .struct name → mapGet c.m T = none →
        f ∈ decls name → included P f = true → f.Typ = .ptr (.ptr T) →
        mapGet d.m (.ptr T) ≠ none) ∧
      (Reachable P decls c → ∀ q, mapGet d.m (.ptr T) = some q →
        d.Fields q = [] ∧ ∀ s, d.GetFieldByName q s = none) := by
  have hd : T.deref = T := Ty.deref_of_not_isPtr T hT
  refine ⟨getTypeDataFor_congr_deref P decls fuel c _ _ (by rw [hd]; rfl), ?_, ?_⟩
  · intro q hq
    exact ⟨getTypeDataFor_hit P decls fuel c (.ptr T) q hq,
      getTypeDataFor_hit P decls fuel c T q (by rw [hd]; exact hq)⟩
  · intro r d h
    have hst : mapGet d.m T = some r := by
      have := getTypeDataFor_stored P decls fuel c d T r h
      rwa [hd] at this
    have hback : ReachM P decls c.m T (.ptr T) → mapGet d.m (.ptr T) ≠ none :=
      fun hr => getTypeDataFor_reach_present P decls fuel c d T r h hr (present_of_some hst)
    refine ⟨hst, fun hmiss => ⟨fun hpres => ?_, hback⟩, ?_, ?_⟩
    · have := (getTypeDataFor_reach P decls fuel c T r d h).2 _ hmiss hpres
      rwa [hd] at this
    · intro name f hname hmT hf hinc hty
      cases hp : mapGet c.m (.ptr T) with
      | some v =>
        exact present_of_some ((getTypeDataFor_reach P decls fuel c T r d h).1 _ v hp)
      | none =>
        refine hback (ReachM.step _ (.ptr T) _ hmT ?_ (ReachM.refl _ hp))
        subst hname
        have := mem_requests_struct P decls name f hf hinc (by
          rw [hty]
          exact fun e => Ty.noConfusion e)
        rwa [hty] at this
    · intro hreach q hq
      have hl : (Ty.ptr T).isLeaf = true := rfl
      obtain ⟨a1, a2, _, _⟩ :=
        emptyNode_accessors P d q ((hreach.after h).1.leaf_root hl hq)
      exact ⟨a1, a2⟩

/-- C9, the claim as stated fails: `ptrptr` has a field of type `**ptrptr`; requesting
`*ptrptr` on a fresh cache stores the root under the key `ptrptr` and, through that field,
an empty node under the key `*ptrptr`. -/
theorem C9_pointer_key_counterexample :
    mapGet (NewCache TestInstructions).m (.ptr (.struct "ptrptr")) = none ∧
    (GetTypeDataFor testPolicy scenarioDecls 3 (NewCache TestInstructions)
        (.ptr (.struct "ptrptr"))).map
      (fun x => (x.1, mapGet x.2.m (.struct "ptrptr"), mapGet x.2.m (.ptr (.struct "ptrptr")))) =
      some (0, some 0, some 2) := by
  decide

/-- C9 as amended, on `owner { PP **leafy; P *leafy; V leafy }` and on
`selfpp { F **selfpp }` (fresh cache): both requests for `owner` agree, its root is stored
under `owner`, and no key `*owner` appears since nothing requests `**owner`; the build of
`selfpp` requests `**selfpp` and leaves an empty node under `*selfpp`. -/
theorem C9_pointer_and_pointee_share_one_entry_witness :
    (Ty.struct "owner").isPtr = false ∧
    GetTypeDataFor testPolicy pointerDecls 3 (NewCache TestInstructions)
        (.ptr (.struct "owner")) =
      GetTypeDataFor testPolicy pointerDecls 3 (NewCache TestInstructions) (.struct "owner") ∧
    (∃ r d, GetTypeDataFor testPolicy pointerDecls 3 (NewCache TestInstructions)
        (.struct "owner") = some (r, d) ∧
      mapGet d.m (.struct "owner") = some r ∧
      (mapGet d.m (.ptr (.struct "owner")) ≠ none ↔
        ReachM testPolicy pointerDecls (NewCache TestInstructions).m (.struct "owner")
          (.ptr (.struct "owner")))) ∧
    (GetTypeDataFor testPolicy pointerDecls 3 (NewCache TestInstructions)
        (.struct "owner")).map (fun x => mapGet x.2.m (.ptr (.struct "owner"))) =
      some none ∧
    ∃ r d, GetTypeDataFor testPolicy pointerDecls 2 (NewCache TestInstructions)
        (.struct "selfpp") = some (r, d) ∧
      mapGet d.m (.struct "selfpp") = some r ∧
      mapGet d.m (.ptr (.struct "selfpp")) ≠ none ∧
      ∀ q, mapGet d.m (.ptr (.struct "selfpp")) = some q →
        d.Fields q = [] ∧ ∀ s, d.GetFieldByName q s = none :=
  have hc := C9_pointer_and_pointee_share_one_entry testPolicy pointerDecls 3
    (NewCache TestInstructions) (.struct "owner") rfl
  have hs := C9_pointer_and_pointee_share_one_entry testPolicy pointerDecls 2
    (NewCache TestInstructions) (.struct "selfpp") rfl
  ⟨rfl, hc.1,
    match h : GetTypeDataFor testPolicy pointerDecls 3 (NewCache TestInstructions)
        (.struct "owner") with
    | some (r, d) => ⟨r, d, rfl, (hc.2.2 r d h).1, (hc.2.2 r d h).2.1 rfl⟩
    | none => absurd h (by decide),
    by decide,
    match h : GetTypeDataFor testPolicy pointerDecls 2 (NewCache TestInstructions)
        (.struct "selfpp") with
    | some (r, d) =>
      ⟨r, d, rfl, (hs.2.2 r d h).1,
        (hs.2.2 r d h).2.2.1 "selfpp" ⟨"F", false, [], .ptr (.ptr (.struct "selfpp"))⟩ rfl rfl
          (by decide) (by decide) rfl,
        (hs.2.2 r d h).2.2.2 Reachable.fresh⟩
    | none => absurd h (by decide)⟩

end Claims9

end rcache
